import Mathlib

/-! # ios-kern-utils: `libkern.c`

A shallow embedding of the kernel access layer of `src/lib/libkern.c`
(`get_kernel_task`, `get_kernel_base`, `kernel_read`, `kernel_write`,
`kernel_find`).

The privileged Mach interface is an oracle with a state of its own: every
call takes the oracle state and returns its reply together with the next
oracle state.  The two function-local statics of `get_kernel_task` and a
log of the Mach calls issued so far are carried next to it in a `World`.
Machine integers are natural numbers reduced modulo `2^64` wherever the C
code can wrap.  Loops that the C code does not bound are given a fuel
argument and return `none` when it runs out.
-/

namespace KernUtils

/-! ## Constants -/

/-- Number of values of a 64-bit word (`vm_address_t`, `vm_size_t`, `kaddr_t`). -/
def WORD : Nat := 2 ^ 64

/-- Return code `KERN_SUCCESS` of `<mach/kern_return.h>`. -/
def KERN_SUCCESS : Nat := 0

/-- Return code `KERN_FAILURE` of `<mach/kern_return.h>`. -/
def KERN_FAILURE : Nat := 5

/-- Port name `MACH_PORT_NULL` of `<mach/port.h>`. -/
def MACH_PORT_NULL : Nat := 0

/-- Port name `MACH_PORT_DEAD` of `<mach/port.h>`, all 32 bits set. -/
def MACH_PORT_DEAD : Nat := 0xFFFFFFFF

/-- Test `MACH_PORT_VALID` of `<mach/port.h>`: neither null nor dead. -/
def MACH_PORT_VALID (name : Nat) : Bool :=
  name != MACH_PORT_NULL && name != MACH_PORT_DEAD

/-- Chunk limit of `libkern.c`, line 28. -/
def MAX_CHUNK_SIZE : Nat := 0xFFF

/-- Link address of `libkern.c`, line 32. -/
def VM_KERNEL_LINK_ADDRESS : Nat := 0xFFFFFFF007004000

/-- Allocation tag of `libkern.c`, line 33. -/
def VM_KERN_MEMORY_CPU : Nat := 9

/-- Protection `VM_PROT_DEFAULT` of `<mach/vm_prot.h>`: read and write. -/
def VM_PROT_DEFAULT : Nat := 3

/-- Magic `MH_MAGIC_64` of `<mach-o/loader.h>`. -/
def MH_MAGIC_64 : Nat := 0xfeedfacf

/-- CPU type `CPU_TYPE_ARM64` of `<mach/machine.h>`. -/
def CPU_TYPE_ARM64 : Nat := 0x0100000c

/-- File type `MH_EXECUTE` of `<mach-o/loader.h>`. -/
def MH_EXECUTE : Nat := 2

/-- The value `(vm_size_t)-1` returned by `kernel_read` and `kernel_write`
when no kernel task port is available. -/
def SIZE_ERROR : Nat := WORD - 1

/-! ## The Mach oracle and the world -/

/-- The Mach calls made by `libkern.c`. -/
inductive Call where
  | task_for_pid
  | host_get_special_port
  | pid_for_task
  | task_info
  | mach_vm_region
  | vm_read_overwrite
  | vm_write
deriving DecidableEq, Repr

/-- One logged Mach call: which call, its remote address and requested size
(zero where the call has none), the offset of the local buffer pointer it was
given, the `kern_return_t` it gave back and the number of bytes it reported
as moved. -/
structure Event where
  call : Call
  addr : Nat
  size : Nat
  off : Nat
  kr : Nat
  moved : Nat
deriving DecidableEq, Repr

/-- Reply of `mach_vm_region`: return code, the address and size of the region
found, and the two fields of the extended info that `get_kernel_base` reads. -/
structure RegionReply where
  kr : Nat
  addr : Nat
  size : Nat
  user_tag : Nat
  protection : Nat
deriving DecidableEq, Repr

/-- The privileged interface as an oracle over a state `σ`.  An out-parameter
that a call may leave untouched is an `Option`.  `vm_read_overwrite` answers
with its return code and the bytes it stored at the destination; the length of
that list is the value it stores in `*outsize`.  The last three fields are the
system globals `vm_kernel_page_size` and `vm_kernel_page_mask` and the
build-time constant of lines 34-38 (`0x190` on arm64e, `0x198` otherwise). -/
structure Mach (σ : Type) where
  task_for_pid : σ → (Nat × Option Nat) × σ
  host_get_special_port : σ → (Nat × Option Nat) × σ
  pid_for_task : σ → Nat → (Nat × Int) × σ
  task_info : σ → Nat → (Nat × Nat) × σ
  mach_vm_region : σ → Nat → Nat → RegionReply × σ
  vm_read_overwrite : σ → Nat → Nat → Nat → (Nat × List Nat) × σ
  vm_write : σ → Nat → Nat → List Nat → Nat × σ
  vm_kernel_page_size : Nat
  vm_kernel_page_mask : Nat
  CPU_DATA_RTCLOCK_DATAP_OFF : Nat

/-- Oracle state, the statics `init` and `tfp0` of `get_kernel_task`, and the
log of Mach calls. -/
structure World (σ : Type) where
  env : σ
  init : Bool
  tfp0 : Nat
  trace : List Event

/-- Log entry of a call without address or size. -/
def plainEvent (c : Call) (kr : Nat) : Event :=
  ⟨c, 0, 0, 0, kr, 0⟩

/-! ## `get_kernel_task` (lines 44-68) -/

/-- The body of `if (!init) { ... }`, lines 49-61. -/
def acquire {σ : Type} (M : Mach σ) (w : World σ) : World σ :=
  let r1 := M.task_for_pid w.env
  let t1 := r1.1.2.getD w.tfp0
  let tr1 := w.trace ++ [plainEvent Call.task_for_pid r1.1.1]
  let w2 : World σ :=
    if r1.1.1 != KERN_SUCCESS then
      let r2 := M.host_get_special_port r1.2
      ⟨r2.2, w.init, r2.1.2.getD t1,
        tr1 ++ [plainEvent Call.host_get_special_port r2.1.1]⟩
    else
      ⟨r1.2, w.init, t1, tr1⟩
  let w3 : World σ :=
    if MACH_PORT_VALID w2.tfp0 then
      let r3 := M.pid_for_task w2.env w2.tfp0
      let tr3 := w2.trace ++ [plainEvent Call.pid_for_task r3.1.1]
      if r3.1.1 != KERN_SUCCESS || r3.1.2 != 0 then
        ⟨r3.2, w2.init, MACH_PORT_NULL, tr3⟩
      else
        ⟨r3.2, w2.init, w2.tfp0, tr3⟩
    else
      ⟨w2.env, w2.init, MACH_PORT_NULL, w2.trace⟩
  ⟨w3.env, true, w3.tfp0, w3.trace⟩

/-- Function `get_kernel_task`: the result is the returned `kern_return_t`, the
value stored in `*ptask`, and the world afterwards. -/
def get_kernel_task {σ : Type} (M : Mach σ) (w : World σ) : (Nat × Nat) × World σ :=
  let w1 := if !w.init then acquire M w else w
  if w1.tfp0 == MACH_PORT_NULL then
    ((KERN_FAILURE, w1.tfp0), w1)
  else
    ((KERN_SUCCESS, w1.tfp0), w1)

/-! ## `kernel_read` and `kernel_write` (lines 114-175) -/

/-- Contents of a local buffer after `data` has been stored at offset `off`. -/
def storeBytes (buf : Nat → Nat) (off : Nat) (data : List Nat) : Nat → Nat :=
  fun j => if off ≤ j ∧ j < off + data.length then data.getD (j - off) 0 else buf j

/-- The `n` bytes of a local buffer that start at offset `off`. -/
def loadBytes (buf : Nat → Nat) (off n : Nat) : List Nat :=
  (List.range n).map (fun j => buf (off + j))

/-- What `kernel_read` leaves behind: the returned count, the contents of the
caller's buffer, and the world. -/
structure Xfer (σ : Type) where
  ret : Nat
  buf : Nat → Nat
  world : World σ

/-- The chunk size of lines 133 and 163:
`remainder > MAX_CHUNK_SIZE ? MAX_CHUNK_SIZE : remainder`. -/
def chunk_size (remainder : Nat) : Nat :=
  if remainder > MAX_CHUNK_SIZE then MAX_CHUNK_SIZE else remainder

/-- The `for` loop of `kernel_read`, lines 131-142, entered at its condition
with the current `addr`, `remainder` and `bytes_read`; `lim` is the local
`end`. -/
def kernel_read_loop {σ : Type} (M : Mach σ) (task lim : Nat) :
    Nat → Nat → Nat → Nat → (Nat → Nat) → World σ → Option (Xfer σ)
  | 0, _, _, _, _, _ => none
  | fuel + 1, addr, remainder, bytes_read, buf, w =>
    if addr < lim then
      let size := chunk_size remainder
      let r := M.vm_read_overwrite w.env task addr size
      let out := r.1.2.length % WORD
      let w1 : World σ := ⟨r.2, w.init, w.tfp0,
        w.trace ++ [⟨Call.vm_read_overwrite, addr, size, bytes_read, r.1.1, out⟩]⟩
      let buf1 := storeBytes buf bytes_read r.1.2
      if r.1.1 != KERN_SUCCESS || out == 0 then
        some ⟨bytes_read, buf1, w1⟩
      else
        kernel_read_loop M task lim fuel ((addr + out) % WORD)
          ((remainder + WORD - out) % WORD) ((bytes_read + out) % WORD) buf1 w1
    else
      some ⟨bytes_read, buf, w⟩

/-- Function `kernel_read`. -/
def kernel_read {σ : Type} (M : Mach σ) (fuel addr size : Nat) (buf : Nat → Nat)
    (w : World σ) : Option (Xfer σ) :=
  let t := get_kernel_task M w
  if t.1.1 != KERN_SUCCESS then
    some ⟨SIZE_ERROR, buf, t.2⟩
  else
    kernel_read_loop M t.1.2 ((addr + size) % WORD) fuel addr size 0 buf t.2

/-- The `for` loop of `kernel_write`, lines 161-172. -/
def kernel_write_loop {σ : Type} (M : Mach σ) (task lim : Nat) (buf : Nat → Nat) :
    Nat → Nat → Nat → Nat → World σ → Option (Nat × World σ)
  | 0, _, _, _, _ => none
  | fuel + 1, addr, remainder, bytes_written, w =>
    if addr < lim then
      let size := chunk_size remainder
      let r := M.vm_write w.env task addr (loadBytes buf bytes_written size)
      let w1 : World σ := ⟨r.2, w.init, w.tfp0,
        w.trace ++ [⟨Call.vm_write, addr, size, bytes_written, r.1, size⟩]⟩
      if r.1 != KERN_SUCCESS then
        some (bytes_written, w1)
      else
        kernel_write_loop M task lim buf fuel ((addr + size) % WORD)
          ((remainder + WORD - size) % WORD) ((bytes_written + size) % WORD) w1
    else
      some (bytes_written, w)

/-- Function `kernel_write`. -/
def kernel_write {σ : Type} (M : Mach σ) (fuel addr size : Nat) (buf : Nat → Nat)
    (w : World σ) : Option (Nat × World σ) :=
  let t := get_kernel_task M w
  if t.1.1 != KERN_SUCCESS then
    some (SIZE_ERROR, t.2)
  else
    kernel_write_loop M t.1.2 ((addr + size) % WORD) buf fuel addr size 0 t.2

/-! ## `kernel_find` (lines 177-195) -/

/-- Offset of the first place at or after position `i` where `s` starts in the
rest `l` of the haystack. -/
def memmemFrom (s : List Nat) : List Nat → Nat → Option Nat
  | [], _ => none
  | h :: t, i => if s.isPrefixOf (h :: t) then some i else memmemFrom s t (i + 1)

/-- The libc routine `memmem` as Darwin implements it: the offset of the first
occurrence of `s` in `l`, and no match when either of them is empty. -/
def memmem (l s : List Nat) : Option Nat :=
  if l.isEmpty || s.isEmpty then none else memmemFrom s l 0

/-- Function `kernel_find`.  `pattern` stands for `buf` and `size`; `b` is what
`malloc(len)` gave: `none` for a null pointer, otherwise the bytes found in
the fresh block. -/
def kernel_find {σ : Type} (M : Mach σ) (fuel addr len : Nat) (pattern : List Nat)
    (b : Option (Nat → Nat)) (w : World σ) : Option (Nat × World σ) :=
  match b with
  | none => some (0, w)
  | some b0 =>
    match kernel_read M fuel addr len b0 w with
    | none => none
    | some x =>
      if x.ret != 0 then
        match memmem (loadBytes x.buf 0 len) pattern with
        | some i => some ((addr + i) % WORD, x.world)
        | none => some (0, x.world)
      else
        some (0, x.world)

/-! ## `get_kernel_base` (lines 72-112) -/

/-- Little-endian value of the `n` bytes at offset `off` of a buffer. -/
def leValue (buf : Nat → Nat) : Nat → Nat → Nat
  | _, 0 => 0
  | off, n + 1 => buf off % 256 + 256 * leValue buf (off + 1) n

/-- Macro `trunc_page_kernel` of `<mach/vm_param.h>`: `x & ~vm_kernel_page_mask`. -/
def trunc_page_kernel {σ : Type} (M : Mach σ) (x : Nat) : Nat :=
  Nat.land x (Nat.xor (WORD - 1) (M.vm_kernel_page_mask % WORD))

/-- The loop condition of line 107 on the bytes of `mh64`: fields `magic`,
`cputype` and `filetype` sit at offsets 0, 4 and 12. -/
def header_mismatch (mh64 : Nat → Nat) : Bool :=
  leValue mh64 0 4 != MH_MAGIC_64 || leValue mh64 4 4 != CPU_TYPE_ARM64
    || leValue mh64 12 4 != MH_EXECUTE

/-- The `do ... while` loop of lines 99-107, entered at its top with the current
`rtclock_datap` and the current bytes of `mh64`; `rfuel` is the fuel handed to
each `kernel_read`. -/
def walk_back {σ : Type} (M : Mach σ) (rfuel : Nat) :
    Nat → Nat → (Nat → Nat) → World σ → Option (Nat × World σ)
  | 0, _, _, _ => none
  | fuel + 1, rtclock_datap, mh64, w =>
    if rtclock_datap ≤ VM_KERNEL_LINK_ADDRESS then
      some (0, w)
    else
      let p := (rtclock_datap + WORD - M.vm_kernel_page_size % WORD) % WORD
      match kernel_read M rfuel p 32 mh64 w with
      | none => none
      | some x =>
        if x.ret != KERN_SUCCESS then
          some (0, x.world)
        else if header_mismatch x.buf then
          walk_back M rfuel fuel p x.buf x.world
        else
          some (p, x.world)

/-- The region loop of lines 92-110, entered at its condition with the current
`addr`.  `rt0` and `mh0` are the bytes that the uninitialised locals
`rtclock_datap` and `mh64` hold.  The call of `mach_port_deallocate` on the
object name has no bearing on the result and is left out. -/
def region_scan {σ : Type} (M : Mach σ) (rfuel task : Nat) (rt0 mh0 : Nat → Nat) :
    Nat → Nat → World σ → Option (Nat × World σ)
  | 0, _, _ => none
  | fuel + 1, addr, w =>
    let r := M.mach_vm_region w.env task addr
    let w1 : World σ := ⟨r.2, w.init, w.tfp0,
      w.trace ++ [⟨Call.mach_vm_region, addr, 0, 0, r.1.kr, 0⟩]⟩
    if r.1.kr != KERN_SUCCESS then
      some (0, w1)
    else if r.1.user_tag == VM_KERN_MEMORY_CPU && r.1.protection == VM_PROT_DEFAULT then
      match kernel_read M rfuel ((r.1.addr + M.CPU_DATA_RTCLOCK_DATAP_OFF) % WORD) 8 rt0 w1 with
      | none => none
      | some x =>
        if x.ret != KERN_SUCCESS then
          some (0, x.world)
        else
          walk_back M rfuel rfuel (trunc_page_kernel M (leValue x.buf 0 8)) mh0 x.world
    else
      region_scan M rfuel task rt0 mh0 fuel ((r.1.addr + r.1.size) % WORD) w1

/-- Function `get_kernel_base`.  One `fuel` bounds each of its loops. -/
def get_kernel_base {σ : Type} (M : Mach σ) (fuel : Nat) (rt0 mh0 : Nat → Nat)
    (w : World σ) : Option (Nat × World σ) :=
  let t := get_kernel_task M w
  if t.1.1 != KERN_SUCCESS then
    some (0, t.2)
  else
    let i := M.task_info t.2.env t.1.2
    let w1 : World σ := ⟨i.2, t.2.init, t.2.tfp0,
      t.2.trace ++ [plainEvent Call.task_info i.1.1]⟩
    if i.1.1 == KERN_SUCCESS && i.1.2 != 0 then
      some ((VM_KERNEL_LINK_ADDRESS + i.1.2) % WORD, w1)
    else
      region_scan M fuel t.1.2 rt0 mh0 fuel 0 w1

/-! ## A simulated kernel for worked examples -/

/-- Return code `KERN_INVALID_ADDRESS` of `<mach/kern_return.h>`. -/
def KERN_INVALID_ADDRESS : Nat := 1

/-- A test double over a remote memory `Nat → Nat`: fixed replies to the task
calls, a region table indexed by the cursor, and a transport that fails with
`KERN_INVALID_ADDRESS` at the addresses in `fault`, otherwise reads
`deliver a n` bytes for a request of `n` bytes at `a`, and stores every
write. -/
def simMach (tfp hsp : Nat × Option Nat) (pid : Nat × Int) (info : Nat × Nat)
    (region : Nat → RegionReply) (fault : Nat → Bool) (deliver : Nat → Nat → Nat) :
    Mach (Nat → Nat) where
  task_for_pid := fun m => (tfp, m)
  host_get_special_port := fun m => (hsp, m)
  pid_for_task := fun m _ => (pid, m)
  task_info := fun m _ => (info, m)
  mach_vm_region := fun m _ a => (region a, m)
  vm_read_overwrite := fun m _ a n =>
    if fault a then ((KERN_INVALID_ADDRESS, []), m)
    else ((KERN_SUCCESS, loadBytes m a (deliver a n)), m)
  vm_write := fun m _ a d => (KERN_SUCCESS, fun x => storeBytes m a d x)
  vm_kernel_page_size := 0x4000
  vm_kernel_page_mask := 0x3FFF
  CPU_DATA_RTCLOCK_DATAP_OFF := 0x198

/-- A fresh process over remote memory `m`: statics as the loader leaves them,
nothing logged. -/
def freshWorld (m : Nat → Nat) : World (Nat → Nat) :=
  ⟨m, false, MACH_PORT_NULL, []⟩

/-- Region table without any region. -/
def noRegion : Nat → RegionReply :=
  fun _ => ⟨KERN_INVALID_ADDRESS, 0, 0, 0, 0⟩

/-- Test double whose `task_for_pid` hands out the kernel task port `0x103`,
with the direct hint `slide` and a transport that never fails. -/
def grantMach (slide : Nat) : Mach (Nat → Nat) :=
  simMach (KERN_SUCCESS, some 0x103) (KERN_FAILURE, none) (KERN_SUCCESS, 0)
    (KERN_SUCCESS, slide) noRegion (fun _ => false) (fun _ n => n)

/-! ## Vocabulary of the capability cache -/

/-- The port left in `tfp0` by lines 49-52, before it is validated. -/
def acquired_port {σ : Type} (M : Mach σ) (w : World σ) : Nat :=
  let r1 := M.task_for_pid w.env
  if r1.1.1 = KERN_SUCCESS then r1.1.2.getD w.tfp0
  else (M.host_get_special_port r1.2).1.2.getD (r1.1.2.getD w.tfp0)

/-- The reply of `pid_for_task` to the owner query of line 55 on the acquired
port. -/
def owner_reply {σ : Type} (M : Mach σ) (w : World σ) : Nat × Int :=
  let r1 := M.task_for_pid w.env
  let e := if r1.1.1 = KERN_SUCCESS then r1.2 else (M.host_get_special_port r1.2).2
  (M.pid_for_task e (acquired_port M w)).1

/-- The world in which `get_kernel_task` returns: the one it was called in
when `init` is set, otherwise the one `acquire` leaves. -/
def settled {σ : Type} (M : Mach σ) (w : World σ) : World σ :=
  if w.init then w else acquire M w

/-! ## Vocabulary of the call log -/

/-- Calls of the capability cache. -/
def Call.isAcquire : Call → Bool
  | Call.task_for_pid => true
  | Call.host_get_special_port => true
  | Call.pid_for_task => true
  | _ => false

/-- The log `tr` extends the log `old` by calls of the capability cache only. -/
def OnlyAcquire (old tr : List Event) : Prop :=
  ∃ l, tr = old ++ l ∧ ∀ e ∈ l, e.call.isAcquire = true

/-! ## Chunk plans and transports -/

/-- The chunk plan of a request `(a, L)` from byte `cnt` on, as log entries of
the call `c`: entry `i` is at address `a + cnt + 4095 * i`, for
`min 4095 (L - cnt - 4095 * i)` bytes, at buffer offset `cnt + 4095 * i`, and
there are `⌈(L - cnt) / 4095⌉` of them. -/
def planFrom (c : Call) (a L cnt : Nat) : List Event :=
  (List.range ((L - cnt + 4094) / 4095)).map fun i =>
    ⟨c, a + cnt + 4095 * i, min 4095 (L - cnt - 4095 * i), cnt + 4095 * i, KERN_SUCCESS,
      min 4095 (L - cnt - 4095 * i)⟩

/-- The chunk plan of a request `(a, L)`: `⌈L / 4095⌉` calls, call `i` at address
`a + 4095 * i` for `min 4095 (L - 4095 * i)` bytes at buffer offset
`4095 * i`, each one succeeding in full. -/
def chunkPlan (c : Call) (a L : Nat) : List Event :=
  (List.range ((L + 4094) / 4095)).map fun i =>
    ⟨c, a + 4095 * i, min 4095 (L - 4095 * i), 4095 * i, KERN_SUCCESS,
      min 4095 (L - 4095 * i)⟩

/-- A read transport in which every call succeeds and stores exactly the
requested number of bytes. -/
def ExactRead {σ : Type} (M : Mach σ) : Prop :=
  ∀ e t x n, (M.vm_read_overwrite e t x n).1.1 = KERN_SUCCESS
    ∧ (M.vm_read_overwrite e t x n).1.2.length = n

/-- A write transport in which every call succeeds. -/
def ExactWrite {σ : Type} (M : Mach σ) : Prop :=
  ∀ e t x d, (M.vm_write e t x d).1 = KERN_SUCCESS

/-- A logged transport call failed: it returned an error or moved no byte. -/
def Event.failed (e : Event) : Bool :=
  e.kr != KERN_SUCCESS || e.moved == 0

/-- Total of the sizes moved by the calls that precede the first failed one. -/
def movedBefore (evs : List Event) : Nat :=
  ((evs.takeWhile fun e => !e.failed).map Event.moved).sum

/-- Total of the sizes moved by the first `k` calls. -/
def movedSoFar (evs : List Event) (k : Nat) : Nat :=
  ((evs.take k).map Event.moved).sum

/-- The discipline of the chunk loop on the calls `evs` of a request at
address `a`: every call is a call of `c`, asks for between 1 and 4095 bytes,
starts at address `a + count` and buffer offset `count` where `count` is what
the calls before it moved, and a call that failed is the last one. -/
def ChunkDiscipline (c : Call) (a : Nat) (evs : List Event) : Prop :=
  ∀ k e, evs[k]? = some e →
    e.call = c ∧ 1 ≤ e.size ∧ e.size ≤ 4095
      ∧ e.addr = a + movedSoFar evs k ∧ e.off = movedSoFar evs k
      ∧ (e.failed = true → k + 1 = evs.length)

/-- A read transport that never reports more bytes than it was asked for. -/
def HonestRead {σ : Type} (M : Mach σ) : Prop :=
  ∀ e t x n, (M.vm_read_overwrite e t x n).1.2.length ≤ n

/-- The chunk discipline in recursive form, with `cnt` bytes moved before the
first call of the list. -/
def Chained (c : Call) (a : Nat) : Nat → List Event → Prop
  | _, [] => True
  | cnt, e :: es =>
    e.call = c ∧ 1 ≤ e.size ∧ e.size ≤ 4095 ∧ e.addr = a + cnt ∧ e.off = cnt
      ∧ (if e.failed then es = [] else Chained c a (cnt + e.moved) es)

/-- Test double that grants the port `0x103` and whose reads deliver at most 3
bytes per call and fail from address `0x1008` on. -/
def shortMach : Mach (Nat → Nat) :=
  simMach (KERN_SUCCESS, some 0x103) (KERN_FAILURE, none) (KERN_SUCCESS, 0)
    (KERN_SUCCESS, 0) noRegion (fun a => decide (0x1008 ≤ a)) (fun _ n => min n 3)

/-- Test double whose acquisition is denied on both paths. -/
def denyMach : Mach (Nat → Nat) :=
  simMach (KERN_FAILURE, none) (KERN_FAILURE, none) (KERN_FAILURE, 0)
    (KERN_FAILURE, 0) noRegion (fun _ => false) (fun _ n => n)

/-! ## Windows, patterns and further simulated kernels -/

/-- The pattern `s` occurs in the window `l` at offset `i`. -/
def OccursAt (s l : List Nat) (i : Nat) : Prop :=
  s <+: l.drop i

instance (s l : List Nat) (i : Nat) : Decidable (OccursAt s l i) := by
  unfold OccursAt; infer_instance

/-- A read transport that always succeeds and delivers the bytes of the remote
memory `mem`. -/
def FaithfulRead {σ : Type} (M : Mach σ) (mem : Nat → Nat) : Prop :=
  ∀ e t x n, (M.vm_read_overwrite e t x n).1 = (KERN_SUCCESS, loadBytes mem x n)

/-- Test double that grants the port `0x103` and whose reads deliver the bytes
of the fixed remote memory `mem`. -/
def romMach (mem : Nat → Nat) : Mach (Nat → Nat) :=
  { grantMach 0 with
    vm_read_overwrite := fun e _ a n => ((KERN_SUCCESS, loadBytes mem a n), e) }

/-- Remote memory that is zero except for the bytes `DE AD` at `0x1040`. -/
def patMem : Nat → Nat :=
  fun x => if x = 0x1040 then 0xDE else if x = 0x1041 then 0xAD else 0

/-- Test double that grants the port `0x103` and whose reads fail from address
`0x1FFF` on. -/
def chunkFaultMach : Mach (Nat → Nat) :=
  simMach (KERN_SUCCESS, some 0x103) (KERN_FAILURE, none) (KERN_SUCCESS, 0)
    (KERN_SUCCESS, 0) noRegion (fun a => decide (0x1FFF ≤ a)) (fun _ n => n)

/-- A block from `malloc` that still holds the bytes `DE AD` at offsets 4095 and
4096 and zeros elsewhere. -/
def staleBlock : Nat → Nat :=
  fun j => if j = 4095 then 0xDE else if j = 4096 then 0xAD else 0

/-- Remote memory given by segments `(base, bytes)`; zero elsewhere. -/
def memOf : List (Nat × List Nat) → Nat → Nat
  | [], _ => 0
  | seg :: rest, x =>
    if seg.1 ≤ x ∧ x < seg.1 + seg.2.length then seg.2.getD (x - seg.1) 0 else memOf rest x

/-- Region table whose first region, found from cursor 0, is a CPU data region
at `0xFFFFFFE000A00000` with default protection. -/
def cpuRegion : Nat → RegionReply :=
  fun a => if a = 0 then ⟨KERN_SUCCESS, 0xFFFFFFE000A00000, 0x4000, VM_KERN_MEMORY_CPU,
    VM_PROT_DEFAULT⟩ else ⟨KERN_INVALID_ADDRESS, 0, 0, 0, 0⟩

/-- Kernel memory: the field at offset `0x198` of the CPU data region holds the
pointer `0xFFFFFFF007010123`, and the page `0xFFFFFFF007008000` starts with a
64-bit Mach-O header of an ARM64 executable. -/
def kernelMem : Nat → Nat :=
  memOf [(0xFFFFFFE000A00198, [0x23, 0x01, 0x01, 0x07, 0xF0, 0xFF, 0xFF, 0xFF]),
    (0xFFFFFFF007008000, [0xCF, 0xFA, 0xED, 0xFE, 0x0C, 0x00, 0x00, 0x01,
      0x00, 0x00, 0x00, 0x00, 0x02, 0x00, 0x00, 0x00])]

/-- Test double for the scan: port granted, no direct hint (`task_info` reports
size 0), the CPU region first, and reads that fail at the addresses in `fault`
and are complete elsewhere. -/
def scanMach (fault : Nat → Bool) : Mach (Nat → Nat) :=
  simMach (KERN_SUCCESS, some 0x103) (KERN_FAILURE, none) (KERN_SUCCESS, 0)
    (KERN_SUCCESS, 0) cpuRegion fault (fun _ n => n)

/-- Bytes of an uninitialised `rtclock_datap` that read as the pointer
`0xFFFFFFF00700C000`. -/
def staleDatap : Nat → Nat :=
  memOf [(0, [0x00, 0xC0, 0x00, 0x07, 0xF0, 0xFF, 0xFF, 0xFF])]

/-- Bytes of an uninitialised `mh64` that read as a matching header. -/
def staleHeader : Nat → Nat :=
  memOf [(0, [0xCF, 0xFA, 0xED, 0xFE, 0x0C, 0x00, 0x00, 0x01,
    0x00, 0x00, 0x00, 0x00, 0x02, 0x00, 0x00, 0x00])]

/-! ## `kmap.c`: labels (lines 138-270) -/

/-- The `case` labels of the `switch` in `kern_tag`, lines 142-241, in source
order. -/
def kern_tag_cases : List (Nat × String) :=
  [(0, "none/?"), (1, "osfmk/malloc"), (2, "bsd/malloc"), (3, "iokit/malloc"),
    (4, "libkern/malloc"), (5, "oskext/sbrk"), (6, "kext/realloc"), (7, "ipc/malloc"),
    (8, "stack/malloc"), (9, "cpu/malloc"), (10, "pmap/analysis"), (11, "pte/malloc"),
    (12, "zone/malloc"), (13, "kalloc/malloc"), (14, "compressor/?"), (15, "compressed_data/?"),
    (16, "phantom/?"), (17, "waitq/?"), (18, "diag/?"), (19, "log/?"), (20, "file/mach_msg"),
    (21, "mbuf/iokit"), (22, "ubc/?"), (23, "security/?"), (24, "mlock/?"), (25, "reason/?"),
    (26, "skywalk/?"), (27, "ltable/?"), (28, "hv/?"), (29, "retired/?"), (30, "?/stack"),
    (31, "?/guard"), (32, "?/shared_pmap"), (33, "?/dylib"), (34, "?/objc"),
    (35, "?/unshared_pmap"), (40, "?/appkit"), (41, "?/foundation"), (42, "?/coregraphics"),
    (43, "?/coreservices"), (44, "?/java"), (45, "?/coredata"), (46, "?/coredata"),
    (50, "?/ats"), (51, "?/layerkit"), (52, "?/cgimage"), (53, "?/tcmalloc"),
    (54, "?/coregraphics"), (55, "?/coregraphics"), (56, "?/coregraphics"),
    (57, "?/coregraphics"), (58, "?/coregraphics"), (60, "?/dyld"), (61, "?/dyld_malloc"),
    (62, "?/sqlite"), (63, "?/javascript"), (64, "?/javascript"), (65, "?/javascript"),
    (66, "?/glsl"), (67, "?/opencl"), (68, "?/coreimage"), (69, "?/webcore"), (70, "?/imageio"),
    (71, "?/coreprofile"), (72, "?/assetsd"), (73, "?/os_alloc_once"), (74, "?/libdispatch"),
    (75, "?/accelerate"), (76, "?/coreui"), (77, "?/coreuifile"), (78, "?/genealogy"),
    (79, "?/rawcamera"), (80, "?/corpseinfo"), (81, "?/asl"), (82, "?/swift"), (83, "?/swift"),
    (84, "?/dhmm"), (86, "?/scenekit"), (87, "?/skywalk"), (88, "?/iosurface"),
    (89, "?/libnetwork"), (90, "?/audio"), (91, "?/videobitstream"), (92, "?/cm_xpc"),
    (93, "?/cm_xpc"), (94, "?/cm_memorypool"), (95, "?/cm_readcache"), (96, "?/cm_crabs"),
    (97, "?/quicklook"), (98, "?/accounts"), (99, "?/sanitizer"), (100, "?/ioaccelerator"),
    (101, "?/cm_regwarp"), (102, "?/ear_decoder"), (103, "?/coreui")]

/-- Function `kern_tag`: the label of an allocation tag, `none` for the null
pointer it returns when nothing matches. -/
def kern_tag (tag : Nat) : Option String :=
  match kern_tag_cases.lookup tag with
  | some label => some label
  | none =>
    if tag ≥ 230 ∧ tag < 240 then some "?/rosetta"
    else if tag ≥ 249 ∧ tag < 256 then some "?/application"
    else none

/-- Function `share_mode`, with the values of `SM_COW` to `SM_LARGE_PAGE` from
`<mach/vm_region.h>`. -/
def share_mode (mode : Nat) : String :=
  match mode with
  | 1 => "cow"
  | 2 => "prv"
  | 3 => "nul"
  | 4 => "shm"
  | 5 => "tru"
  | 6 => "p/a"
  | 7 => "s/a"
  | 8 => "big"
  | _ => "???"

/-- Function `inheritance`, with the values of `VM_INHERIT_SHARE` to
`VM_INHERIT_DONATE_COPY` from `<mach/vm_inherit.h>`. -/
def inheritance (inh : Nat) : String :=
  match inh with
  | 0 => "sh"
  | 1 => "cp"
  | 2 => "--"
  | 3 => "dn"
  | _ => "??"

/-! ## `kmap.c`: `print_range` (lines 287-408) -/

/-- Number of values of a 32-bit word (`unsigned int`, `vm_prot_t`). -/
def UINT : Nat := 2 ^ 32

/-- The fields of `vm_region_submap_info_data_64_t` that `print_range` reads. -/
structure SubmapInfo where
  protection : Nat
  max_protection : Nat
  inheritance : Nat
  offset : Nat
  user_tag : Nat
  pages_resident : Nat
  pages_shared_now_private : Nat
  pages_swapped_out : Nat
  pages_dirtied : Nat
  ref_count : Nat
  shadow_depth : Nat
  external_pager : Nat
  share_mode : Nat
  is_submap : Nat
  behavior : Nat
  object_id : Nat
  user_wired_count : Nat
  pages_reusable : Nat
deriving DecidableEq, Repr

/-- Reply of `vm_region_recurse_64`: return code and the values it stores in
`addr`, `size`, `depth` and `info`. -/
structure RecurseReply where
  kr : Nat
  addr : Nat
  size : Nat
  depth : Nat
  info : SubmapInfo
deriving DecidableEq, Repr

/-- The region query as an oracle over a state `σ`: task, cursor address and
requested depth in, reply and next state out. -/
def RegionOracle (σ : Type) : Type :=
  σ → Nat → Nat → Nat → RecurseReply × σ

/-- The values `print_range` hands to `printf` for one region: the level of the
call (the indentation, shown in extended mode only), start and end address,
scaled size and unit, the protection characters `A R W X` (current and
maximum; `A` is shown in extended mode only), and the columns of the extended
mode: kind, share mode, inheritance, tag label and the raw info. -/
structure Row where
  extended : Bool
  level : Nat
  addr : Nat
  stop : Nat
  displaysize : Nat
  scale : Char
  cur : List Char
  max : List Char
  kind : String
  share : String
  inherit : String
  label : Option String
  info : SubmapInfo
deriving DecidableEq, Repr

/-- What one call of `print_range` printed, in order: `gap` for a gap entry,
`row` for a region row together with what the recursive call on that region
printed (`done` when there was none), `done` where the loop ended. -/
inductive Out where
  | done
  | gap (displaysize : Nat) (scale : Char) (next : Out)
  | row (r : Row) (sub : Out) (next : Out)
deriving DecidableEq, Repr

/-- One printed line. -/
inductive Line where
  | gap (displaysize : Nat) (scale : Char)
  | row (r : Row)
deriving DecidableEq, Repr

/-- The lines in the order they reach the terminal. -/
def Out.lines : Out → List Line
  | Out.done => []
  | Out.gap d sc next => Line.gap d sc :: next.lines
  | Out.row r sub next => Line.row r :: (sub.lines ++ next.lines)

/-- The scaling of a gap, lines 317-328. -/
def gap_scale (last_size : Nat) : Nat × Char :=
  let last_displaysize := last_size / 1024
  if last_displaysize > 4096 then
    let last_displaysize := last_displaysize / 1024
    if last_displaysize > 4096 then
      (last_displaysize / 1024, 'G')
    else
      (last_displaysize, 'M')
  else
    (last_displaysize, 'K')

/-- The scaling of a region size, lines 344-356. -/
def size_scale (size : Nat) : Nat × Char :=
  let displaysize := size / 1024
  if displaysize > 4096 then
    let displaysize := displaysize / 1024
    if displaysize > 4096 then
      (displaysize / 1024, 'G')
    else
      (displaysize, 'M')
  else
    (displaysize, 'K')

/-- The protection characters of lines 359-366 for a 32-bit `vm_prot_t`:
`+` when a bit outside `VM_PROT_ALL` is set, then `r`, `w`, `x`. -/
def prot_chars (prot : Nat) : List Char :=
  [if Nat.land prot (UINT - 1 - 7) != 0 then '+' else '-',
   if Nat.land prot 1 != 0 then 'r' else '-',
   if Nat.land prot 2 != 0 then 'w' else '-',
   if Nat.land prot 4 != 0 then 'x' else '-']

/-- The row of lines 343-396 for a region at `addr` of `size` bytes. -/
def mk_row (extended : Bool) (level addr size depth : Nat) (info : SubmapInfo) : Row :=
  { extended := extended
    level := level
    addr := addr
    stop := (addr + size) % WORD
    displaysize := (size_scale size).1
    scale := (size_scale size).2
    cur := prot_chars info.protection
    max := prot_chars info.max_protection
    kind := if info.is_submap != 0 then "map" else if depth > 0 then "sub" else "mem"
    share := share_mode info.share_mode
    inherit := inheritance info.inheritance
    label := kern_tag info.user_tag
    info := info }

/-- The gap block of lines 311-336: the gap entry to print before the region
found at `addr` (already clamped to `max`), if any. -/
def gap_entry (gaps : Bool) (last_addr addr : Nat) : Option (Nat × Char) :=
  if gaps then
    if last_addr != 0 then
      let last_size := (addr + WORD - last_addr) % WORD
      if last_size > 0 then some (gap_scale last_size) else none
    else none
  else none

/-- What is printed with a gap entry, if there is one, in front. -/
def with_gap (g : Option (Nat × Char)) (t : Out) : Out :=
  match g with
  | some e => Out.gap e.1 e.2 t
  | none => t

/-- The `for` loop of `print_range`, lines 298-407, entered at the query with
the current `addr` and `last_addr`; the recursive call of line 405 runs the
same loop one level down, from the region's start with `last_addr` set to it.
The result is what was printed and the oracle state. -/
def print_range_loop {σ : Type} (Q : RegionOracle σ) (task : Nat) (extended gaps : Bool) :
    Nat → Nat → Nat → Nat → Nat → σ → Option (Out × σ)
  | 0, _, _, _, _, _ => none
  | fuel + 1, level, max, addr, last_addr, st =>
    let q := Q st task addr level
    if q.1.kr != KERN_SUCCESS then
      some (Out.done, q.2)
    else
      let addr1 := if q.1.addr ≥ max then max else q.1.addr
      let g := gap_entry gaps last_addr addr1
      let last1 := if gaps then (addr1 + q.1.size) % WORD else last_addr
      if addr1 ≥ max then
        some (with_gap g Out.done, q.2)
      else
        let sub : Option (Out × σ) :=
          if q.1.info.is_submap != 0 then
            print_range_loop Q task extended gaps fuel ((level + 1) % UINT)
              ((addr1 + q.1.size) % WORD) addr1 addr1 q.2
          else
            some (Out.done, q.2)
        match sub with
        | none => none
        | some so =>
          match print_range_loop Q task extended gaps fuel level max
              ((addr1 + q.1.size) % WORD) last1 so.2 with
          | none => none
          | some no =>
            some (with_gap g
              (Out.row (mk_row extended level addr1 q.1.size q.1.depth q.1.info) so.1 no.1),
              no.2)

/-- Function `print_range`. -/
def print_range {σ : Type} (Q : RegionOracle σ) (task : Nat) (extended gaps : Bool)
    (fuel level min max : Nat) (st : σ) : Option (Out × σ) :=
  print_range_loop Q task extended gaps fuel level max min min st

/-! ## A simulated region tree -/

/-- A finite region tree, as the list of the regions of one map in address
order: a plain region, or a submap with the regions inside it, each followed
by its later siblings. -/
inductive Forest where
  | nil
  | leaf (addr size : Nat) (rest : Forest)
  | submap (addr size : Nat) (kids rest : Forest)
deriving DecidableEq, Repr

/-- Info of a simulated region: all zero but the submap flag. -/
def simInfo (sub : Bool) : SubmapInfo :=
  ⟨0, 0, 0, 0, 0, 0, 0, 0, 0, 0, 0, 0, 0, if sub then 1 else 0, 0, 0, 0, 0⟩

/-- The region query on a simulated tree: the first region that ends above the
cursor `c`, entering a submap while `depth` allows and going on with the later
siblings when the submap has nothing above the cursor; `cur` is the nesting
depth of the list. -/
def Forest.lookup : Forest → Nat → Nat → Nat → Option RecurseReply
  | Forest.nil, _, _, _ => none
  | Forest.leaf a s rest, c, depth, cur =>
    if c < a + s then some ⟨KERN_SUCCESS, a, s, cur, simInfo false⟩
    else rest.lookup c depth cur
  | Forest.submap a s kids rest, c, depth, cur =>
    if c < a + s then
      match depth with
      | 0 => some ⟨KERN_SUCCESS, a, s, cur, simInfo true⟩
      | d + 1 =>
        match kids.lookup c d (cur + 1) with
        | some r => some r
        | none => rest.lookup c (d + 1) cur
    else rest.lookup c depth cur

/-- The region oracle of a simulated tree; it has no state. -/
def Forest.oracle (f : Forest) : RegionOracle Unit :=
  fun _ _ c depth =>
    match f.lookup c depth 0 with
    | some r => (r, ())
    | none => (⟨KERN_INVALID_ADDRESS, 0, 0, 0, simInfo false⟩, ())

/-- The regions of a tree in pre-order, as `(level, start, end)`: each region,
then the regions inside it one level down, then its later siblings. -/
def Forest.preorder : Forest → Nat → List (Nat × Nat × Nat)
  | Forest.nil, _ => []
  | Forest.leaf a s rest, level => (level, a, a + s) :: rest.preorder level
  | Forest.submap a s kids rest, level =>
    (level, a, a + s) :: (kids.preorder (level + 1) ++ rest.preorder level)

/-- A tree is well formed between `lo` and `hi`: its regions are not empty, lie
in address order inside `[lo, hi]`, and the regions of a submap lie inside
it. -/
def Forest.WellFormed : Forest → Nat → Nat → Prop
  | Forest.nil, _, _ => True
  | Forest.leaf a s rest, lo, hi => lo ≤ a ∧ 0 < s ∧ a + s ≤ hi ∧ rest.WellFormed (a + s) hi
  | Forest.submap a s kids rest, lo, hi =>
    lo ≤ a ∧ 0 < s ∧ a + s ≤ hi ∧ kids.WellFormed a (a + s) ∧ rest.WellFormed (a + s) hi

/-- Number of regions of a tree. -/
def Forest.count : Forest → Nat
  | Forest.nil => 0
  | Forest.leaf _ _ rest => 1 + rest.count
  | Forest.submap _ _ kids rest => 1 + kids.count + rest.count

/-- Nesting depth of a tree. -/
def Forest.height : Forest → Nat
  | Forest.nil => 0
  | Forest.leaf _ _ rest => rest.height
  | Forest.submap _ _ kids rest => Nat.max (kids.height + 1) rest.height

/-- The region rows of an output as `(level, start, end)`, in printing order. -/
def rowsOf (ls : List Line) : List (Nat × Nat × Nat) :=
  ls.filterMap fun l =>
    match l with
    | Line.row r => some (r.level, r.addr, r.stop)
    | Line.gap _ _ => none

/-- The rows and gap entries one call printed itself, leaving out what its
recursive calls printed. -/
def Out.own : Out → List Line
  | Out.done => []
  | Out.gap d sc next => Line.gap d sc :: next.own
  | Out.row r _ next => Line.row r :: next.own

/-- The tags for which the `switch` of `kern_tag` has a `case`. -/
def tag_listed (tag : Nat) : Prop :=
  tag ≤ 35 ∨ (40 ≤ tag ∧ tag ≤ 46) ∨ (50 ≤ tag ∧ tag ≤ 58) ∨ (60 ≤ tag ∧ tag ≤ 84)
    ∨ (86 ≤ tag ∧ tag ≤ 103)

/-- The tags that `kern_tag` leaves unresolved: 36..39, 47..49, 59, 85,
104..229, 240..248 and every tag from 256 on. -/
def tag_unresolved (tag : Nat) : Prop :=
  (36 ≤ tag ∧ tag ≤ 39) ∨ (47 ≤ tag ∧ tag ≤ 49) ∨ tag = 59 ∨ tag = 85
    ∨ (104 ≤ tag ∧ tag ≤ 229) ∨ (240 ≤ tag ∧ tag ≤ 248) ∨ 256 ≤ tag

instance (tag : Nat) : Decidable (tag_listed tag) := by
  unfold tag_listed; infer_instance

instance (tag : Nat) : Decidable (tag_unresolved tag) := by
  unfold tag_unresolved; infer_instance

/-! ## Vocabulary of the region walker -/

/-- The difference `s - e` of two addresses as the 64-bit code computes it. -/
def span64 (e s : Nat) : Nat :=
  (s + WORD - e) % WORD

/-- The rule of the gap entries in what a call of `print_range` with bound
`max` printed from a point where the previous region ended at `e` (for the
first region: where the walk started).  A row comes without a gap entry only
if `e` is 0 or the row starts at `e`; a gap entry stands only where `e` is not
0, directly before a row that does not start at `e` or, as the last line,
before the bound `max` when that is not `e`; it shows the 64-bit distance from
`e`, scaled as region sizes are.  The same holds of what the recursive call
for a row printed, with the row's start for `e` and its end for `max`. -/
def GapRule : Nat → Nat → Out → Prop
  | _, _, Out.done => True
  | max, e, Out.gap d sc Out.done =>
    e ≠ 0 ∧ span64 e max ≠ 0 ∧ (d, sc) = size_scale (span64 e max)
  | _, _, Out.gap _ _ (Out.gap _ _ _) => False
  | max, e, Out.gap d sc (Out.row r sub next) =>
    e ≠ 0 ∧ span64 e r.addr ≠ 0 ∧ (d, sc) = size_scale (span64 e r.addr)
      ∧ GapRule r.stop r.addr sub ∧ GapRule max r.stop next
  | max, e, Out.row r sub next =>
    (e = 0 ∨ span64 e r.addr = 0) ∧ GapRule r.stop r.addr sub ∧ GapRule max r.stop next

/-- Two regions of one map: `[0x1000, 0x2000)` and `[0x5000, 0x6000)`. -/
def twoRegions : Forest :=
  Forest.leaf 0x1000 0x1000 (Forest.leaf 0x5000 0x1000 Forest.nil)

/-- A submap `[0x2000, 0x6000)` holding the region `[0x3000, 0x4000)`, followed
by the region `[0x8000, 0x9000)`. -/
def holedSubmap : Forest :=
  Forest.submap 0x2000 0x4000 (Forest.leaf 0x3000 0x1000 Forest.nil)
    (Forest.leaf 0x8000 0x1000 Forest.nil)

/-- The tree of three regions `A`, `B`, `C` where `B` is a submap with the two
children `B1` and `B2`. -/
def threeRegions : Forest :=
  Forest.leaf 0x1000 0x1000
    (Forest.submap 0x2000 0x4000
      (Forest.leaf 0x2000 0x1000 (Forest.leaf 0x4000 0x1000 Forest.nil))
      (Forest.leaf 0x8000 0x1000 Forest.nil))

/-- A block from `malloc` that still holds the bytes `DE AD` at offsets 1 and
2. -/
def staleSmall : Nat → Nat :=
  memOf [(1, [0xDE, 0xAD])]

/-! ## Vocabulary of the simulated memory -/

/-- The write transport of a simulated memory: the oracle state is the memory,
and every write succeeds and stores its bytes at the address. -/
def StoreWrite (M : Mach (Nat → Nat)) : Prop :=
  ∀ e t x d, M.vm_write e t x d = (KERN_SUCCESS, storeBytes e x d)

/-- The read transport of a simulated memory: every read succeeds, delivers the
bytes of the memory at the address and leaves the memory as it is. -/
def LoadRead (M : Mach (Nat → Nat)) : Prop :=
  ∀ e t x n, M.vm_read_overwrite e t x n = ((KERN_SUCCESS, loadBytes e x n), e)

/-! ## Vocabulary of the heuristic scan -/

/-- The world after the region query of line 92 at cursor `addr`. -/
def after_region {σ : Type} (M : Mach σ) (task addr : Nat) (w : World σ) : World σ :=
  ⟨(M.mach_vm_region w.env task addr).2, w.init, w.tfp0,
    w.trace ++ [⟨Call.mach_vm_region, addr, 0, 0, (M.mach_vm_region w.env task addr).1.kr, 0⟩]⟩

/-- The region query at cursor `addr` succeeds and finds a region tagged
`VM_KERN_MEMORY_CPU` with default protection (line 94). -/
def cpu_region_at {σ : Type} (M : Mach σ) (task addr : Nat) (w : World σ) : Prop :=
  (M.mach_vm_region w.env task addr).1.kr = KERN_SUCCESS
    ∧ (M.mach_vm_region w.env task addr).1.user_tag = VM_KERN_MEMORY_CPU
    ∧ (M.mach_vm_region w.env task addr).1.protection = VM_PROT_DEFAULT

/-- The cursor and the world of the region loop after `k` turns from cursor
`addr`, each over a region that the query finds and that is not a CPU data
region with default protection; `none` when one of those queries fails or
finds such a region. -/
def skip_regions {σ : Type} (M : Mach σ) (task : Nat) :
    Nat → Nat → World σ → Option (Nat × World σ)
  | 0, addr, w => some (addr, w)
  | k + 1, addr, w =>
    if (M.mach_vm_region w.env task addr).1.kr != KERN_SUCCESS then none
    else if (M.mach_vm_region w.env task addr).1.user_tag == VM_KERN_MEMORY_CPU
        && (M.mach_vm_region w.env task addr).1.protection == VM_PROT_DEFAULT then none
    else skip_regions M task k
      (((M.mach_vm_region w.env task addr).1.addr + (M.mach_vm_region w.env task addr).1.size)
        % WORD) (after_region M task addr w)

/-- The world in which the scan of `get_kernel_base` starts: after
`get_kernel_task` and the `task_info` query. -/
def scan_start {σ : Type} (M : Mach σ) (w : World σ) : World σ :=
  ⟨(M.task_info (get_kernel_task M w).2.env (get_kernel_task M w).1.2).2,
    (get_kernel_task M w).2.init, (get_kernel_task M w).2.tfp0,
    (get_kernel_task M w).2.trace ++ [plainEvent Call.task_info
      (M.task_info (get_kernel_task M w).2.env (get_kernel_task M w).1.2).1.1]⟩

/-- The `task_info` query gives no direct hint: it fails or reports size 0
(line 87). -/
def no_hint {σ : Type} (M : Mach σ) (w : World σ) : Prop :=
  ¬ ((M.task_info (get_kernel_task M w).2.env (get_kernel_task M w).1.2).1.1 = KERN_SUCCESS
    ∧ (M.task_info (get_kernel_task M w).2.env (get_kernel_task M w).1.2).1.2 ≠ 0)

/-- The address `c` is a 64-bit address on a kernel page boundary at or above
`VM_KERNEL_LINK_ADDRESS`. -/
def AlignedAbove {σ : Type} (M : Mach σ) (c : Nat) : Prop :=
  c % M.vm_kernel_page_size = 0 ∧ VM_KERNEL_LINK_ADDRESS ≤ c ∧ c < WORD

/-- The logged transport call `e` belongs to a read that `kernel_read` was
asked to make at a page boundary at or above `VM_KERNEL_LINK_ADDRESS`: it is
at that address plus the buffer offset the read has reached. -/
def HeaderReadAt {σ : Type} (M : Mach σ) (e : Event) : Prop :=
  ∃ c, AlignedAbove M c ∧ e.addr = (c + e.off) % WORD

/-- The tree `f` answers, for the list `g` of regions at nesting depth `n` that
occupies the addresses from `lo` to `hi`, as `g` itself does: a query at a
cursor in that range with a depth of at least `n` finds what `g` finds with the
depth that is left, and where `g` finds nothing it fails or finds a region
that starts at or above `hi`. -/
def Forest.Hosts (f g : Forest) (n lo hi : Nat) : Prop :=
  ∀ d c, n ≤ d → lo ≤ c → c ≤ hi →
    (∃ r, g.lookup c (d - n) n = some r ∧ f.lookup c d 0 = some r)
      ∨ (g.lookup c (d - n) n = none
        ∧ (f.lookup c d 0 = none ∨ ∃ r, f.lookup c d 0 = some r ∧ hi ≤ r.addr))

/-- A region oracle that answers its calls in turn from a script, whatever the
query, and fails when the script is used up; its state counts the calls. -/
def scriptOracle (script : List RecurseReply) : RegionOracle Nat :=
  fun i _ _ _ => (script.getD i ⟨KERN_INVALID_ADDRESS, 0, 0, 0, simInfo false⟩, i + 1)

/-- A script of two regions: an empty region at address 0, then
`[0x1000, 0x2000)`. -/
def zeroEndScript : List RecurseReply :=
  [⟨KERN_SUCCESS, 0, 0, 0, simInfo false⟩, ⟨KERN_SUCCESS, 0x1000, 0x1000, 0, simInfo false⟩]

/-! ## Vocabulary of the backward walk -/

/-- The addresses at which the reads of `kernel_read` start in a log: those of
the calls of `vm_read_overwrite` that store at offset 0 of the caller's
buffer.  A `kernel_read` logs at most one such call, its first, and none when
it has no capability or its range `[addr, addr + size)` wraps past `2^64`. -/
def headerReadAddrs (evs : List Event) : List Nat :=
  (evs.filter fun e => e.call == Call.vm_read_overwrite && e.off == 0).map Event.addr

/-- The `n` page boundaries below `c`, `P` bytes apart, going down: `c - P`,
`c - 2 * P`, and so on. -/
def pageLadder (P : Nat) : Nat → Nat → List Nat
  | _, 0 => []
  | c, n + 1 => (c - P) :: pageLadder P (c - P) n

/-- The number `⌈(c - VM_KERNEL_LINK_ADDRESS) / P⌉` of steps of `P` bytes from
`c` down to the link address; 0 when `c` is not above it. -/
def walk_bound (P c : Nat) : Nat :=
  (c - VM_KERNEL_LINK_ADDRESS + P - 1) / P

/-! # Theorems -/

/-! ## Capability cache -/

theorem get_kernel_task_eq {σ : Type} (M : Mach σ) (w : World σ) :
    get_kernel_task M w
      = ((if (settled M w).tfp0 = MACH_PORT_NULL then KERN_FAILURE else KERN_SUCCESS,
          (settled M w).tfp0), settled M w) := by
  unfold get_kernel_task settled
  cases w.init <;> simp only [Bool.not_false, Bool.not_true, if_true, Bool.false_eq_true,
    if_false, beq_iff_eq] <;> split <;> rfl

theorem settled_init {σ : Type} (M : Mach σ) (w : World σ) :
    (settled M w).init = true := by
  unfold settled
  cases h : w.init
  · exact rfl
  · simpa using h

theorem settled_of_init {σ : Type} (M : Mach σ) (w : World σ) (h : w.init = true) :
    settled M w = w := by
  simp [settled, h]

/-- C9: in every world whose statics are as a completed call of
`get_kernel_task` left them, whatever the oracle state and the log have become
since, a call of `get_kernel_task` returns the status and the handle of that
first call and leaves the world as it is: nothing is logged, so none of
`task_for_pid`, `host_get_special_port`, `pid_for_task` is invoked. -/
theorem get_kernel_task_memoized {σ : Type} (M : Mach σ) (w0 w : World σ)
    (hinit : w.init = (get_kernel_task M w0).2.init)
    (htfp0 : w.tfp0 = (get_kernel_task M w0).2.tfp0) :
    get_kernel_task M w = ((get_kernel_task M w0).1, w) := by
  have hi : w.init = true := by
    rw [hinit, get_kernel_task_eq]; exact settled_init M w0
  rw [get_kernel_task_eq M w, settled_of_init M w hi, htfp0, get_kernel_task_eq M w0]

/-- Witness of C9 on the simulated kernel that grants the port `0x103`. -/
theorem get_kernel_task_memoized_witness :
    get_kernel_task (grantMach 0) (get_kernel_task (grantMach 0) (freshWorld fun _ => 0)).2
      = ((KERN_SUCCESS, 0x103), (get_kernel_task (grantMach 0) (freshWorld fun _ => 0)).2) :=
  get_kernel_task_memoized (grantMach 0) (freshWorld fun _ => 0)
    (get_kernel_task (grantMach 0) (freshWorld fun _ => 0)).2 rfl rfl

theorem acquire_tfp0 {σ : Type} (M : Mach σ) (w : World σ) :
    (acquire M w).tfp0
      = if MACH_PORT_VALID (acquired_port M w) = true ∧ (owner_reply M w).1 = KERN_SUCCESS
            ∧ (owner_reply M w).2 = 0
        then acquired_port M w else MACH_PORT_NULL := by
  unfold acquire acquired_port owner_reply acquired_port
  by_cases h1 : (M.task_for_pid w.env).1.1 = KERN_SUCCESS
  · simp only [h1, bne_self_eq_false, Bool.false_eq_true, if_false, if_true]
    by_cases h2 : MACH_PORT_VALID ((M.task_for_pid w.env).1.2.getD w.tfp0) = true
    · simp only [h2, if_true, true_and]
      by_cases h3 : (M.pid_for_task (M.task_for_pid w.env).2
          ((M.task_for_pid w.env).1.2.getD w.tfp0)).1.1 = KERN_SUCCESS
      · by_cases h4 : (M.pid_for_task (M.task_for_pid w.env).2
            ((M.task_for_pid w.env).1.2.getD w.tfp0)).1.2 = 0
        · simp [h3, h4]
        · simp [h3, h4]
      · simp [h3]
    · simp [h2]
  · have h1b : ((M.task_for_pid w.env).1.1 != KERN_SUCCESS) = true := by simpa using h1
    simp only [h1, h1b, if_false, if_true]
    by_cases h2 : MACH_PORT_VALID ((M.host_get_special_port (M.task_for_pid w.env).2).1.2.getD
        ((M.task_for_pid w.env).1.2.getD w.tfp0)) = true
    · simp only [h2, if_true, true_and]
      by_cases h3 : (M.pid_for_task (M.host_get_special_port (M.task_for_pid w.env).2).2
          ((M.host_get_special_port (M.task_for_pid w.env).2).1.2.getD
            ((M.task_for_pid w.env).1.2.getD w.tfp0))).1.1 = KERN_SUCCESS
      · by_cases h4 : (M.pid_for_task (M.host_get_special_port (M.task_for_pid w.env).2).2
            ((M.host_get_special_port (M.task_for_pid w.env).2).1.2.getD
              ((M.task_for_pid w.env).1.2.getD w.tfp0))).1.2 = 0
        · simp [h3, h4]
        · simp [h3, h4]
      · simp [h3]
    · simp [h2]

theorem valid_ne_null (p : Nat) (h : MACH_PORT_VALID p = true) : p ≠ MACH_PORT_NULL := by
  intro h0
  simp [MACH_PORT_VALID, h0] at h

/-- C10: on the acquiring call (`init` not yet set) `get_kernel_task` returns
`KERN_SUCCESS` exactly when the acquired port is valid and `pid_for_task` on it
succeeds and reports pid 0, and then hands out that port; in every other case
it returns `KERN_FAILURE` with `MACH_PORT_NULL`; so the status is success
exactly when the handle is not null. -/
theorem get_kernel_task_validated {σ : Type} (M : Mach σ) (w : World σ)
    (hinit : w.init = false) :
    ((get_kernel_task M w).1.1 = KERN_SUCCESS
        ↔ MACH_PORT_VALID (acquired_port M w) = true ∧ (owner_reply M w).1 = KERN_SUCCESS
            ∧ (owner_reply M w).2 = 0)
      ∧ ((get_kernel_task M w).1.1 = KERN_SUCCESS
          → (get_kernel_task M w).1.2 = acquired_port M w)
      ∧ ((get_kernel_task M w).1.1 ≠ KERN_SUCCESS
          → (get_kernel_task M w).1.1 = KERN_FAILURE
            ∧ (get_kernel_task M w).1.2 = MACH_PORT_NULL)
      ∧ ((get_kernel_task M w).1.1 = KERN_SUCCESS
          ↔ (get_kernel_task M w).1.2 ≠ MACH_PORT_NULL) := by
  have hs : settled M w = acquire M w := by simp [settled, hinit]
  rw [get_kernel_task_eq, hs, acquire_tfp0]
  by_cases hc : MACH_PORT_VALID (acquired_port M w) = true ∧ (owner_reply M w).1 = KERN_SUCCESS
      ∧ (owner_reply M w).2 = 0
  · have hne := valid_ne_null _ hc.1
    simp only [hc, and_self, if_true, hne, if_false, ne_eq, not_true_eq_false, not_false_eq_true,
      true_iff, iff_true, true_and, implies_true, false_implies, and_true]
  · simp only [hc, if_false, if_true, ne_eq, not_true_eq_false, iff_false, and_self,
      not_false_eq_true, true_implies, true_and, false_implies]
    have hk : ¬ KERN_FAILURE = KERN_SUCCESS := by decide
    exact ⟨hk, fun h => absurd h hk, fun _ => trivial, hk⟩

/-- Witness of C10 on the simulated kernel that grants the port `0x103`, whose
owner is pid 0. -/
theorem get_kernel_task_validated_witness :
    (freshWorld fun _ => 0).init = false
      ∧ (get_kernel_task (grantMach 0) (freshWorld fun _ => 0)).1.1 = KERN_SUCCESS
      ∧ (get_kernel_task (grantMach 0) (freshWorld fun _ => 0)).1.2 = 0x103 :=
  ⟨rfl,
    (get_kernel_task_validated (grantMach 0) (freshWorld fun _ => 0) rfl).1.mpr
      ⟨rfl, rfl, rfl⟩,
    (get_kernel_task_validated (grantMach 0) (freshWorld fun _ => 0) rfl).2.1 rfl⟩

/-! ## Base locator: the direct hint -/

theorem OnlyAcquire.same (old : List Event) : OnlyAcquire old old :=
  ⟨[], by simp, by simp⟩

theorem OnlyAcquire.snoc {old tr : List Event} (h : OnlyAcquire old tr) (c : Call) (kr : Nat)
    (hc : c.isAcquire = true) : OnlyAcquire old (tr ++ [plainEvent c kr]) := by
  obtain ⟨l, rfl, hl⟩ := h
  refine ⟨l ++ [plainEvent c kr], by simp, ?_⟩
  intro e he
  rcases List.mem_append.mp he with h1 | h1
  · exact hl e h1
  · rw [List.mem_singleton.mp h1]; exact hc

theorem acquire_trace {σ : Type} (M : Mach σ) (w : World σ) :
    OnlyAcquire w.trace (acquire M w).trace := by
  have b := OnlyAcquire.same w.trace
  unfold acquire
  dsimp only
  split <;> split <;> (try split) <;>
    first
    | exact ((b.snoc Call.task_for_pid _ rfl).snoc Call.host_get_special_port _ rfl).snoc
        Call.pid_for_task _ rfl
    | exact (b.snoc Call.task_for_pid _ rfl).snoc Call.host_get_special_port _ rfl
    | exact (b.snoc Call.task_for_pid _ rfl).snoc Call.pid_for_task _ rfl
    | exact b.snoc Call.task_for_pid _ rfl

theorem settled_trace {σ : Type} (M : Mach σ) (w : World σ) :
    OnlyAcquire w.trace (settled M w).trace := by
  unfold settled
  cases w.init
  · simpa using acquire_trace M w
  · exact OnlyAcquire.same _

/-- C8, as the code has it: with a valid capability and `task_info` succeeding
with a non-zero `all_image_info_size = s`, `get_kernel_base` returns
`VM_KERNEL_LINK_ADDRESS + s` reduced modulo `2^64`, for every fuel; the calls
it logs beyond those already in the log are calls of the capability cache
followed by the one `task_info`, so no region query and no memory read is
issued; and the sum is returned unreduced whenever it fits in 64 bits. -/
theorem get_kernel_base_direct_hint {σ : Type} (M : Mach σ) (fuel : Nat)
    (rt0 mh0 : Nat → Nat) (w : World σ) (s : Nat)
    (hcap : (get_kernel_task M w).1.1 = KERN_SUCCESS)
    (hinfo : (M.task_info (get_kernel_task M w).2.env (get_kernel_task M w).1.2).1
        = (KERN_SUCCESS, s))
    (hs : s ≠ 0) :
    ∃ w' l, get_kernel_base M fuel rt0 mh0 w
          = some ((VM_KERNEL_LINK_ADDRESS + s) % WORD, w')
      ∧ w'.trace = w.trace ++ l ++ [plainEvent Call.task_info KERN_SUCCESS]
      ∧ (∀ e ∈ l, e.call.isAcquire = true)
      ∧ (VM_KERNEL_LINK_ADDRESS + s < WORD
          → (VM_KERNEL_LINK_ADDRESS + s) % WORD = VM_KERNEL_LINK_ADDRESS + s) := by
  obtain ⟨l, hl, hacq⟩ := settled_trace M w
  have h1 : (M.task_info (get_kernel_task M w).2.env (get_kernel_task M w).1.2).1.1
      = KERN_SUCCESS := by rw [hinfo]
  have h2 : (M.task_info (get_kernel_task M w).2.env (get_kernel_task M w).1.2).1.2 = s := by
    rw [hinfo]
  have ht : (get_kernel_task M w).2.trace = w.trace ++ l := by
    rw [get_kernel_task_eq]; exact hl
  refine ⟨⟨(M.task_info (get_kernel_task M w).2.env (get_kernel_task M w).1.2).2,
      (get_kernel_task M w).2.init, (get_kernel_task M w).2.tfp0,
      (get_kernel_task M w).2.trace ++ [plainEvent Call.task_info KERN_SUCCESS]⟩, l, ?_, ?_,
    hacq, fun h => Nat.mod_eq_of_lt h⟩
  · unfold get_kernel_base
    simp only [hcap, h1, h2, bne_self_eq_false, Bool.false_eq_true, if_false, beq_self_eq_true,
      Bool.true_and, bne_iff_ne, ne_eq, hs, not_false_eq_true, if_true]
  · simp only [ht]

/-- Witness of C8 (amended): slide `0x4000` on the simulated kernel gives
`0xFFFFFFF007008000`. -/
theorem get_kernel_base_direct_hint_witness :
    ∃ w' l, get_kernel_base (grantMach 0x4000) 0 (fun _ => 0) (fun _ => 0)
          (freshWorld fun _ => 0) = some ((VM_KERNEL_LINK_ADDRESS + 0x4000) % WORD, w')
      ∧ w'.trace = (freshWorld fun _ => 0).trace ++ l ++ [plainEvent Call.task_info KERN_SUCCESS]
      ∧ (∀ e ∈ l, e.call.isAcquire = true)
      ∧ (VM_KERNEL_LINK_ADDRESS + 0x4000 < WORD
          → (VM_KERNEL_LINK_ADDRESS + 0x4000) % WORD = VM_KERNEL_LINK_ADDRESS + 0x4000) :=
  get_kernel_base_direct_hint (grantMach 0x4000) 0 (fun _ => 0) (fun _ => 0)
    (freshWorld fun _ => 0) 0x4000 rfl rfl (by decide)

/-- C8 as stated fails: with a valid capability and the non-zero slide
`0xFF8FFC000` reported by a successful `task_info`, `get_kernel_base` returns
`0`, not `VM_KERNEL_LINK_ADDRESS + 0xFF8FFC000 = 2^64`. -/
theorem get_kernel_base_direct_hint_wraps :
    (get_kernel_task (grantMach 0xFF8FFC000) (freshWorld fun _ => 0)).1.1 = KERN_SUCCESS
      ∧ ((grantMach 0xFF8FFC000).task_info
          (get_kernel_task (grantMach 0xFF8FFC000) (freshWorld fun _ => 0)).2.env
          (get_kernel_task (grantMach 0xFF8FFC000) (freshWorld fun _ => 0)).1.2).1
          = (KERN_SUCCESS, 0xFF8FFC000)
      ∧ (get_kernel_base (grantMach 0xFF8FFC000) 1 (fun _ => 0) (fun _ => 0)
          (freshWorld fun _ => 0)).map Prod.fst = some 0
      ∧ (get_kernel_base (grantMach 0xFF8FFC000) 1 (fun _ => 0) (fun _ => 0)
          (freshWorld fun _ => 0)).map Prod.fst ≠ some (VM_KERNEL_LINK_ADDRESS + 0xFF8FFC000) := by
  refine ⟨rfl, rfl, ?_, ?_⟩
  · decide
  · decide

/-! ## Chunked transport: a transport that never fails -/

theorem planFrom_zero (c : Call) (a L : Nat) : planFrom c a L 0 = chunkPlan c a L := by
  simp [planFrom, chunkPlan]

theorem planFrom_done (c : Call) (a L cnt : Nat) (h : L ≤ cnt) : planFrom c a L cnt = [] := by
  have : (L - cnt + 4094) / 4095 = 0 := by omega
  simp [planFrom, this]

theorem planFrom_step (c : Call) (a L cnt : Nat) (h : cnt < L) :
    planFrom c a L cnt
      = ⟨c, a + cnt, min 4095 (L - cnt), cnt, KERN_SUCCESS, min 4095 (L - cnt)⟩
          :: planFrom c a L (cnt + min 4095 (L - cnt)) := by
  by_cases hs : L - cnt ≤ 4095
  · have h1 : (L - cnt + 4094) / 4095 = 1 := by omega
    have h2 : min 4095 (L - cnt) = L - cnt := by omega
    rw [h2, planFrom_done c a L (cnt + (L - cnt)) (by omega)]
    have h3 : List.range 1 = [0] := rfl
    unfold planFrom
    rw [h1, h3]
    simp [h2]
  · have h1 : (L - cnt + 4094) / 4095 = (L - (cnt + 4095) + 4094) / 4095 + 1 := by omega
    have h2 : min 4095 (L - cnt) = 4095 := by omega
    rw [h2]
    unfold planFrom
    rw [h1, List.range_succ_eq_map, List.map_cons, List.map_map]
    congr 1
    · simp [h2]
    · apply List.map_congr_left
      intro i _
      simp only [Function.comp, Nat.succ_eq_add_one, Event.mk.injEq, true_and]
      omega

theorem chunk_size_eq (r : Nat) : chunk_size r = min 4095 r := by
  unfold chunk_size MAX_CHUNK_SIZE
  split <;> omega

theorem kernel_read_loop_stop {σ : Type} (M : Mach σ) (task lim fuel addr remainder br : Nat)
    (buf : Nat → Nat) (w : World σ) (h : ¬ addr < lim) :
    kernel_read_loop M task lim (fuel + 1) addr remainder br buf w = some ⟨br, buf, w⟩ := by
  rw [kernel_read_loop]; simp only [h, if_false]

theorem kernel_read_loop_fail {σ : Type} (M : Mach σ) (task lim fuel addr remainder br : Nat)
    (buf : Nat → Nat) (w : World σ) (h : addr < lim)
    (hf : (M.vm_read_overwrite w.env task addr (chunk_size remainder)).1.1 ≠ KERN_SUCCESS
      ∨ (M.vm_read_overwrite w.env task addr (chunk_size remainder)).1.2.length % WORD = 0) :
    kernel_read_loop M task lim (fuel + 1) addr remainder br buf w
      = some ⟨br,
          storeBytes buf br (M.vm_read_overwrite w.env task addr (chunk_size remainder)).1.2,
          ⟨(M.vm_read_overwrite w.env task addr (chunk_size remainder)).2, w.init, w.tfp0,
            w.trace ++ [⟨Call.vm_read_overwrite, addr, chunk_size remainder, br,
              (M.vm_read_overwrite w.env task addr (chunk_size remainder)).1.1,
              (M.vm_read_overwrite w.env task addr (chunk_size remainder)).1.2.length % WORD⟩]⟩⟩ := by
  rw [kernel_read_loop]
  have hb : ((M.vm_read_overwrite w.env task addr (chunk_size remainder)).1.1 != KERN_SUCCESS
      || (M.vm_read_overwrite w.env task addr (chunk_size remainder)).1.2.length % WORD == 0)
      = true := by
    rcases hf with h1 | h1
    · simp [h1]
    · simp [h1]
  simp only [h, if_true, hb]

theorem kernel_read_loop_go {σ : Type} (M : Mach σ) (task lim fuel addr remainder br : Nat)
    (buf : Nat → Nat) (w : World σ) (h : addr < lim)
    (hk : (M.vm_read_overwrite w.env task addr (chunk_size remainder)).1.1 = KERN_SUCCESS)
    (hn : (M.vm_read_overwrite w.env task addr (chunk_size remainder)).1.2.length % WORD ≠ 0) :
    kernel_read_loop M task lim (fuel + 1) addr remainder br buf w
      = kernel_read_loop M task lim fuel
          ((addr + (M.vm_read_overwrite w.env task addr (chunk_size remainder)).1.2.length % WORD)
            % WORD)
          ((remainder + WORD
            - (M.vm_read_overwrite w.env task addr (chunk_size remainder)).1.2.length % WORD)
            % WORD)
          ((br + (M.vm_read_overwrite w.env task addr (chunk_size remainder)).1.2.length % WORD)
            % WORD)
          (storeBytes buf br (M.vm_read_overwrite w.env task addr (chunk_size remainder)).1.2)
          ⟨(M.vm_read_overwrite w.env task addr (chunk_size remainder)).2, w.init, w.tfp0,
            w.trace ++ [⟨Call.vm_read_overwrite, addr, chunk_size remainder, br,
              (M.vm_read_overwrite w.env task addr (chunk_size remainder)).1.1,
              (M.vm_read_overwrite w.env task addr (chunk_size remainder)).1.2.length % WORD⟩]⟩ := by
  rw [kernel_read_loop]
  have hb : ((M.vm_read_overwrite w.env task addr (chunk_size remainder)).1.1 != KERN_SUCCESS
      || (M.vm_read_overwrite w.env task addr (chunk_size remainder)).1.2.length % WORD == 0)
      = false := by
    simp [hk, hn]
  simp only [h, if_true, hb, Bool.false_eq_true, if_false]

theorem kernel_write_loop_stop {σ : Type} (M : Mach σ) (task lim : Nat) (buf : Nat → Nat)
    (fuel addr remainder bw : Nat) (w : World σ) (h : ¬ addr < lim) :
    kernel_write_loop M task lim buf (fuel + 1) addr remainder bw w = some (bw, w) := by
  rw [kernel_write_loop]; simp only [h, if_false]

theorem kernel_write_loop_fail {σ : Type} (M : Mach σ) (task lim : Nat) (buf : Nat → Nat)
    (fuel addr remainder bw : Nat) (w : World σ) (h : addr < lim)
    (hf : (M.vm_write w.env task addr (loadBytes buf bw (chunk_size remainder))).1
      ≠ KERN_SUCCESS) :
    kernel_write_loop M task lim buf (fuel + 1) addr remainder bw w
      = some (bw,
          ⟨(M.vm_write w.env task addr (loadBytes buf bw (chunk_size remainder))).2, w.init,
            w.tfp0,
            w.trace ++ [⟨Call.vm_write, addr, chunk_size remainder, bw,
              (M.vm_write w.env task addr (loadBytes buf bw (chunk_size remainder))).1,
              chunk_size remainder⟩]⟩) := by
  rw [kernel_write_loop]
  have hb : ((M.vm_write w.env task addr (loadBytes buf bw (chunk_size remainder))).1
      != KERN_SUCCESS) = true := by simp [hf]
  simp only [h, if_true, hb]

theorem kernel_write_loop_go {σ : Type} (M : Mach σ) (task lim : Nat) (buf : Nat → Nat)
    (fuel addr remainder bw : Nat) (w : World σ) (h : addr < lim)
    (hk : (M.vm_write w.env task addr (loadBytes buf bw (chunk_size remainder))).1
      = KERN_SUCCESS) :
    kernel_write_loop M task lim buf (fuel + 1) addr remainder bw w
      = kernel_write_loop M task lim buf fuel ((addr + chunk_size remainder) % WORD)
          ((remainder + WORD - chunk_size remainder) % WORD)
          ((bw + chunk_size remainder) % WORD)
          ⟨(M.vm_write w.env task addr (loadBytes buf bw (chunk_size remainder))).2, w.init,
            w.tfp0,
            w.trace ++ [⟨Call.vm_write, addr, chunk_size remainder, bw,
              (M.vm_write w.env task addr (loadBytes buf bw (chunk_size remainder))).1,
              chunk_size remainder⟩]⟩ := by
  rw [kernel_write_loop]
  have hb : ((M.vm_write w.env task addr (loadBytes buf bw (chunk_size remainder))).1
      != KERN_SUCCESS) = false := by simp [hk]
  simp only [h, if_true, hb, Bool.false_eq_true, if_false]

theorem kernel_read_loop_exact {σ : Type} (M : Mach σ) (task a L : Nat)
    (hL : a + L < WORD) (hex : ExactRead M) :
    ∀ fuel cnt buf (w : World σ), cnt ≤ L → L - cnt < fuel →
      ∃ x, kernel_read_loop M task (a + L) fuel (a + cnt) (L - cnt) cnt buf w = some x
        ∧ x.ret = L
        ∧ x.world.trace = w.trace ++ planFrom Call.vm_read_overwrite a L cnt := by
  have hW : WORD = 2 ^ 64 := rfl
  intro fuel
  induction fuel with
  | zero => intro cnt buf w _ h; omega
  | succ fuel ih =>
    intro cnt buf w hc hf
    by_cases hlt : cnt < L
    · obtain ⟨hk, hlen⟩ := hex w.env task (a + cnt) (chunk_size (L - cnt))
      have hsz := chunk_size_eq (L - cnt)
      have hout : (M.vm_read_overwrite w.env task (a + cnt) (chunk_size (L - cnt))).1.2.length
          % WORD = min 4095 (L - cnt) := by
        rw [hlen, hsz, hW]; omega
      rw [kernel_read_loop_go M task (a + L) fuel (a + cnt) (L - cnt) cnt buf w (by omega) hk
        (by rw [hout]; omega), hout, hk, hsz]
      have e1 : (a + cnt + min 4095 (L - cnt)) % WORD = a + (cnt + min 4095 (L - cnt)) := by
        rw [hW] at hL ⊢; omega
      have e2 : (L - cnt + WORD - min 4095 (L - cnt)) % WORD
          = L - (cnt + min 4095 (L - cnt)) := by
        rw [hW] at hL ⊢; omega
      have e3 : (cnt + min 4095 (L - cnt)) % WORD = cnt + min 4095 (L - cnt) := by
        rw [hW] at hL ⊢; omega
      rw [e1, e2, e3]
      obtain ⟨x, hx, hr, ht⟩ := ih (cnt + min 4095 (L - cnt))
        (storeBytes buf cnt (M.vm_read_overwrite w.env task (a + cnt) (min 4095 (L - cnt))).1.2)
        ⟨(M.vm_read_overwrite w.env task (a + cnt) (min 4095 (L - cnt))).2, w.init, w.tfp0,
          w.trace ++ [⟨Call.vm_read_overwrite, a + cnt, min 4095 (L - cnt), cnt, KERN_SUCCESS,
            min 4095 (L - cnt)⟩]⟩ (by omega) (by omega)
      refine ⟨x, hx, hr, ?_⟩
      rw [ht, planFrom_step _ _ _ _ hlt]
      simp
    · rw [kernel_read_loop_stop M task (a + L) fuel (a + cnt) (L - cnt) cnt buf w (by omega)]
      refine ⟨_, rfl, by simp only []; omega, ?_⟩
      rw [planFrom_done _ _ _ _ (by omega)]
      simp

theorem kernel_write_loop_exact {σ : Type} (M : Mach σ) (task a L : Nat) (buf : Nat → Nat)
    (hL : a + L < WORD) (hex : ExactWrite M) :
    ∀ fuel cnt (w : World σ), cnt ≤ L → L - cnt < fuel →
      ∃ x, kernel_write_loop M task (a + L) buf fuel (a + cnt) (L - cnt) cnt w = some x
        ∧ x.1 = L
        ∧ x.2.trace = w.trace ++ planFrom Call.vm_write a L cnt := by
  have hW : WORD = 2 ^ 64 := rfl
  intro fuel
  induction fuel with
  | zero => intro cnt w _ h; omega
  | succ fuel ih =>
    intro cnt w hc hf
    by_cases hlt : cnt < L
    · have hk := hex w.env task (a + cnt) (loadBytes buf cnt (chunk_size (L - cnt)))
      have hsz := chunk_size_eq (L - cnt)
      rw [kernel_write_loop_go M task (a + L) buf fuel (a + cnt) (L - cnt) cnt w (by omega) hk,
        hk, hsz]
      have e1 : (a + cnt + min 4095 (L - cnt)) % WORD = a + (cnt + min 4095 (L - cnt)) := by
        rw [hW] at hL ⊢; omega
      have e2 : (L - cnt + WORD - min 4095 (L - cnt)) % WORD
          = L - (cnt + min 4095 (L - cnt)) := by
        rw [hW] at hL ⊢; omega
      have e3 : (cnt + min 4095 (L - cnt)) % WORD = cnt + min 4095 (L - cnt) := by
        rw [hW] at hL ⊢; omega
      rw [e1, e2, e3]
      obtain ⟨x, hx, hr, ht⟩ := ih (cnt + min 4095 (L - cnt))
        ⟨(M.vm_write w.env task (a + cnt) (loadBytes buf cnt (min 4095 (L - cnt)))).2, w.init,
          w.tfp0,
          w.trace ++ [⟨Call.vm_write, a + cnt, min 4095 (L - cnt), cnt, KERN_SUCCESS,
            min 4095 (L - cnt)⟩]⟩ (by omega) (by omega)
      refine ⟨x, hx, hr, ?_⟩
      rw [ht, planFrom_step _ _ _ _ hlt]
      simp
    · rw [kernel_write_loop_stop M task (a + L) buf fuel (a + cnt) (L - cnt) cnt w (by omega)]
      refine ⟨_, rfl, by simp only []; omega, ?_⟩
      rw [planFrom_done _ _ _ _ (by omega)]
      simp

theorem kernel_read_of_valid {σ : Type} (M : Mach σ) (fuel addr size : Nat) (buf : Nat → Nat)
    (w : World σ) (hcap : (get_kernel_task M w).1.1 = KERN_SUCCESS) :
    kernel_read M fuel addr size buf w
      = kernel_read_loop M (get_kernel_task M w).1.2 ((addr + size) % WORD) fuel addr size 0 buf
          (get_kernel_task M w).2 := by
  unfold kernel_read
  simp only [hcap, bne_self_eq_false, Bool.false_eq_true, if_false]

theorem kernel_write_of_valid {σ : Type} (M : Mach σ) (fuel addr size : Nat) (buf : Nat → Nat)
    (w : World σ) (hcap : (get_kernel_task M w).1.1 = KERN_SUCCESS) :
    kernel_write M fuel addr size buf w
      = kernel_write_loop M (get_kernel_task M w).1.2 ((addr + size) % WORD) buf fuel addr size 0
          (get_kernel_task M w).2 := by
  unfold kernel_write
  simp only [hcap, bne_self_eq_false, Bool.false_eq_true, if_false]

theorem get_kernel_task_trace {σ : Type} (M : Mach σ) (w : World σ) :
    OnlyAcquire w.trace (get_kernel_task M w).2.trace := by
  rw [get_kernel_task_eq]; exact settled_trace M w

/-- C1: with a valid capability, `a + L` not wrapping and a transport in which
every call succeeds and moves exactly the requested size, `kernel_read` and
`kernel_write` both return `L` (with fuel above `L`), and the calls they log,
after calls of the capability cache only, are exactly the chunk plan: the
`⌈L / 4095⌉` transport calls, call `i` at address `a + 4095 * i` for
`min 4095 (L - 4095 * i)` bytes at buffer offset `4095 * i`; for `L = 0`
the plan is empty. -/
theorem chunked_transport_plan {σ : Type} (M : Mach σ) (w : World σ) (fuel a L : Nat)
    (buf : Nat → Nat) (hcap : (get_kernel_task M w).1.1 = KERN_SUCCESS)
    (hL : a + L < WORD) (hr : ExactRead M) (hw : ExactWrite M) (hf : L < fuel) :
    (∃ x l, kernel_read M fuel a L buf w = some x ∧ x.ret = L
        ∧ (∀ e ∈ l, e.call.isAcquire = true)
        ∧ x.world.trace = w.trace ++ l ++ chunkPlan Call.vm_read_overwrite a L)
      ∧ (∃ y l, kernel_write M fuel a L buf w = some y ∧ y.1 = L
        ∧ (∀ e ∈ l, e.call.isAcquire = true)
        ∧ y.2.trace = w.trace ++ l ++ chunkPlan Call.vm_write a L)
      ∧ (∀ c, (chunkPlan c a L).length = (L + 4094) / 4095)
      ∧ (L = 0 → ∀ c, chunkPlan c a L = []) := by
  obtain ⟨l, hl, hacq⟩ := get_kernel_task_trace M w
  have hlim : (a + L) % WORD = a + L := Nat.mod_eq_of_lt hL
  refine ⟨?_, ?_, ?_, ?_⟩
  · obtain ⟨x, hx, hret, ht⟩ := kernel_read_loop_exact M (get_kernel_task M w).1.2 a L hL hr
      fuel 0 buf (get_kernel_task M w).2 (Nat.zero_le _) (by omega)
    refine ⟨x, l, ?_, hret, hacq, ?_⟩
    · rw [kernel_read_of_valid M fuel a L buf w hcap, hlim]
      simpa using hx
    · rw [ht, hl, planFrom_zero]
  · obtain ⟨y, hy, hret, ht⟩ := kernel_write_loop_exact M (get_kernel_task M w).1.2 a L buf hL hw
      fuel 0 (get_kernel_task M w).2 (Nat.zero_le _) (by omega)
    refine ⟨y, l, ?_, hret, hacq, ?_⟩
    · rw [kernel_write_of_valid M fuel a L buf w hcap, hlim]
      simpa using hy
    · rw [ht, hl, planFrom_zero]
  · intro c
    simp [chunkPlan]
  · intro h0 c
    subst h0
    rfl

/-- Witness of C1: a request of 5000 bytes at `0x1000` on the simulated kernel. -/
theorem chunked_transport_plan_witness :
    (∃ x l, kernel_read (grantMach 0) 5001 0x1000 5000 (fun _ => 0) (freshWorld fun _ => 0)
          = some x ∧ x.ret = 5000
        ∧ (∀ e ∈ l, e.call.isAcquire = true)
        ∧ x.world.trace = (freshWorld fun _ => 0).trace ++ l
            ++ chunkPlan Call.vm_read_overwrite 0x1000 5000)
      ∧ (∃ y l, kernel_write (grantMach 0) 5001 0x1000 5000 (fun _ => 0) (freshWorld fun _ => 0)
          = some y ∧ y.1 = 5000
        ∧ (∀ e ∈ l, e.call.isAcquire = true)
        ∧ y.2.trace = (freshWorld fun _ => 0).trace ++ l ++ chunkPlan Call.vm_write 0x1000 5000)
      ∧ (∀ c, (chunkPlan c 0x1000 5000).length = (5000 + 4094) / 4095)
      ∧ (5000 = 0 → ∀ c, chunkPlan c 0x1000 5000 = []) :=
  chunked_transport_plan (grantMach 0) (freshWorld fun _ => 0) 5001 0x1000 5000 (fun _ => 0)
    rfl (by decide)
    (fun _ _ _ n => ⟨rfl, by simp [grantMach, simMach, loadBytes]⟩)
    (fun _ _ _ _ => rfl) (by decide)

/-! ## Chunked transport: a transport that may fail or deliver short -/

theorem Chained.discipline (c : Call) (a : Nat) :
    ∀ (evs : List Event) (cnt : Nat), Chained c a cnt evs →
      ∀ k e, evs[k]? = some e →
        e.call = c ∧ 1 ≤ e.size ∧ e.size ≤ 4095
          ∧ e.addr = a + cnt + movedSoFar evs k ∧ e.off = cnt + movedSoFar evs k
          ∧ (e.failed = true → k + 1 = evs.length) := by
  intro evs
  induction evs with
  | nil => intro cnt _ k e h; simp at h
  | cons e0 es ih =>
    intro cnt hch k e hk
    obtain ⟨h1, h2, h3, h4, h5, h6⟩ := hch
    cases k with
    | zero =>
      simp only [List.getElem?_cons_zero, Option.some.injEq] at hk
      subst hk
      refine ⟨h1, h2, h3, by simpa [movedSoFar] using h4, by simpa [movedSoFar] using h5, ?_⟩
      intro hf
      rw [if_pos hf] at h6
      simp [h6]
    | succ k =>
      simp only [List.getElem?_cons_succ] at hk
      by_cases hf : e0.failed = true
      · rw [if_pos hf] at h6
        subst h6
        simp at hk
      · rw [if_neg hf] at h6
        obtain ⟨g1, g2, g3, g4, g5, g6⟩ := ih (cnt + e0.moved) h6 k e hk
        have hm : movedSoFar (e0 :: es) (k + 1) = e0.moved + movedSoFar es k := by
          simp [movedSoFar]
        refine ⟨g1, g2, g3, by rw [g4, hm]; omega, by rw [g5, hm]; omega, ?_⟩
        intro h
        have := g6 h
        simp only [List.length_cons]
        omega

theorem movedBefore_cons_failed (e : Event) (es : List Event) (h : e.failed = true) :
    movedBefore (e :: es) = 0 := by
  simp [movedBefore, List.takeWhile, h]

theorem movedBefore_cons_ok (e : Event) (es : List Event) (h : e.failed = false) :
    movedBefore (e :: es) = e.moved + movedBefore es := by
  simp [movedBefore, List.takeWhile, h]

theorem kernel_read_loop_honest {σ : Type} (M : Mach σ) (task a L : Nat)
    (hL : a + L < WORD) (hh : HonestRead M) :
    ∀ fuel cnt buf (w : World σ), cnt ≤ L → L - cnt < fuel →
      ∃ x evs, kernel_read_loop M task (a + L) fuel (a + cnt) (L - cnt) cnt buf w = some x
        ∧ x.world.trace = w.trace ++ evs
        ∧ Chained Call.vm_read_overwrite a cnt evs
        ∧ x.ret = cnt + movedBefore evs ∧ x.ret ≤ L := by
  have hW : WORD = 2 ^ 64 := rfl
  intro fuel
  induction fuel with
  | zero => intro cnt buf w _ h; omega
  | succ fuel ih =>
    intro cnt buf w hc hf
    by_cases hlt : cnt < L
    · have hsz := chunk_size_eq (L - cnt)
      have hlen := hh w.env task (a + cnt) (chunk_size (L - cnt))
      have hout : (M.vm_read_overwrite w.env task (a + cnt) (chunk_size (L - cnt))).1.2.length
          % WORD = (M.vm_read_overwrite w.env task (a + cnt) (chunk_size (L - cnt))).1.2.length := by
        rw [hW]; omega
      by_cases hfail :
          (M.vm_read_overwrite w.env task (a + cnt) (chunk_size (L - cnt))).1.1 ≠ KERN_SUCCESS
          ∨ (M.vm_read_overwrite w.env task (a + cnt) (chunk_size (L - cnt))).1.2.length % WORD
            = 0
      · rw [kernel_read_loop_fail M task (a + L) fuel (a + cnt) (L - cnt) cnt buf w (by omega)
          hfail]
        have hfl : Event.failed ⟨Call.vm_read_overwrite, a + cnt, chunk_size (L - cnt), cnt,
            (M.vm_read_overwrite w.env task (a + cnt) (chunk_size (L - cnt))).1.1,
            (M.vm_read_overwrite w.env task (a + cnt) (chunk_size (L - cnt))).1.2.length % WORD⟩
            = true := by
          rcases hfail with h | h
          · simp [Event.failed, h]
          · simp [Event.failed, h]
        refine ⟨_, [_], rfl, rfl, ?_, ?_, hc⟩
        · refine ⟨rfl, ?_, ?_, rfl, rfl, ?_⟩
          · show 1 ≤ chunk_size (L - cnt)
            omega
          · show chunk_size (L - cnt) ≤ 4095
            omega
          · rw [if_pos hfl]
        · rw [movedBefore_cons_failed _ _ hfl]
          rfl
      · have hk : (M.vm_read_overwrite w.env task (a + cnt) (chunk_size (L - cnt))).1.1
            = KERN_SUCCESS := by
          by_contra h; exact hfail (Or.inl h)
        have hn : (M.vm_read_overwrite w.env task (a + cnt) (chunk_size (L - cnt))).1.2.length
            % WORD ≠ 0 := fun h => hfail (Or.inr h)
        rw [kernel_read_loop_go M task (a + L) fuel (a + cnt) (L - cnt) cnt buf w (by omega) hk hn]
        generalize hr : M.vm_read_overwrite w.env task (a + cnt) (chunk_size (L - cnt)) = r
          at hlen hout hk hn
        rw [hout] at hn ⊢
        have e1 : (a + cnt + r.1.2.length) % WORD = a + (cnt + r.1.2.length) := by
          rw [hW] at hL ⊢; omega
        have e2 : (L - cnt + WORD - r.1.2.length) % WORD = L - (cnt + r.1.2.length) := by
          rw [hW] at hL ⊢; omega
        have e3 : (cnt + r.1.2.length) % WORD = cnt + r.1.2.length := by
          rw [hW] at hL ⊢; omega
        rw [e1, e2, e3]
        obtain ⟨x, evs, hx, ht, hch, hret, hle⟩ := ih (cnt + r.1.2.length)
          (storeBytes buf cnt r.1.2)
          ⟨r.2, w.init, w.tfp0, w.trace ++ [⟨Call.vm_read_overwrite, a + cnt,
            chunk_size (L - cnt), cnt, r.1.1, r.1.2.length⟩]⟩ (by omega) (by omega)
        have hfl : Event.failed ⟨Call.vm_read_overwrite, a + cnt, chunk_size (L - cnt), cnt,
            r.1.1, r.1.2.length⟩ = false := by
          simp [Event.failed, hk, hn]
        refine ⟨x, ⟨Call.vm_read_overwrite, a + cnt, chunk_size (L - cnt), cnt, r.1.1,
          r.1.2.length⟩ :: evs, hx, by rw [ht]; simp, ?_, ?_, hle⟩
        · refine ⟨rfl, ?_, ?_, rfl, rfl, ?_⟩
          · show 1 ≤ chunk_size (L - cnt)
            omega
          · show chunk_size (L - cnt) ≤ 4095
            omega
          · rw [hfl]
            simpa using hch
        · rw [movedBefore_cons_ok _ _ hfl, hret]
          show cnt + r.1.2.length + movedBefore evs = cnt + (r.1.2.length + movedBefore evs)
          omega
    · rw [kernel_read_loop_stop M task (a + L) fuel (a + cnt) (L - cnt) cnt buf w (by omega)]
      exact ⟨_, [], rfl, by simp, trivial, by simp [movedBefore], hc⟩

theorem kernel_write_loop_honest {σ : Type} (M : Mach σ) (task a L : Nat) (buf : Nat → Nat)
    (hL : a + L < WORD) :
    ∀ fuel cnt (w : World σ), cnt ≤ L → L - cnt < fuel →
      ∃ x evs, kernel_write_loop M task (a + L) buf fuel (a + cnt) (L - cnt) cnt w = some x
        ∧ x.2.trace = w.trace ++ evs
        ∧ Chained Call.vm_write a cnt evs
        ∧ x.1 = cnt + movedBefore evs ∧ x.1 ≤ L := by
  have hW : WORD = 2 ^ 64 := rfl
  intro fuel
  induction fuel with
  | zero => intro cnt w _ h; omega
  | succ fuel ih =>
    intro cnt w hc hf
    by_cases hlt : cnt < L
    · have hsz := chunk_size_eq (L - cnt)
      by_cases hfail :
          (M.vm_write w.env task (a + cnt) (loadBytes buf cnt (chunk_size (L - cnt)))).1
            ≠ KERN_SUCCESS
      · rw [kernel_write_loop_fail M task (a + L) buf fuel (a + cnt) (L - cnt) cnt w (by omega)
          hfail]
        have hfl : Event.failed ⟨Call.vm_write, a + cnt, chunk_size (L - cnt), cnt,
            (M.vm_write w.env task (a + cnt) (loadBytes buf cnt (chunk_size (L - cnt)))).1,
            chunk_size (L - cnt)⟩ = true := by
          simp [Event.failed, hfail]
        refine ⟨_, [_], rfl, rfl, ?_, ?_, hc⟩
        · refine ⟨rfl, ?_, ?_, rfl, rfl, ?_⟩
          · show 1 ≤ chunk_size (L - cnt)
            omega
          · show chunk_size (L - cnt) ≤ 4095
            omega
          · rw [if_pos hfl]
        · rw [movedBefore_cons_failed _ _ hfl]
          rfl
      · have hk : (M.vm_write w.env task (a + cnt) (loadBytes buf cnt (chunk_size (L - cnt)))).1
            = KERN_SUCCESS := by
          by_contra h; exact hfail h
        rw [kernel_write_loop_go M task (a + L) buf fuel (a + cnt) (L - cnt) cnt w (by omega) hk]
        generalize hr : M.vm_write w.env task (a + cnt) (loadBytes buf cnt (chunk_size (L - cnt)))
          = r at hk
        have e1 : (a + cnt + chunk_size (L - cnt)) % WORD = a + (cnt + chunk_size (L - cnt)) := by
          rw [hW] at hL ⊢; omega
        have e2 : (L - cnt + WORD - chunk_size (L - cnt)) % WORD
            = L - (cnt + chunk_size (L - cnt)) := by
          rw [hW] at hL ⊢; omega
        have e3 : (cnt + chunk_size (L - cnt)) % WORD = cnt + chunk_size (L - cnt) := by
          rw [hW] at hL ⊢; omega
        rw [e1, e2, e3]
        obtain ⟨x, evs, hx, ht, hch, hret, hle⟩ := ih (cnt + chunk_size (L - cnt))
          ⟨r.2, w.init, w.tfp0, w.trace ++ [⟨Call.vm_write, a + cnt,
            chunk_size (L - cnt), cnt, r.1, chunk_size (L - cnt)⟩]⟩ (by omega) (by omega)
        have hn : chunk_size (L - cnt) ≠ 0 := by omega
        have hfl : Event.failed ⟨Call.vm_write, a + cnt, chunk_size (L - cnt), cnt,
            r.1, chunk_size (L - cnt)⟩ = false := by
          simp [Event.failed, hk, hn]
        refine ⟨x, ⟨Call.vm_write, a + cnt, chunk_size (L - cnt), cnt, r.1,
          chunk_size (L - cnt)⟩ :: evs, hx, by rw [ht]; simp, ?_, ?_, hle⟩
        · refine ⟨rfl, ?_, ?_, rfl, rfl, ?_⟩
          · show 1 ≤ chunk_size (L - cnt)
            omega
          · show chunk_size (L - cnt) ≤ 4095
            omega
          · rw [hfl]
            simpa using hch
        · rw [movedBefore_cons_ok _ _ hfl, hret]
          show cnt + chunk_size (L - cnt) + movedBefore evs
            = cnt + (chunk_size (L - cnt) + movedBefore evs)
          omega
    · rw [kernel_write_loop_stop M task (a + L) buf fuel (a + cnt) (L - cnt) cnt w (by omega)]
      exact ⟨_, [], rfl, by simp, trivial, by simp [movedBefore], hc⟩

theorem ChunkDiscipline.nil (c : Call) (a : Nat) : ChunkDiscipline c a [] := by
  intro k e h
  simp at h

theorem ChunkDiscipline.of_chained (c : Call) (a : Nat) (evs : List Event)
    (h : Chained c a 0 evs) : ChunkDiscipline c a evs := by
  intro k e hk
  have := Chained.discipline c a evs 0 h k e hk
  simpa using this

theorem kernel_read_honest {σ : Type} (M : Mach σ) (w : World σ) (fuel a L : Nat)
    (buf : Nat → Nat) (hcap : (get_kernel_task M w).1.1 = KERN_SUCCESS)
    (ha : a < WORD) (hLw : L < WORD) (hh : HonestRead M) (hf : L < fuel) :
    ∃ x l evs, kernel_read M fuel a L buf w = some x
      ∧ (∀ e ∈ l, e.call.isAcquire = true)
      ∧ x.world.trace = w.trace ++ l ++ evs
      ∧ ChunkDiscipline Call.vm_read_overwrite a evs
      ∧ x.ret = movedBefore evs ∧ x.ret ≤ L := by
  have hW : WORD = 2 ^ 64 := rfl
  obtain ⟨l, hl, hacq⟩ := get_kernel_task_trace M w
  rw [kernel_read_of_valid M fuel a L buf w hcap]
  by_cases hL : a + L < WORD
  · obtain ⟨x, evs, hx, ht, hch, hret, hle⟩ := kernel_read_loop_honest M
      (get_kernel_task M w).1.2 a L hL hh fuel 0 buf (get_kernel_task M w).2 (Nat.zero_le _)
      (by omega)
    rw [Nat.mod_eq_of_lt hL]
    refine ⟨x, l, evs, by simpa using hx, hacq, by rw [ht, hl], ?_, by simpa using hret, hle⟩
    exact ChunkDiscipline.of_chained _ _ _ hch
  · obtain ⟨f, rfl⟩ : ∃ f, fuel = f + 1 := ⟨fuel - 1, by omega⟩
    rw [kernel_read_loop_stop M _ _ f a L 0 buf _ (by rw [hW] at ha hLw hL ⊢; omega)]
    exact ⟨_, l, [], rfl, hacq, by simp [hl], ChunkDiscipline.nil _ _, rfl, Nat.zero_le _⟩

theorem kernel_write_honest {σ : Type} (M : Mach σ) (w : World σ) (fuel a L : Nat)
    (buf : Nat → Nat) (hcap : (get_kernel_task M w).1.1 = KERN_SUCCESS)
    (ha : a < WORD) (hLw : L < WORD) (hf : L < fuel) :
    ∃ y l evs, kernel_write M fuel a L buf w = some y
      ∧ (∀ e ∈ l, e.call.isAcquire = true)
      ∧ y.2.trace = w.trace ++ l ++ evs
      ∧ ChunkDiscipline Call.vm_write a evs
      ∧ y.1 = movedBefore evs ∧ y.1 ≤ L := by
  have hW : WORD = 2 ^ 64 := rfl
  obtain ⟨l, hl, hacq⟩ := get_kernel_task_trace M w
  rw [kernel_write_of_valid M fuel a L buf w hcap]
  by_cases hL : a + L < WORD
  · obtain ⟨y, evs, hy, ht, hch, hret, hle⟩ := kernel_write_loop_honest M
      (get_kernel_task M w).1.2 a L buf hL fuel 0 (get_kernel_task M w).2 (Nat.zero_le _)
      (by omega)
    rw [Nat.mod_eq_of_lt hL]
    refine ⟨y, l, evs, by simpa using hy, hacq, by rw [ht, hl], ?_, by simpa using hret, hle⟩
    exact ChunkDiscipline.of_chained _ _ _ hch
  · obtain ⟨f, rfl⟩ : ∃ f, fuel = f + 1 := ⟨fuel - 1, by omega⟩
    rw [kernel_write_loop_stop M _ _ buf f a L 0 _ (by rw [hW] at ha hLw hL ⊢; omega)]
    exact ⟨_, l, [], rfl, hacq, by simp [hl], ChunkDiscipline.nil _ _, rfl, Nat.zero_le _⟩

/-- C2: for every 64-bit request `(a, L)` with a valid capability and a
transport that never reports more bytes than it was asked for, `kernel_read`
and `kernel_write` return (with fuel above `L`), and the transport calls they
log, after calls of the capability cache only, obey the chunk discipline: each
asks for between 1 and 4095 bytes at address `a + count` and buffer offset
`count`, where `count` is what the calls before it moved; a call that returned
an error or moved no byte is the last one; the value returned is the total
moved by the calls before the first failed one, and it is at most `L`. -/
theorem chunked_transport_partial {σ : Type} (M : Mach σ) (w : World σ) (fuel a L : Nat)
    (buf : Nat → Nat) (hcap : (get_kernel_task M w).1.1 = KERN_SUCCESS)
    (ha : a < WORD) (hLw : L < WORD) (hh : HonestRead M) (hf : L < fuel) :
    (∃ x l evs, kernel_read M fuel a L buf w = some x
        ∧ (∀ e ∈ l, e.call.isAcquire = true)
        ∧ x.world.trace = w.trace ++ l ++ evs
        ∧ ChunkDiscipline Call.vm_read_overwrite a evs
        ∧ x.ret = movedBefore evs ∧ x.ret ≤ L)
      ∧ (∃ y l evs, kernel_write M fuel a L buf w = some y
        ∧ (∀ e ∈ l, e.call.isAcquire = true)
        ∧ y.2.trace = w.trace ++ l ++ evs
        ∧ ChunkDiscipline Call.vm_write a evs
        ∧ y.1 = movedBefore evs ∧ y.1 ≤ L) :=
  ⟨kernel_read_honest M w fuel a L buf hcap ha hLw hh hf,
    kernel_write_honest M w fuel a L buf hcap ha hLw hf⟩

theorem shortMach_honest : HonestRead shortMach := by
  intro e t x n
  show (Prod.fst (if decide (0x1008 ≤ x) = true then ((KERN_INVALID_ADDRESS, []), e)
    else ((KERN_SUCCESS, loadBytes e x (min n 3)), e))).2.length ≤ n
  split
  · simp
  · simp [loadBytes]

/-- Witness of C2: a request of 20 bytes at `0x1000` on a transport that
delivers 3 bytes per call and fails from `0x1008` on. -/
theorem chunked_transport_partial_witness :
    (∃ x l evs, kernel_read shortMach 21 0x1000 20 (fun _ => 0) (freshWorld fun _ => 0) = some x
        ∧ (∀ e ∈ l, e.call.isAcquire = true)
        ∧ x.world.trace = (freshWorld fun _ => 0).trace ++ l ++ evs
        ∧ ChunkDiscipline Call.vm_read_overwrite 0x1000 evs
        ∧ x.ret = movedBefore evs ∧ x.ret ≤ 20)
      ∧ (∃ y l evs, kernel_write shortMach 21 0x1000 20 (fun _ => 0) (freshWorld fun _ => 0)
          = some y
        ∧ (∀ e ∈ l, e.call.isAcquire = true)
        ∧ y.2.trace = (freshWorld fun _ => 0).trace ++ l ++ evs
        ∧ ChunkDiscipline Call.vm_write 0x1000 evs
        ∧ y.1 = movedBefore evs ∧ y.1 ≤ 20) :=
  chunked_transport_partial shortMach (freshWorld fun _ => 0) 21 0x1000 20 (fun _ => 0)
    rfl (by decide) (by decide) shortMach_honest (by decide)

/-! ## The size sentinel -/

theorem kernel_read_of_absent {σ : Type} (M : Mach σ) (fuel addr size : Nat) (buf : Nat → Nat)
    (w : World σ) (hcap : (get_kernel_task M w).1.1 ≠ KERN_SUCCESS) :
    kernel_read M fuel addr size buf w = some ⟨SIZE_ERROR, buf, (get_kernel_task M w).2⟩ := by
  unfold kernel_read
  have hb : ((get_kernel_task M w).1.1 != KERN_SUCCESS) = true := by simpa using hcap
  simp only [hb, if_true]

theorem kernel_write_of_absent {σ : Type} (M : Mach σ) (fuel addr size : Nat) (buf : Nat → Nat)
    (w : World σ) (hcap : (get_kernel_task M w).1.1 ≠ KERN_SUCCESS) :
    kernel_write M fuel addr size buf w = some (SIZE_ERROR, (get_kernel_task M w).2) := by
  unfold kernel_write
  have hb : ((get_kernel_task M w).1.1 != KERN_SUCCESS) = true := by simpa using hcap
  simp only [hb, if_true]

/-- C6: (1) when `get_kernel_task` fails, `kernel_read` and `kernel_write`
return `(vm_size_t)-1` for every request and every fuel, and log nothing but
calls of the capability cache, so no transport call is issued; (2) for every
64-bit request `(a, L)` with `L < 2^64 - 1` on a transport that never
over-reports they return (with fuel above `L`), the count returned with a
valid capability is at most `L`, and the value returned is the sentinel if and
only if `get_kernel_task` failed; (3) the sentinel `2^64 - 1` is not `0`. -/
theorem size_sentinel {σ : Type} (M : Mach σ) (w : World σ) (fuel a L : Nat)
    (buf : Nat → Nat) :
    ((get_kernel_task M w).1.1 ≠ KERN_SUCCESS →
        ∃ l, (∀ e ∈ l, e.call.isAcquire = true)
          ∧ (get_kernel_task M w).2.trace = w.trace ++ l
          ∧ kernel_read M fuel a L buf w = some ⟨SIZE_ERROR, buf, (get_kernel_task M w).2⟩
          ∧ kernel_write M fuel a L buf w = some (SIZE_ERROR, (get_kernel_task M w).2))
      ∧ (a < WORD → L < WORD - 1 → HonestRead M → L < fuel →
          ∃ x y, kernel_read M fuel a L buf w = some x
            ∧ kernel_write M fuel a L buf w = some y
            ∧ ((get_kernel_task M w).1.1 = KERN_SUCCESS → x.ret ≤ L ∧ y.1 ≤ L)
            ∧ (x.ret = SIZE_ERROR ↔ (get_kernel_task M w).1.1 ≠ KERN_SUCCESS)
            ∧ (y.1 = SIZE_ERROR ↔ (get_kernel_task M w).1.1 ≠ KERN_SUCCESS))
      ∧ SIZE_ERROR = 2 ^ 64 - 1 ∧ SIZE_ERROR ≠ 0 := by
  have hW : WORD = 2 ^ 64 := rfl
  have hS : SIZE_ERROR = 2 ^ 64 - 1 := rfl
  refine ⟨?_, ?_, hS, by rw [hS]; decide⟩
  · intro hcap
    obtain ⟨l, hl, hacq⟩ := get_kernel_task_trace M w
    exact ⟨l, hacq, hl, kernel_read_of_absent M fuel a L buf w hcap,
      kernel_write_of_absent M fuel a L buf w hcap⟩
  · intro ha hL hh hf
    by_cases hcap : (get_kernel_task M w).1.1 = KERN_SUCCESS
    · obtain ⟨x, _, _, hx, _, _, _, _, hxle⟩ := kernel_read_honest M w fuel a L buf hcap ha
        (by omega) hh hf
      obtain ⟨y, _, _, hy, _, _, _, _, hyle⟩ := kernel_write_honest M w fuel a L buf hcap ha
        (by omega) hf
      refine ⟨x, y, hx, hy, fun _ => ⟨hxle, hyle⟩, ?_, ?_⟩
      · constructor
        · intro h; rw [hS] at h; rw [hW] at hL; omega
        · intro h; exact absurd hcap h
      · constructor
        · intro h; rw [hS] at h; rw [hW] at hL; omega
        · intro h; exact absurd hcap h
    · refine ⟨_, _, kernel_read_of_absent M fuel a L buf w hcap,
        kernel_write_of_absent M fuel a L buf w hcap, fun h => absurd h hcap, ?_, ?_⟩
      · exact ⟨fun _ => hcap, fun _ => rfl⟩
      · exact ⟨fun _ => hcap, fun _ => rfl⟩

/-- Witness of C6: a request of 16 bytes at `0x1000`, once with acquisition
denied and once with the port granted. -/
theorem size_sentinel_witness :
    (kernel_read denyMach 0 0x1000 16 (fun _ => 0) (freshWorld fun _ => 0)).map Xfer.ret
        = some SIZE_ERROR
      ∧ ∃ x y, kernel_read shortMach 17 0x1000 16 (fun _ => 0) (freshWorld fun _ => 0) = some x
        ∧ kernel_write shortMach 17 0x1000 16 (fun _ => 0) (freshWorld fun _ => 0) = some y
        ∧ x.ret ≤ 16 ∧ y.1 ≤ 16 ∧ x.ret ≠ SIZE_ERROR ∧ y.1 ≠ SIZE_ERROR := by
  refine ⟨?_, ?_⟩
  · obtain ⟨_, _, _, h, _⟩ := (size_sentinel denyMach (freshWorld fun _ => 0) 0 0x1000 16
      (fun _ => 0)).1 (by decide)
    rw [h]; rfl
  · obtain ⟨x, y, hx, hy, hle, h1, h2⟩ := (size_sentinel shortMach (freshWorld fun _ => 0) 17
      0x1000 16 (fun _ => 0)).2.1 (by decide) (by decide) shortMach_honest (by decide)
    exact ⟨x, y, hx, hy, (hle rfl).1, (hle rfl).2, fun h => h1.mp h rfl, fun h => h2.mp h rfl⟩

/-! ## Pattern search -/

theorem memmemFrom_none (s : List Nat) (hs : s ≠ []) :
    ∀ (l : List Nat) (i : Nat), memmemFrom s l i = none → ∀ j, ¬ OccursAt s l j := by
  intro l
  induction l with
  | nil =>
    intro i _ j h
    unfold OccursAt at h
    simp only [List.drop_nil, List.prefix_nil] at h
    exact hs h
  | cons x t ih =>
    intro i h j hj
    rw [memmemFrom] at h
    split at h
    · simp at h
    · rename_i hp
      cases j with
      | zero =>
        apply hp
        rw [List.isPrefixOf_iff_prefix]
        simpa [OccursAt] using hj
      | succ j =>
        exact ih (i + 1) h j (by simpa [OccursAt] using hj)

theorem memmemFrom_some (s : List Nat) :
    ∀ (l : List Nat) (i r : Nat), memmemFrom s l i = some r →
      ∃ k, r = i + k ∧ OccursAt s l k ∧ ∀ j < k, ¬ OccursAt s l j := by
  intro l
  induction l with
  | nil => intro i r h; simp [memmemFrom] at h
  | cons x t ih =>
    intro i r h
    rw [memmemFrom] at h
    split at h
    · rename_i hp
      simp only [Option.some.injEq] at h
      refine ⟨0, by omega, ?_, fun j hj => by omega⟩
      rw [List.isPrefixOf_iff_prefix] at hp
      simpa [OccursAt] using hp
    · rename_i hp
      obtain ⟨k, hk, ho, hmin⟩ := ih (i + 1) r h
      refine ⟨k + 1, by omega, by simpa [OccursAt] using ho, ?_⟩
      intro j hj hoj
      cases j with
      | zero =>
        apply hp
        rw [List.isPrefixOf_iff_prefix]
        simpa [OccursAt] using hoj
      | succ j =>
        exact hmin j (by omega) (by simpa [OccursAt] using hoj)

theorem OccursAt.lt_length {s l : List Nat} {i : Nat} (hs : s ≠ []) (h : OccursAt s l i) :
    i < l.length := by
  by_contra hn
  unfold OccursAt at h
  rw [List.drop_of_length_le (by omega)] at h
  exact hs (List.prefix_nil.mp h)

theorem loadBytes_length (buf : Nat → Nat) (off n : Nat) : (loadBytes buf off n).length = n := by
  simp [loadBytes]

theorem loadBytes_getD (buf : Nat → Nat) (off n i : Nat) (h : i < n) :
    (loadBytes buf off n).getD i 0 = buf (off + i) := by
  simp [loadBytes, List.getD_eq_getElem?_getD, List.getElem?_map, List.getElem?_range h]

theorem kernel_read_loop_memory {σ : Type} (M : Mach σ) (task a L : Nat) (mem : Nat → Nat)
    (hL : a + L < WORD) (hm : FaithfulRead M mem) :
    ∀ fuel cnt buf (w : World σ), cnt ≤ L → L - cnt < fuel →
      (∀ j, j < cnt → buf j = mem (a + j)) →
      ∃ x, kernel_read_loop M task (a + L) fuel (a + cnt) (L - cnt) cnt buf w = some x
        ∧ x.ret = L ∧ ∀ j, j < L → x.buf j = mem (a + j) := by
  have hW : WORD = 2 ^ 64 := rfl
  intro fuel
  induction fuel with
  | zero => intro cnt buf w _ h; omega
  | succ fuel ih =>
    intro cnt buf w hc hf hbuf
    by_cases hlt : cnt < L
    · have hrep := hm w.env task (a + cnt) (chunk_size (L - cnt))
      have hk : (M.vm_read_overwrite w.env task (a + cnt) (chunk_size (L - cnt))).1.1
          = KERN_SUCCESS := by rw [hrep]
      have hd : (M.vm_read_overwrite w.env task (a + cnt) (chunk_size (L - cnt))).1.2
          = loadBytes mem (a + cnt) (chunk_size (L - cnt)) := by rw [hrep]
      have hsz := chunk_size_eq (L - cnt)
      have hout : (M.vm_read_overwrite w.env task (a + cnt) (chunk_size (L - cnt))).1.2.length
          % WORD = chunk_size (L - cnt) := by
        rw [hd, loadBytes_length, hW]; omega
      rw [kernel_read_loop_go M task (a + L) fuel (a + cnt) (L - cnt) cnt buf w (by omega) hk
        (by rw [hout]; omega), hout, hd]
      have e1 : (a + cnt + chunk_size (L - cnt)) % WORD = a + (cnt + chunk_size (L - cnt)) := by
        rw [hW] at hL ⊢; omega
      have e2 : (L - cnt + WORD - chunk_size (L - cnt)) % WORD
          = L - (cnt + chunk_size (L - cnt)) := by
        rw [hW] at hL ⊢; omega
      have e3 : (cnt + chunk_size (L - cnt)) % WORD = cnt + chunk_size (L - cnt) := by
        rw [hW] at hL ⊢; omega
      rw [e1, e2, e3]
      apply ih (cnt + chunk_size (L - cnt)) _ _ (by omega) (by omega)
      intro j hj
      unfold storeBytes
      by_cases hin : cnt ≤ j
      · have hin2 : cnt ≤ j ∧ j < cnt + (loadBytes mem (a + cnt) (chunk_size (L - cnt))).length := by
          rw [loadBytes_length]; omega
        rw [if_pos hin2, loadBytes_getD _ _ _ _ (by omega)]
        congr 1
        omega
      · have hin2 : ¬ (cnt ≤ j
            ∧ j < cnt + (loadBytes mem (a + cnt) (chunk_size (L - cnt))).length) := by
          omega
        rw [if_neg hin2]
        exact hbuf j (by omega)
    · rw [kernel_read_loop_stop M task (a + L) fuel (a + cnt) (L - cnt) cnt buf w (by omega)]
      refine ⟨_, rfl, by simp only []; omega, ?_⟩
      intro j hj
      exact hbuf j (by omega)

theorem kernel_find_with_block {σ : Type} (M : Mach σ) (w : World σ)
    (fuel addr len : Nat) (pattern : List Nat) (b0 mem : Nat → Nat)
    (hcap : (get_kernel_task M w).1.1 = KERN_SUCCESS) (hL : addr + len < WORD)
    (hpat : pattern ≠ []) (hm : FaithfulRead M mem) (hf : len < fuel) :
    ∃ r w', kernel_find M fuel addr len pattern (some b0) w = some (r, w')
      ∧ (∀ i, OccursAt pattern (loadBytes mem addr len) i →
          (∀ j, j < i → ¬ OccursAt pattern (loadBytes mem addr len) j) → r = addr + i)
      ∧ ((∀ i, ¬ OccursAt pattern (loadBytes mem addr len) i) → r = 0) := by
  obtain ⟨x, hx, hret, hbuf⟩ := kernel_read_loop_memory M (get_kernel_task M w).1.2 addr len mem
    hL hm fuel 0 b0 (get_kernel_task M w).2 (Nat.zero_le _) (by omega)
    (fun j hj => absurd hj (Nat.not_lt_zero j))
  have hread : kernel_read M fuel addr len b0 w = some x := by
    rw [kernel_read_of_valid M fuel addr len b0 w hcap, Nat.mod_eq_of_lt hL]
    simpa using hx
  have hwin : loadBytes x.buf 0 len = loadBytes mem addr len := by
    unfold loadBytes
    apply List.map_congr_left
    intro j hj
    rw [Nat.zero_add]
    exact hbuf j (List.mem_range.mp hj)
  unfold kernel_find
  simp only [hread, hret, hwin]
  by_cases h0 : len = 0
  · subst h0
    refine ⟨0, x.world, by simp, ?_, fun _ => rfl⟩
    intro i hi _
    have := OccursAt.lt_length hpat hi
    simp [loadBytes] at this
  · have hne : (len != 0) = true := by simpa using h0
    have hl : (loadBytes mem addr len).isEmpty = false := by
      cases hc : loadBytes mem addr len with
      | nil =>
        have := loadBytes_length mem addr len
        rw [hc] at this
        simp at this
        omega
      | cons _ _ => rfl
    have hp : pattern.isEmpty = false := by
      cases pattern with
      | nil => exact absurd rfl hpat
      | cons _ _ => rfl
    simp only [hne, if_true, memmem, hl, hp, Bool.or_self, Bool.false_eq_true, if_false]
    cases hmm : memmemFrom pattern (loadBytes mem addr len) 0 with
    | none =>
      refine ⟨0, x.world, rfl, ?_, fun _ => rfl⟩
      intro i hi _
      exact absurd hi (memmemFrom_none pattern hpat _ 0 hmm i)
    | some r =>
      obtain ⟨k, hk, hocc, hmin⟩ := memmemFrom_some pattern _ 0 r hmm
      have hklt := OccursAt.lt_length hpat hocc
      rw [loadBytes_length] at hklt
      have hr : r = k := by omega
      subst hr
      refine ⟨addr + r, x.world, ?_, ?_, ?_⟩
      · simp only []
        rw [Nat.mod_eq_of_lt (by omega)]
      · intro i hi hmini
        have h1 : ¬ i < r := fun h => hmin i h hi
        have h2 : ¬ r < i := fun h => hmini r h hocc
        omega
      · intro hnone
        exact absurd hocc (hnone r)

/-- C7: with a valid capability, a window `[addr, addr + len)` that does not
wrap, a transport that delivers the bytes of the remote memory `mem`, and a
scratch block from `malloc` (which may be null only when `len` is 0),
`kernel_find` with a non-empty pattern returns (with fuel above `len`)
`addr + i` for the least offset `i` at which the pattern occurs in the
`len`-byte window of `mem` at `addr`, and `0` when the pattern occurs nowhere
in the window. -/
theorem kernel_find_first_match {σ : Type} (M : Mach σ) (w : World σ)
    (fuel addr len : Nat) (pattern : List Nat) (b : Option (Nat → Nat)) (mem : Nat → Nat)
    (hcap : (get_kernel_task M w).1.1 = KERN_SUCCESS) (hL : addr + len < WORD)
    (hpat : pattern ≠ []) (hm : FaithfulRead M mem) (hb : b = none → len = 0)
    (hf : len < fuel) :
    ∃ r w', kernel_find M fuel addr len pattern b w = some (r, w')
      ∧ (∀ i, OccursAt pattern (loadBytes mem addr len) i →
          (∀ j, j < i → ¬ OccursAt pattern (loadBytes mem addr len) j) → r = addr + i)
      ∧ ((∀ i, ¬ OccursAt pattern (loadBytes mem addr len) i) → r = 0) := by
  cases b with
  | some b0 => exact kernel_find_with_block M w fuel addr len pattern b0 mem hcap hL hpat hm hf
  | none =>
    have h0 := hb rfl
    subst h0
    refine ⟨0, w, rfl, ?_, fun _ => rfl⟩
    intro i hi _
    have := OccursAt.lt_length hpat hi
    simp [loadBytes] at this

set_option maxRecDepth 100000 in
/-- Witness of C7: `kernel_find(0x1000, 0x100, [0xDE, 0xAD])` over a memory that
holds the pattern first at offset `0x40` returns `0x1040`. -/
theorem kernel_find_first_match_witness :
    ∃ r w', kernel_find (romMach patMem) 0x101 0x1000 0x100 [0xDE, 0xAD] (some fun _ => 0)
        (freshWorld fun _ => 0) = some (r, w') ∧ r = 0x1040 := by
  obtain ⟨r, w', h, hfirst, _⟩ := kernel_find_first_match (romMach patMem)
    (freshWorld fun _ => 0) 0x101 0x1000 0x100 [0xDE, 0xAD] (some fun _ => 0) patMem rfl
    (by decide) (by decide) (fun _ _ _ _ => rfl) (fun h => by cases h) (by decide)
  exact ⟨r, w', h, hfirst 0x40 (by decide) (by decide)⟩

/-! ## Pattern search after a short read -/

theorem memmemFrom_first (s : List Nat) (hs : s ≠ []) (l : List Nat) (k : Nat)
    (hocc : OccursAt s l k) (hmin : ∀ j, j < k → ¬ OccursAt s l j) :
    memmemFrom s l 0 = some k := by
  cases h : memmemFrom s l 0 with
  | none => exact absurd hocc (memmemFrom_none s hs l 0 h k)
  | some r =>
    obtain ⟨k', hk, ho, hm⟩ := memmemFrom_some s l 0 r h
    have h1 : ¬ k < k' := fun hlt => hm k hlt hocc
    have h2 : ¬ k' < k := fun hlt => hmin k' hlt ho
    congr 1
    omega

theorem occursAt_pair (p q : Nat) :
    ∀ (l : List Nat) (i : Nat), OccursAt [p, q] l i ↔ l[i]? = some p ∧ l[i + 1]? = some q := by
  intro l
  induction l with
  | nil => intro i; simp [OccursAt]
  | cons x t ih =>
    intro i
    cases i with
    | zero =>
      cases t with
      | nil => simp [OccursAt]
      | cons y u =>
        simp only [OccursAt, List.drop_zero, List.cons_prefix_cons, List.nil_prefix, and_true,
          List.getElem?_cons_zero, Option.some.injEq, Nat.zero_add, List.getElem?_cons_succ]
        constructor
        · rintro ⟨h1, h2⟩; exact ⟨h1.symm, h2.symm⟩
        · rintro ⟨h1, h2⟩; exact ⟨h1.symm, h2.symm⟩
    | succ i =>
      have := ih i
      simpa [OccursAt] using this

theorem loadBytes_getElem? (buf : Nat → Nat) (off n i : Nat) :
    (loadBytes buf off n)[i]? = if i < n then some (buf (off + i)) else none := by
  unfold loadBytes
  rw [List.getElem?_map]
  by_cases h : i < n
  · rw [List.getElem?_range h, if_pos h]; rfl
  · rw [if_neg h, List.getElem?_eq_none (by simpa using h)]; rfl

theorem chunkFault_read :
    ∃ x, kernel_read chunkFaultMach 3 0x1000 4097 staleBlock (freshWorld fun _ => 0) = some x
      ∧ x.ret = 4095 ∧ ∀ j, x.buf j = staleBlock j := by
  have hcap : (get_kernel_task chunkFaultMach (freshWorld fun _ => 0)).1.1 = KERN_SUCCESS := rfl
  have hW : WORD = 2 ^ 64 := rfl
  have hc1 : chunk_size 4097 = 4095 := by decide
  have hr1 : ∀ e t, chunkFaultMach.vm_read_overwrite e t 0x1000 4095
      = ((KERN_SUCCESS, loadBytes e 0x1000 4095), e) := fun _ _ => rfl
  have hr2 : ∀ e t n, chunkFaultMach.vm_read_overwrite e t 0x1FFF n
      = ((KERN_INVALID_ADDRESS, []), e) := fun _ _ _ => rfl
  rw [kernel_read_of_valid _ _ _ _ _ _ hcap]
  have hlim : (0x1000 + 4097) % WORD = 0x2001 := by decide
  rw [hlim, kernel_read_loop_go _ _ _ _ _ _ _ _ _ (by decide)
    (by rw [hc1, hr1]) (by rw [hc1, hr1, loadBytes_length]; decide)]
  simp only [hc1, hr1, loadBytes_length]
  have e1 : (0x1000 + 4095 % WORD) % WORD = 0x1FFF := by decide
  have e2 : (4097 + WORD - 4095 % WORD) % WORD = 2 := by decide
  have e3 : (0 + 4095 % WORD) % WORD = 4095 := by decide
  rw [e1, e2, e3, kernel_read_loop_fail _ _ _ _ _ _ _ _ _ (by decide)
    (Or.inl (by rw [hr2]; decide))]
  refine ⟨_, rfl, rfl, ?_⟩
  intro j
  simp only [hr2]
  unfold storeBytes
  simp only [List.length_nil, loadBytes_length]
  have hno : ¬ (4095 ≤ j ∧ j < 4095 + 0) := by omega
  rw [if_neg hno]
  by_cases hj : j < 4095
  · rw [if_pos (by omega), Nat.sub_zero, loadBytes_getD _ _ _ _ hj]
    have he : (get_kernel_task chunkFaultMach (freshWorld fun _ => 0)).2.env = fun _ => 0 := rfl
    rw [he]
    unfold staleBlock
    rw [if_neg (by omega), if_neg (by omega)]
  · rw [if_neg (by omega)]

/-- C3, the code at a failing input: a read of 4097 bytes at `0x1000` whose
second chunk fails delivers 4095 bytes; the pattern `DE AD` occurs nowhere in
the delivered bytes, but the scratch block still holds it at offsets 4095 and
4096, and `kernel_find` returns `0x1FFF`. -/
theorem kernel_find_searches_stale_bytes :
    ∃ x, kernel_read chunkFaultMach 3 0x1000 4097 staleBlock (freshWorld fun _ => 0) = some x
      ∧ x.ret = 4095
      ∧ (∀ i, ¬ OccursAt [0xDE, 0xAD] (loadBytes x.buf 0 x.ret) i)
      ∧ (kernel_find chunkFaultMach 3 0x1000 4097 [0xDE, 0xAD] (some staleBlock)
          (freshWorld fun _ => 0)).map Prod.fst = some 0x1FFF := by
  obtain ⟨x, hx, hret, hbuf⟩ := chunkFault_read
  have hload : ∀ n, loadBytes x.buf 0 n = loadBytes staleBlock 0 n := by
    intro n
    unfold loadBytes
    exact List.map_congr_left (fun j _ => hbuf (0 + j))
  refine ⟨x, hx, hret, ?_, ?_⟩
  · intro i hi
    rw [hret, hload, occursAt_pair, loadBytes_getElem?, loadBytes_getElem?] at hi
    obtain ⟨h1, h2⟩ := hi
    by_cases hlt : i + 1 < 4095
    · rw [if_pos (by omega)] at h1
      unfold staleBlock at h1
      simp only [Nat.zero_add] at h1
      rw [if_neg (by omega), if_neg (by omega)] at h1
      simp at h1
    · rw [if_neg hlt] at h2
      simp at h2
  · unfold kernel_find
    simp only [hx, hret]
    have hm : memmem (loadBytes x.buf 0 4097) [0xDE, 0xAD] = some 4095 := by
      rw [hload]
      unfold memmem
      have hl : (loadBytes staleBlock 0 4097).isEmpty = false := by
        cases hc : loadBytes staleBlock 0 4097 with
        | nil =>
          have := loadBytes_length staleBlock 0 4097
          rw [hc] at this
          simp at this
        | cons _ _ => rfl
      simp only [hl, List.isEmpty_cons, Bool.or_self, Bool.false_eq_true, if_false]
      apply memmemFrom_first _ (by simp)
      · rw [occursAt_pair, loadBytes_getElem?, loadBytes_getElem?]
        exact ⟨rfl, rfl⟩
      · intro j hj hocc
        rw [occursAt_pair, loadBytes_getElem?] at hocc
        have h1 := hocc.1
        rw [if_pos (by omega)] at h1
        unfold staleBlock at h1
        simp only [Nat.zero_add] at h1
        rw [if_neg (by omega), if_neg (by omega)] at h1
        simp at h1
    rw [hm]
    rfl

/-! ## Base locator: the heuristic scan on simulated kernels -/

theorem region_scan_read_nonzero {σ : Type} (M : Mach σ) (rfuel task : Nat)
    (rt0 mh0 : Nat → Nat) (fuel addr : Nat) (w : World σ) (x : Xfer σ)
    (hk : (M.mach_vm_region w.env task addr).1.kr = KERN_SUCCESS)
    (htag : (M.mach_vm_region w.env task addr).1.user_tag = VM_KERN_MEMORY_CPU)
    (hprot : (M.mach_vm_region w.env task addr).1.protection = VM_PROT_DEFAULT)
    (hread : kernel_read M rfuel
      (((M.mach_vm_region w.env task addr).1.addr + M.CPU_DATA_RTCLOCK_DATAP_OFF) % WORD) 8 rt0
      ⟨(M.mach_vm_region w.env task addr).2, w.init, w.tfp0,
        w.trace ++ [⟨Call.mach_vm_region, addr, 0, 0, KERN_SUCCESS, 0⟩]⟩ = some x)
    (hret : x.ret ≠ 0) :
    region_scan M rfuel task rt0 mh0 (fuel + 1) addr w = some (0, x.world) := by
  have hb : (x.ret != KERN_SUCCESS) = true := by simpa [KERN_SUCCESS] using hret
  rw [region_scan]
  simp only [hk, htag, hprot, bne_self_eq_false, Bool.false_eq_true, if_false, beq_self_eq_true,
    Bool.and_self, if_true, hread, hb]

/-- C4, the code at a failing input: the capability is valid, there is no
direct hint, the first region is CPU-tagged with default protection, the read
of the field at `0x198` delivers all 8 bytes of the pointer
`0xFFFFFFF007010123`, every read succeeds, and the page `0xFFFFFFF007008000`
below the truncated pointer holds a matching header; `get_kernel_base` returns
`0` and issues no header read. -/
theorem get_kernel_base_drops_good_read :
    (kernel_read (scanMach fun _ => false) 4 0xFFFFFFE000A00198 8 (fun _ => 0)
        (freshWorld kernelMem)).map (fun x => (x.ret, leValue x.buf 0 8))
        = some (8, 0xFFFFFFF007010123)
      ∧ trunc_page_kernel (scanMach fun _ => false) 0xFFFFFFF007010123 = 0xFFFFFFF007010000
      ∧ header_mismatch (fun j => kernelMem (0xFFFFFFF007008000 + j)) = false
      ∧ (get_kernel_base (scanMach fun _ => false) 4 (fun _ => 0) (fun _ => 0)
          (freshWorld kernelMem)).map Prod.fst = some 0
      ∧ (get_kernel_base (scanMach fun _ => false) 4 (fun _ => 0) (fun _ => 0)
          (freshWorld kernelMem)).map (fun r => r.2.trace.map fun e => (e.call, e.addr, e.moved))
          = some [(Call.task_for_pid, 0, 0), (Call.pid_for_task, 0, 0), (Call.task_info, 0, 0),
              (Call.mach_vm_region, 0, 0), (Call.vm_read_overwrite, 0xFFFFFFE000A00198, 8)] := by
  refine ⟨?_, ?_, ?_, ?_, ?_⟩ <;> decide

/-- C5, the code at a failing input: every read fails with no byte moved.
After the failed read of the candidate pointer `get_kernel_base` goes on with
the bytes its local `rtclock_datap` happens to hold and issues two header
reads, which fail too; and when its local `mh64` happens to hold a matching
header it returns the address `0xFFFFFFF007008000`. -/
theorem get_kernel_base_goes_on_after_failed_read :
    (get_kernel_base (scanMach fun _ => true) 4 staleDatap (fun _ => 0)
        (freshWorld kernelMem)).map
        (fun r => (r.1, (r.2.trace.filter fun e => e.call == Call.vm_read_overwrite).map
          fun e => (e.addr, e.kr, e.moved)))
        = some (0, [(0xFFFFFFE000A00198, KERN_INVALID_ADDRESS, 0),
            (0xFFFFFFF007008000, KERN_INVALID_ADDRESS, 0),
            (0xFFFFFFF007004000, KERN_INVALID_ADDRESS, 0)])
      ∧ (get_kernel_base (scanMach fun _ => true) 4 staleDatap staleHeader
          (freshWorld kernelMem)).map
          (fun r => (r.1, (r.2.trace.filter fun e => e.call == Call.vm_read_overwrite).map
            fun e => (e.addr, e.kr, e.moved)))
          = some (0xFFFFFFF007008000, [(0xFFFFFFE000A00198, KERN_INVALID_ADDRESS, 0),
              (0xFFFFFFF007008000, KERN_INVALID_ADDRESS, 0)]) := by
  refine ⟨?_, ?_⟩ <;> decide

/-! ## Region walker: size scaling and tags -/

theorem size_scale_eq_floor (s : Nat) :
    size_scale s
      = if s / 1024 ≤ 4096 then (s / 1024, 'K')
        else if s / 1024 ^ 2 ≤ 4096 then (s / 1024 ^ 2, 'M')
        else (s / 1024 ^ 3, 'G') := by
  have h2 : s / 1024 / 1024 = s / 1024 ^ 2 := by omega
  have h3 : s / 1024 ^ 2 / 1024 = s / 1024 ^ 3 := by omega
  unfold size_scale
  simp only [h2, h3]
  by_cases hk : s / 1024 ≤ 4096
  · rw [if_neg (by omega), if_pos hk]
  · rw [if_pos (by omega), if_neg hk]
    by_cases hm : s / 1024 ^ 2 ≤ 4096
    · rw [if_neg (by omega), if_pos hm]
    · rw [if_pos (by omega), if_neg hm]

theorem lookup_none_of_keys_below (l : List (Nat × String)) (tag bound : Nat)
    (hb : ∀ p ∈ l, p.1 ≤ bound) (ht : bound < tag) : l.lookup tag = none := by
  rw [List.lookup_eq_none_iff]
  intro p hp
  have := hb p hp
  rw [bne_iff_ne]
  omega

theorem kern_tag_cases_below : ∀ p ∈ kern_tag_cases, p.1 ≤ 103 := by
  decide

theorem kern_tag_large (tag : Nat) (h : 256 ≤ tag) : kern_tag tag = none := by
  unfold kern_tag
  rw [lookup_none_of_keys_below kern_tag_cases tag 103 kern_tag_cases_below (by omega)]
  simp only []
  rw [if_neg (by omega), if_neg (by omega)]

set_option maxRecDepth 1000000 in
theorem kern_tag_small : ∀ tag, tag < 256 →
    (tag_listed tag ↔ tag ∈ kern_tag_cases.map Prod.fst)
      ∧ (tag_listed tag → (kern_tag tag).isSome = true
          ∧ kern_tag tag = kern_tag_cases.lookup tag)
      ∧ (230 ≤ tag ∧ tag ≤ 239 → kern_tag tag = some "?/rosetta")
      ∧ (249 ≤ tag ∧ tag ≤ 255 → kern_tag tag = some "?/application")
      ∧ (tag_unresolved tag → kern_tag tag = none) := by
  decide

/-- C17: `kern_tag` is a total function of the tag; it returns `?/rosetta` for
every tag in 230..239, `?/application` for every tag in 249..255, the label of
its `case` (not null) for exactly the tags listed in the `switch`, and null
for every other tag, which are 36..39, 47..49, 59, 85, 104..229, 240..248 and
every tag from 256 on. -/
theorem kern_tag_classifies (tag : Nat) :
    (tag_listed tag ↔ tag ∈ kern_tag_cases.map Prod.fst)
      ∧ (tag_listed tag → (kern_tag tag).isSome = true
          ∧ kern_tag tag = kern_tag_cases.lookup tag)
      ∧ (230 ≤ tag ∧ tag ≤ 239 → kern_tag tag = some "?/rosetta")
      ∧ (249 ≤ tag ∧ tag ≤ 255 → kern_tag tag = some "?/application")
      ∧ (tag_unresolved tag → kern_tag tag = none)
      ∧ (tag_listed tag ∨ (230 ≤ tag ∧ tag ≤ 239) ∨ (249 ≤ tag ∧ tag ≤ 255)
          ∨ tag_unresolved tag) := by
  have hall : tag_listed tag ∨ (230 ≤ tag ∧ tag ≤ 239) ∨ (249 ≤ tag ∧ tag ≤ 255)
      ∨ tag_unresolved tag := by
    unfold tag_listed tag_unresolved
    omega
  by_cases h : tag < 256
  · obtain ⟨h1, h2, h3, h4, h5⟩ := kern_tag_small tag h
    exact ⟨h1, h2, h3, h4, h5, hall⟩
  · have hn := kern_tag_large tag (by omega)
    have hnl : ¬ tag_listed tag := by unfold tag_listed; omega
    refine ⟨?_, fun hl => absurd hl hnl, fun hr => by omega, fun hr => by omega,
      fun _ => hn, hall⟩
    constructor
    · intro hl; exact absurd hl hnl
    · intro hm
      rw [List.mem_map] at hm
      obtain ⟨p, hp, rfl⟩ := hm
      have := kern_tag_cases_below p hp
      omega

/-! ## Region walker: one turn of the loop -/

theorem print_range_loop_cases {σ : Type} (Q : RegionOracle σ) (task : Nat)
    (extended gaps : Bool) (fuel level max addr last : Nat) (st : σ) (out : Out) (st' : σ)
    (h : print_range_loop Q task extended gaps (fuel + 1) level max addr last st
      = some (out, st')) :
    ((Q st task addr level).1.kr ≠ KERN_SUCCESS ∧ out = Out.done
        ∧ st' = (Q st task addr level).2)
      ∨ ((Q st task addr level).1.kr = KERN_SUCCESS
        ∧ max ≤ (Q st task addr level).1.addr
        ∧ out = with_gap (gap_entry gaps last max) Out.done
        ∧ st' = (Q st task addr level).2)
      ∨ ((Q st task addr level).1.kr = KERN_SUCCESS
        ∧ (Q st task addr level).1.addr < max
        ∧ ∃ so no,
            (if (Q st task addr level).1.info.is_submap != 0 then
                print_range_loop Q task extended gaps fuel ((level + 1) % UINT)
                  (((Q st task addr level).1.addr + (Q st task addr level).1.size) % WORD)
                  (Q st task addr level).1.addr (Q st task addr level).1.addr
                  (Q st task addr level).2
              else some (Out.done, (Q st task addr level).2)) = some so
            ∧ print_range_loop Q task extended gaps fuel level max
                (((Q st task addr level).1.addr + (Q st task addr level).1.size) % WORD)
                (if gaps then
                  ((Q st task addr level).1.addr + (Q st task addr level).1.size) % WORD
                  else last) so.2 = some no
            ∧ out = with_gap (gap_entry gaps last (Q st task addr level).1.addr)
                (Out.row (mk_row extended level (Q st task addr level).1.addr
                  (Q st task addr level).1.size (Q st task addr level).1.depth
                  (Q st task addr level).1.info) so.1 no.1)
            ∧ st' = no.2) := by
  rw [print_range_loop] at h
  simp only [] at h
  generalize Q st task addr level = q at h ⊢
  by_cases hk : q.1.kr = KERN_SUCCESS
  · right
    simp only [hk, bne_self_eq_false, Bool.false_eq_true, if_false] at h
    by_cases hm : max ≤ q.1.addr
    · left
      have hge : q.1.addr ≥ max := hm
      simp only [hge, if_true, ge_iff_le, le_refl, Option.some.injEq, Prod.mk.injEq] at h
      exact ⟨hk, hm, h.1.symm, h.2.symm⟩
    · right
      have hge : ¬ q.1.addr ≥ max := hm
      simp only [hge, if_false] at h
      refine ⟨hk, by omega, ?_⟩
      split at h
      · simp at h
      · rename_i so hso
        split at h
        · simp at h
        · rename_i no hno
          simp only [Option.some.injEq, Prod.mk.injEq] at h
          exact ⟨so, no, hso, hno, h.1.symm, h.2.symm⟩
  · left
    have hb : (q.1.kr != KERN_SUCCESS) = true := by simpa using hk
    simp only [hb, if_true, Option.some.injEq, Prod.mk.injEq] at h
    exact ⟨hk, h.1.symm, h.2.symm⟩

theorem with_gap_own_row (g : Option (Nat × Char)) (t : Out) (r : Row) :
    Line.row r ∈ (with_gap g t).own ↔ Line.row r ∈ t.own := by
  cases g with
  | none => rfl
  | some e => simp [with_gap, Out.own]

theorem mk_row_addr (extended : Bool) (level addr size depth : Nat) (info : SubmapInfo) :
    (mk_row extended level addr size depth info).addr = addr := rfl

theorem mk_row_level (extended : Bool) (level addr size depth : Nat) (info : SubmapInfo) :
    (mk_row extended level addr size depth info).level = level := rfl

theorem mk_row_stop (extended : Bool) (level addr size depth : Nat) (info : SubmapInfo) :
    (mk_row extended level addr size depth info).stop = (addr + size) % WORD := rfl

/-! ## Region walker: the bound `max` -/

/-- C16, as the code has it: every region row that a walk
`print_range(level, min, max)` prints itself (whatever the oracle, the fuel and
the point of the loop it is entered at) starts below `max` and carries the
level of the call; a region found at or above `max` ends the walk without a
row.  The end of a row is its start plus its size and is not clamped. -/
theorem print_range_rows_start_below_max {σ : Type} (Q : RegionOracle σ) (task : Nat)
    (extended gaps : Bool) :
    ∀ (fuel level max addr last : Nat) (st : σ) (out : Out) (st' : σ),
      print_range_loop Q task extended gaps fuel level max addr last st = some (out, st') →
      ∀ r, Line.row r ∈ out.own → r.addr < max ∧ r.level = level := by
  intro fuel
  induction fuel with
  | zero =>
    intro level max addr last st out st' h
    simp [print_range_loop] at h
  | succ fuel ih =>
    intro level max addr last st out st' h r hr
    rcases print_range_loop_cases Q task extended gaps fuel level max addr last st out st' h with
      ⟨_, hout, _⟩ | ⟨_, _, hout, _⟩ | ⟨_, hlt, so, no, _, hno, hout, _⟩
    · rw [hout] at hr
      simp [Out.own] at hr
    · rw [hout, with_gap_own_row] at hr
      simp [Out.own] at hr
    · rw [hout, with_gap_own_row] at hr
      simp only [Out.own, List.mem_cons, Line.row.injEq] at hr
      rcases hr with rfl | hr
      · exact ⟨hlt, rfl⟩
      · exact ih level max _ _ so.2 no.1 no.2 hno r hr

/-! ## Region walker: gap entries -/

theorem gap_scale_eq_size_scale (n : Nat) : gap_scale n = size_scale n := rfl

theorem gap_entry_some (e a : Nat) (g : Nat × Char) (h : gap_entry true e a = some g) :
    e ≠ 0 ∧ span64 e a ≠ 0 ∧ g = size_scale (span64 e a) := by
  unfold gap_entry at h
  simp only [if_true] at h
  by_cases he : e = 0
  · simp [he] at h
  · have hb : (e != 0) = true := by simpa using he
    simp only [hb, if_true] at h
    by_cases hs : (a + WORD - e) % WORD > 0
    · simp only [hs, if_true, Option.some.injEq] at h
      refine ⟨he, ?_, ?_⟩
      · unfold span64; omega
      · rw [← h, gap_scale_eq_size_scale]; rfl
    · simp [hs] at h

theorem gap_entry_none (e a : Nat) (h : gap_entry true e a = none) :
    e = 0 ∨ span64 e a = 0 := by
  unfold gap_entry at h
  simp only [if_true] at h
  by_cases he : e = 0
  · exact Or.inl he
  · have hb : (e != 0) = true := by simpa using he
    simp only [hb, if_true] at h
    by_cases hs : (a + WORD - e) % WORD > 0
    · simp [hs] at h
    · right
      unfold span64
      omega

theorem gapRule_with_gap_done (max e : Nat) :
    GapRule max e (with_gap (gap_entry true e max) Out.done) := by
  cases hg : gap_entry true e max with
  | none => simp [with_gap, GapRule]
  | some g =>
    obtain ⟨h1, h2, h3⟩ := gap_entry_some e max g hg
    simp only [with_gap, GapRule]
    refine ⟨h1, h2, ?_⟩
    rw [← h3]

theorem gapRule_with_gap_row (max e : Nat) (r : Row) (sub next : Out)
    (hsub : GapRule r.stop r.addr sub) (hnext : GapRule max r.stop next) :
    GapRule max e (with_gap (gap_entry true e r.addr) (Out.row r sub next)) := by
  cases hg : gap_entry true e r.addr with
  | none =>
    simp only [with_gap, GapRule]
    exact ⟨gap_entry_none e r.addr hg, hsub, hnext⟩
  | some g =>
    obtain ⟨h1, h2, h3⟩ := gap_entry_some e r.addr g hg
    simp only [with_gap, GapRule]
    refine ⟨h1, h2, ?_, hsub, hnext⟩
    rw [← h3]

theorem print_range_loop_gap_rule {σ : Type} (Q : RegionOracle σ) (task : Nat)
    (extended : Bool) :
    ∀ (fuel level max addr e : Nat) (st : σ) (out : Out) (st' : σ),
      print_range_loop Q task extended true fuel level max addr e st = some (out, st') →
      GapRule max e out := by
  intro fuel
  induction fuel with
  | zero =>
    intro level max addr e st out st' h
    simp [print_range_loop] at h
  | succ fuel ih =>
    intro level max addr e st out st' h
    rcases print_range_loop_cases Q task extended true fuel level max addr e st out st' h with
      ⟨_, hout, _⟩ | ⟨_, _, hout, _⟩ | ⟨_, hlt, so, no, hso, hno, hout, _⟩
    · rw [hout]; simp [GapRule]
    · rw [hout]; exact gapRule_with_gap_done max e
    · rw [hout]
      have hr := gapRule_with_gap_row max e
        (mk_row extended level (Q st task addr level).1.addr (Q st task addr level).1.size
          (Q st task addr level).1.depth (Q st task addr level).1.info) so.1 no.1
      rw [mk_row_addr] at hr
      apply hr
      · rw [mk_row_stop]
        by_cases hsm : ((Q st task addr level).1.info.is_submap != 0) = true
        · rw [if_pos hsm] at hso
          exact ih _ _ _ _ _ so.1 so.2 hso
        · rw [if_neg hsm] at hso
          simp only [Option.some.injEq] at hso
          rw [← hso]
          simp [GapRule]
      · rw [mk_row_stop]
        simp only [if_true] at hno
        exact ih _ _ _ _ _ no.1 no.2 hno

/-- C20, as the code has it: with gap reporting enabled, what any walk
`print_range(level, min, max)` prints obeys the gap rule, at its own level and
in every recursive call: between two consecutive rows with previous end `e` and
next start `s` there is exactly one gap entry when `e` is not 0 and `s` is not
`e`, for the 64-bit distance `s - e`, and none when `s = e` (or `e = 0`); the
other gap entries are those before the first row, measured from `min`, and the
closing one before `max` when the region found starts at or above `max`; and
the gap-scaling code computes the same value and unit as the region-size
scaling for every byte count. -/
theorem print_range_gap_rule {σ : Type} (Q : RegionOracle σ) (task : Nat)
    (extended : Bool) (fuel level min max : Nat) (st : σ) (out : Out) (st' : σ)
    (h : print_range Q task extended true fuel level min max st = some (out, st')) :
    GapRule max min out ∧ ∀ n, gap_scale n = size_scale n :=
  ⟨print_range_loop_gap_rule Q task extended fuel level max min min st out st' h,
    gap_scale_eq_size_scale⟩

/-- Witness of C20 (amended): the walk of `main` over a submap with a hole in
front of its only region. -/
theorem print_range_gap_rule_witness :
    GapRule (WORD - 1) 0
        (Out.row (mk_row false 0 0x2000 0x4000 0 (simInfo true))
          (Out.gap 4 'K' (Out.row (mk_row false 1 0x3000 0x1000 1 (simInfo false)) Out.done
            (Out.gap 8 'K' Out.done)))
          (Out.gap 8 'K' (Out.row (mk_row false 0 0x8000 0x1000 0 (simInfo false)) Out.done
            Out.done)))
      ∧ ∀ n, gap_scale n = size_scale n :=
  print_range_gap_rule holedSubmap.oracle 0x103 false 4 0 0 (WORD - 1) () _ () (by decide)

/-- C20 as stated fails.  First: in the walk of `main` over the submap
`[0x2000, 0x6000)` that holds only the region `[0x3000, 0x4000)` and is
followed by the region `[0x8000, 0x9000)`, the recursive call prints a gap
entry of 4 K before its first row and a gap entry of 8 K after its last row;
neither stands between two regions of the same depth.  Second: when the
previous region ends at address 0 and the next one starts at `0x1000`, no gap
entry is printed between their rows. -/
theorem print_range_gap_outside_regions :
    print_range holedSubmap.oracle 0x103 false true 4 0 0 (WORD - 1) ()
        = some (Out.row (mk_row false 0 0x2000 0x4000 0 (simInfo true))
            (Out.gap 4 'K' (Out.row (mk_row false 1 0x3000 0x1000 1 (simInfo false)) Out.done
              (Out.gap 8 'K' Out.done)))
            (Out.gap 8 'K' (Out.row (mk_row false 0 0x8000 0x1000 0 (simInfo false)) Out.done
              Out.done)), ())
      ∧ print_range (scriptOracle zeroEndScript) 0x103 false true 3 0 0 (WORD - 1) 0
        = some (Out.row (mk_row false 0 0 0 0 (simInfo false)) Out.done
            (Out.row (mk_row false 0 0x1000 0x1000 0 (simInfo false)) Out.done Out.done), 3) := by
  decide

/-- C12, as the code has it: with gap reporting enabled the walk of `main` over
the two regions `[0x1000, 0x2000)` and `[0x5000, 0x6000)` prints the first row,
one gap entry showing 12 K (`0x3000 / 1024`), and the second row. -/
theorem print_range_two_regions :
    print_range twoRegions.oracle 0x103 false true 3 0 0 (WORD - 1) ()
      = some (Out.row (mk_row false 0 0x1000 0x1000 0 (simInfo false)) Out.done
          (Out.gap 12 'K' (Out.row (mk_row false 0 0x5000 0x1000 0 (simInfo false)) Out.done
            Out.done)), ()) := by
  decide

/-- C12 as stated fails: the gap entry between the two rows does not show
3 K. -/
theorem print_range_two_regions_not_3K :
    print_range twoRegions.oracle 0x103 false true 3 0 0 (WORD - 1) ()
      ≠ some (Out.row (mk_row false 0 0x1000 0x1000 0 (simInfo false)) Out.done
          (Out.gap 3 'K' (Out.row (mk_row false 0 0x5000 0x1000 0 (simInfo false)) Out.done
            Out.done)), ()) := by
  decide

/-- Witness of C16 (amended): the walk of `main` over two regions, at its
second row. -/
theorem print_range_rows_start_below_max_witness :
    print_range_loop twoRegions.oracle 0x103 false true 3 0 (WORD - 1) 0 0 ()
        = some (Out.row (mk_row false 0 0x1000 0x1000 0 (simInfo false)) Out.done
            (Out.gap 12 'K' (Out.row (mk_row false 0 0x5000 0x1000 0 (simInfo false)) Out.done
              Out.done)), ())
      ∧ Line.row (mk_row false 0 0x5000 0x1000 0 (simInfo false))
          ∈ (Out.row (mk_row false 0 0x1000 0x1000 0 (simInfo false)) Out.done
            (Out.gap 12 'K' (Out.row (mk_row false 0 0x5000 0x1000 0 (simInfo false)) Out.done
              Out.done))).own
      ∧ (mk_row false 0 0x5000 0x1000 0 (simInfo false)).addr < WORD - 1
      ∧ (mk_row false 0 0x5000 0x1000 0 (simInfo false)).level = 0 :=
  ⟨by decide, by simp [Out.own],
    print_range_rows_start_below_max twoRegions.oracle 0x103 false true 3 0 (WORD - 1) 0 0 ()
      (Out.row (mk_row false 0 0x1000 0x1000 0 (simInfo false)) Out.done
        (Out.gap 12 'K' (Out.row (mk_row false 0 0x5000 0x1000 0 (simInfo false)) Out.done
          Out.done))) () (by decide)
      (mk_row false 0 0x5000 0x1000 0 (simInfo false)) (by simp [Out.own])⟩

/-- C16 as stated fails: the walk `print_range(0, 0, 0x2000)` over the region
`[0x1000, 0x3000)` prints its row with the end `0x3000`, above `max`. -/
theorem print_range_end_above_max :
    print_range (Forest.leaf 0x1000 0x2000 Forest.nil).oracle 0x103 false false 2 0 0 0x2000 ()
        = some (Out.row (mk_row false 0 0x1000 0x2000 0 (simInfo false)) Out.done Out.done, ())
      ∧ (mk_row false 0 0x1000 0x2000 0 (simInfo false)).stop = 0x3000
      ∧ ¬ (mk_row false 0 0x1000 0x2000 0 (simInfo false)).stop ≤ 0x2000 := by
  decide

/-! ## Pattern search without a capability -/

/-- C18, the code at a failing input: acquisition is denied, `kernel_read`
returns `(vm_size_t)-1`, which line 184 takes for true, and `kernel_find`
searches the block `malloc` gave it: with the bytes `DE AD` left at offsets 1
and 2 it returns `0x1001`. -/
theorem kernel_find_without_capability :
    (get_kernel_task denyMach (freshWorld fun _ => 0)).1 = (KERN_FAILURE, MACH_PORT_NULL)
      ∧ (kernel_read denyMach 1 0x1000 4 staleSmall (freshWorld fun _ => 0)).map Xfer.ret
          = some SIZE_ERROR
      ∧ (kernel_find denyMach 1 0x1000 4 [0xDE, 0xAD] (some staleSmall)
          (freshWorld fun _ => 0)).map Prod.fst = some 0x1001 := by
  decide

/-! ## Chunked transport: write, then read -/

theorem kernel_write_loop_store (M : Mach (Nat → Nat)) (task a N : Nat) (buf : Nat → Nat)
    (hL : a + N < WORD) (hw : StoreWrite M) :
    ∀ fuel cnt (w : World (Nat → Nat)), cnt ≤ N → N - cnt < fuel →
      ∃ y, kernel_write_loop M task (a + N) buf fuel (a + cnt) (N - cnt) cnt w = some y
        ∧ y.1 = N ∧ y.2.init = w.init ∧ y.2.tfp0 = w.tfp0
        ∧ ∀ x, y.2.env x = if a + cnt ≤ x ∧ x < a + N then buf (x - a) else w.env x := by
  have hW : WORD = 2 ^ 64 := rfl
  intro fuel
  induction fuel with
  | zero => intro cnt w _ h; omega
  | succ fuel ih =>
    intro cnt w hc hf
    by_cases hlt : cnt < N
    · have hrep := hw w.env task (a + cnt) (loadBytes buf cnt (chunk_size (N - cnt)))
      have hk : (M.vm_write w.env task (a + cnt) (loadBytes buf cnt (chunk_size (N - cnt)))).1
          = KERN_SUCCESS := by rw [hrep]
      have hsz := chunk_size_eq (N - cnt)
      rw [kernel_write_loop_go M task (a + N) buf fuel (a + cnt) (N - cnt) cnt w (by omega) hk,
        hrep]
      have e1 : (a + cnt + chunk_size (N - cnt)) % WORD = a + (cnt + chunk_size (N - cnt)) := by
        rw [hW] at hL ⊢; omega
      have e2 : (N - cnt + WORD - chunk_size (N - cnt)) % WORD
          = N - (cnt + chunk_size (N - cnt)) := by
        rw [hW] at hL ⊢; omega
      have e3 : (cnt + chunk_size (N - cnt)) % WORD = cnt + chunk_size (N - cnt) := by
        rw [hW] at hL ⊢; omega
      rw [e1, e2, e3]
      obtain ⟨y, hy, hret, hi, ht, henv⟩ := ih (cnt + chunk_size (N - cnt))
        ⟨storeBytes w.env (a + cnt) (loadBytes buf cnt (chunk_size (N - cnt))), w.init, w.tfp0,
          w.trace ++ [⟨Call.vm_write, a + cnt, chunk_size (N - cnt), cnt, KERN_SUCCESS,
            chunk_size (N - cnt)⟩]⟩ (by omega) (by omega)
      refine ⟨y, hy, hret, hi, ht, ?_⟩
      intro x
      rw [henv x]
      simp only []
      by_cases h1 : a + (cnt + chunk_size (N - cnt)) ≤ x ∧ x < a + N
      · rw [if_pos h1, if_pos (by omega)]
      · rw [if_neg h1]
        unfold storeBytes
        rw [loadBytes_length]
        by_cases h2 : a + cnt ≤ x ∧ x < a + cnt + chunk_size (N - cnt)
        · rw [if_pos h2, if_pos (by omega), loadBytes_getD _ _ _ _ (by omega)]
          congr 1
          omega
        · rw [if_neg h2, if_neg (by omega)]
    · rw [kernel_write_loop_stop M task (a + N) buf fuel (a + cnt) (N - cnt) cnt w (by omega)]
      refine ⟨_, rfl, by simp only []; omega, rfl, rfl, ?_⟩
      intro x
      simp only []
      rw [if_neg (by omega)]

theorem kernel_read_loop_load (M : Mach (Nat → Nat)) (task a N : Nat)
    (hL : a + N < WORD) (hr : LoadRead M) :
    ∀ fuel cnt buf (w : World (Nat → Nat)), cnt ≤ N → N - cnt < fuel →
      (∀ j, j < cnt → buf j = w.env (a + j)) →
      ∃ x, kernel_read_loop M task (a + N) fuel (a + cnt) (N - cnt) cnt buf w = some x
        ∧ x.ret = N ∧ x.world.env = w.env ∧ ∀ j, j < N → x.buf j = w.env (a + j) := by
  have hW : WORD = 2 ^ 64 := rfl
  intro fuel
  induction fuel with
  | zero => intro cnt buf w _ h; omega
  | succ fuel ih =>
    intro cnt buf w hc hf hbuf
    by_cases hlt : cnt < N
    · have hrep := hr w.env task (a + cnt) (chunk_size (N - cnt))
      have hk : (M.vm_read_overwrite w.env task (a + cnt) (chunk_size (N - cnt))).1.1
          = KERN_SUCCESS := by rw [hrep]
      have hsz := chunk_size_eq (N - cnt)
      have hout : (M.vm_read_overwrite w.env task (a + cnt) (chunk_size (N - cnt))).1.2.length
          % WORD = chunk_size (N - cnt) := by
        rw [hrep]
        simp only [loadBytes_length]
        rw [hW]; omega
      rw [kernel_read_loop_go M task (a + N) fuel (a + cnt) (N - cnt) cnt buf w (by omega) hk
        (by rw [hout]; omega), hout, hrep]
      have e1 : (a + cnt + chunk_size (N - cnt)) % WORD = a + (cnt + chunk_size (N - cnt)) := by
        rw [hW] at hL ⊢; omega
      have e2 : (N - cnt + WORD - chunk_size (N - cnt)) % WORD
          = N - (cnt + chunk_size (N - cnt)) := by
        rw [hW] at hL ⊢; omega
      have e3 : (cnt + chunk_size (N - cnt)) % WORD = cnt + chunk_size (N - cnt) := by
        rw [hW] at hL ⊢; omega
      rw [e1, e2, e3]
      apply ih (cnt + chunk_size (N - cnt)) _ _ (by omega) (by omega)
      intro j hj
      simp only []
      unfold storeBytes
      rw [loadBytes_length]
      by_cases hin : cnt ≤ j
      · rw [if_pos (by omega), loadBytes_getD _ _ _ _ (by omega)]
        have hidx : a + cnt + (j - cnt) = a + j := by omega
        rw [hidx]
      · rw [if_neg (by omega)]
        exact hbuf j (by omega)
    · rw [kernel_read_loop_stop M task (a + N) fuel (a + cnt) (N - cnt) cnt buf w (by omega)]
      refine ⟨_, rfl, by simp only []; omega, rfl, ?_⟩
      intro j hj
      exact hbuf j (by omega)

theorem get_kernel_task_cached {σ : Type} (M : Mach σ) (w w' : World σ)
    (hi : w'.init = (get_kernel_task M w).2.init)
    (ht : w'.tfp0 = (get_kernel_task M w).2.tfp0) :
    get_kernel_task M w' = ((get_kernel_task M w).1, w') := by
  have hinit : w'.init = true := by
    rw [hi, get_kernel_task_eq]; exact settled_init M w
  rw [get_kernel_task_eq M w', settled_of_init M w' hinit, ht, get_kernel_task_eq M w]

/-- C14: over a simulated memory (the oracle state is the memory, writes store
and reads load), with a valid capability and `a + N` not wrapping,
`kernel_write(a, N, buf)` returns `N`, a `kernel_read(a, N)` right after it
returns `N` and leaves `buf` in the first `N` bytes of its buffer, whatever
that buffer held, and every byte of the memory outside `[a, a + N)` is, after
the write and after the read, what it was when the write began. -/
theorem write_read_round_trip (M : Mach (Nat → Nat)) (w : World (Nat → Nat))
    (fuel a N : Nat) (buf rbuf : Nat → Nat)
    (hcap : (get_kernel_task M w).1.1 = KERN_SUCCESS) (hL : a + N < WORD)
    (hw : StoreWrite M) (hr : LoadRead M) (hf : N < fuel) :
    ∃ y x, kernel_write M fuel a N buf w = some y ∧ y.1 = N
      ∧ kernel_read M fuel a N rbuf y.2 = some x ∧ x.ret = N
      ∧ (∀ j, j < N → x.buf j = buf j)
      ∧ (∀ j, j < N → x.world.env (a + j) = buf j)
      ∧ (∀ addr, ¬ (a ≤ addr ∧ addr < a + N) →
          y.2.env addr = (get_kernel_task M w).2.env addr
          ∧ x.world.env addr = (get_kernel_task M w).2.env addr) := by
  have hlim : (a + N) % WORD = a + N := Nat.mod_eq_of_lt hL
  obtain ⟨y, hy, hyret, hyi, hyt, hyenv⟩ := kernel_write_loop_store M (get_kernel_task M w).1.2
    a N buf hL hw fuel 0 (get_kernel_task M w).2 (Nat.zero_le _) (by omega)
  have hwrite : kernel_write M fuel a N buf w = some y := by
    rw [kernel_write_of_valid M fuel a N buf w hcap, hlim]
    simpa using hy
  have hcached := get_kernel_task_cached M w y.2 hyi hyt
  have hcap2 : (get_kernel_task M y.2).1.1 = KERN_SUCCESS := by rw [hcached]; exact hcap
  obtain ⟨x, hx, hxret, hxenv, hxbuf⟩ := kernel_read_loop_load M (get_kernel_task M y.2).1.2
    a N hL hr fuel 0 rbuf (get_kernel_task M y.2).2 (Nat.zero_le _) (by omega)
    (fun j hj => absurd hj (Nat.not_lt_zero j))
  have hread : kernel_read M fuel a N rbuf y.2 = some x := by
    rw [kernel_read_of_valid M fuel a N rbuf y.2 hcap2, hlim]
    simpa using hx
  have hw2 : (get_kernel_task M y.2).2 = y.2 := by rw [hcached]
  rw [hw2] at hxenv hxbuf
  have hmem : ∀ j, j < N → y.2.env (a + j) = buf j := by
    intro j hj
    rw [hyenv (a + j), if_pos (by omega)]
    congr 1
    omega
  refine ⟨y, x, hwrite, hyret, hread, hxret, ?_, ?_, ?_⟩
  · intro j hj
    rw [hxbuf j hj, hmem j hj]
  · intro j hj
    rw [hxenv, hmem j hj]
  · intro addr hout
    have h1 : y.2.env addr = (get_kernel_task M w).2.env addr := by
      rw [hyenv addr, if_neg (by omega)]
    exact ⟨h1, by rw [hxenv, h1]⟩

theorem grantMach_store (slide : Nat) : StoreWrite (grantMach slide) :=
  fun _ _ _ _ => rfl

theorem grantMach_load (slide : Nat) : LoadRead (grantMach slide) :=
  fun _ _ _ _ => rfl

/-- Witness of C14: 5000 bytes written at `0x1000` and read back. -/
theorem write_read_round_trip_witness :
    ∃ y x, kernel_write (grantMach 0) 5001 0x1000 5000 (fun j => j % 256)
          (freshWorld fun _ => 0) = some y ∧ y.1 = 5000
      ∧ kernel_read (grantMach 0) 5001 0x1000 5000 (fun _ => 0) y.2 = some x ∧ x.ret = 5000
      ∧ (∀ j, j < 5000 → x.buf j = (fun j => j % 256) j)
      ∧ (∀ j, j < 5000 → x.world.env (0x1000 + j) = (fun j => j % 256) j)
      ∧ (∀ addr, ¬ (0x1000 ≤ addr ∧ addr < 0x1000 + 5000) →
          y.2.env addr = (get_kernel_task (grantMach 0) (freshWorld fun _ => 0)).2.env addr
          ∧ x.world.env addr
            = (get_kernel_task (grantMach 0) (freshWorld fun _ => 0)).2.env addr) :=
  write_read_round_trip (grantMach 0) (freshWorld fun _ => 0) 5001 0x1000 5000
    (fun j => j % 256) (fun _ => 0) rfl (by decide) (grantMach_store 0) (grantMach_load 0)
    (by decide)

/-! ## Base locator: the scan bound -/

theorem get_kernel_base_scan {σ : Type} (M : Mach σ) (fuel : Nat) (rt0 mh0 : Nat → Nat)
    (w : World σ) (hcap : (get_kernel_task M w).1.1 = KERN_SUCCESS) (hno : no_hint M w) :
    get_kernel_base M fuel rt0 mh0 w
      = region_scan M fuel (get_kernel_task M w).1.2 rt0 mh0 fuel 0 (scan_start M w) := by
  unfold get_kernel_base
  have hb : ((M.task_info (get_kernel_task M w).2.env (get_kernel_task M w).1.2).1.1
      == KERN_SUCCESS
      && (M.task_info (get_kernel_task M w).2.env (get_kernel_task M w).1.2).1.2 != 0)
      = false := by
    unfold no_hint at hno
    by_cases h1 : (M.task_info (get_kernel_task M w).2.env (get_kernel_task M w).1.2).1.1
        = KERN_SUCCESS
    · have h2 : (M.task_info (get_kernel_task M w).2.env (get_kernel_task M w).1.2).1.2 = 0 := by
        by_contra h; exact hno ⟨h1, h⟩
      simp [h2]
    · simp [h1]
  simp only [hcap, bne_self_eq_false, Bool.false_eq_true, if_false, hb]
  rfl

theorem region_scan_skip {σ : Type} (M : Mach σ) (rfuel task : Nat) (rt0 mh0 : Nat → Nat) :
    ∀ (k f addr : Nat) (w : World σ) (a' : Nat) (w' : World σ),
      skip_regions M task k addr w = some (a', w') →
      region_scan M rfuel task rt0 mh0 (k + f) addr w
        = region_scan M rfuel task rt0 mh0 f a' w' := by
  intro k
  induction k with
  | zero =>
    intro f addr w a' w' h
    simp only [skip_regions, Option.some.injEq, Prod.mk.injEq] at h
    rw [Nat.zero_add, h.1, h.2]
  | succ k ih =>
    intro f addr w a' w' h
    rw [skip_regions] at h
    have hsucc : k + 1 + f = (k + f) + 1 := by omega
    rw [hsucc, region_scan]
    by_cases hk : ((M.mach_vm_region w.env task addr).1.kr != KERN_SUCCESS) = true
    · rw [if_pos hk] at h
      simp at h
    · rw [if_neg hk] at h
      by_cases hc : ((M.mach_vm_region w.env task addr).1.user_tag == VM_KERN_MEMORY_CPU
          && (M.mach_vm_region w.env task addr).1.protection == VM_PROT_DEFAULT) = true
      · rw [if_pos hc] at h
        simp at h
      · rw [if_neg hc] at h
        simp only [hk, hc, if_false, Bool.false_eq_true]
        exact ih f _ _ a' w' h

theorem region_scan_cpu {σ : Type} (M : Mach σ) (rfuel task : Nat) (rt0 mh0 : Nat → Nat)
    (f addr : Nat) (w : World σ) (x : Xfer σ) (hcpu : cpu_region_at M task addr w)
    (hread : kernel_read M rfuel
      (((M.mach_vm_region w.env task addr).1.addr + M.CPU_DATA_RTCLOCK_DATAP_OFF) % WORD) 8 rt0
      (after_region M task addr w) = some x) :
    region_scan M rfuel task rt0 mh0 (f + 1) addr w
      = if x.ret != KERN_SUCCESS then some (0, x.world)
        else walk_back M rfuel rfuel (trunc_page_kernel M (leValue x.buf 0 8)) mh0 x.world := by
  obtain ⟨hk, htag, hprot⟩ := hcpu
  unfold after_region at hread
  rw [hk] at hread
  rw [region_scan]
  simp only [hk, htag, hprot, bne_self_eq_false, Bool.false_eq_true, if_false, beq_self_eq_true,
    Bool.and_self, if_true, hread]

theorem walk_back_at_bound {σ : Type} (M : Mach σ) (rfuel fuel p : Nat) (mh : Nat → Nat)
    (w : World σ) (hp : p ≤ VM_KERNEL_LINK_ADDRESS) :
    walk_back M rfuel (fuel + 1) p mh w = some (0, w) := by
  rw [walk_back]
  simp only [hp, if_true]

/-- C15: in the scan of `get_kernel_base` (valid capability, no direct hint),
when after `k` other regions the query finds a CPU data region with default
protection and the read of the candidate pointer returns leaving in
`rtclock_datap` a value that, truncated to the page boundary, is at or below
`VM_KERNEL_LINK_ADDRESS`, `get_kernel_base` returns 0 in the world the read of
the candidate pointer left: nothing is read, and no other call is made, after
it. -/
theorem get_kernel_base_scan_bound {σ : Type} (M : Mach σ) (fuel k : Nat)
    (rt0 mh0 : Nat → Nat) (w : World σ) (a' : Nat) (w' : World σ) (x : Xfer σ)
    (hcap : (get_kernel_task M w).1.1 = KERN_SUCCESS) (hno : no_hint M w)
    (hskip : skip_regions M (get_kernel_task M w).1.2 k 0 (scan_start M w) = some (a', w'))
    (hcpu : cpu_region_at M (get_kernel_task M w).1.2 a' w')
    (hread : kernel_read M fuel
      (((M.mach_vm_region w'.env (get_kernel_task M w).1.2 a').1.addr
        + M.CPU_DATA_RTCLOCK_DATAP_OFF) % WORD) 8 rt0
      (after_region M (get_kernel_task M w).1.2 a' w') = some x)
    (hp : trunc_page_kernel M (leValue x.buf 0 8) ≤ VM_KERNEL_LINK_ADDRESS)
    (hf : k < fuel) :
    get_kernel_base M fuel rt0 mh0 w = some (0, x.world) := by
  obtain ⟨f, rfl⟩ : ∃ f, fuel = k + (f + 1) := ⟨fuel - k - 1, by omega⟩
  rw [get_kernel_base_scan M _ rt0 mh0 w hcap hno,
    region_scan_skip M _ _ rt0 mh0 k (f + 1) 0 _ a' w' hskip,
    region_scan_cpu M _ _ rt0 mh0 f a' w' x hcpu hread]
  split
  · rfl
  · have hfuel : k + (f + 1) = (k + f) + 1 := by omega
    rw [hfuel]
    exact walk_back_at_bound M _ (k + f) _ mh0 x.world hp

/-- Witness of C15: the CPU data region is the first region and the field at
`0x198` holds the null pointer. -/
theorem get_kernel_base_scan_bound_witness :
    (get_kernel_base (scanMach fun _ => false) 4 (fun _ => 0) (fun _ => 0)
      (freshWorld fun _ => 0)).map Prod.fst = some 0 := by
  have h := get_kernel_base_scan_bound (scanMach fun _ => false) 4 0 (fun _ => 0) (fun _ => 0)
    (freshWorld fun _ => 0) 0 (scan_start (scanMach fun _ => false) (freshWorld fun _ => 0))
    ((kernel_read (scanMach fun _ => false) 4 0xFFFFFFE000A00198 8 (fun _ => 0)
      (after_region (scanMach fun _ => false) 0x103 0
        (scan_start (scanMach fun _ => false) (freshWorld fun _ => 0)))).get rfl)
    rfl (fun hh => hh.2 rfl) rfl ⟨rfl, rfl, rfl⟩ (Option.some_get _).symm (by decide)
    (by decide)
  rw [h]
  rfl

/-! ## Base locator: the walk stays above the link address -/

theorem kernel_read_loop_addresses {σ : Type} (M : Mach σ) (task lim a : Nat) :
    ∀ (fuel addr remainder br : Nat) (buf : Nat → Nat) (w : World σ) (x : Xfer σ),
      addr = (a + br) % WORD →
      kernel_read_loop M task lim fuel addr remainder br buf w = some x →
      ∃ evs, x.world.trace = w.trace ++ evs ∧ ∀ e ∈ evs, e.addr = (a + e.off) % WORD := by
  have hW : WORD = 2 ^ 64 := rfl
  intro fuel
  induction fuel with
  | zero =>
    intro addr remainder br buf w x _ h
    simp [kernel_read_loop] at h
  | succ fuel ih =>
    intro addr remainder br buf w x hinv h
    by_cases hlt : addr < lim
    · by_cases hfail :
          (M.vm_read_overwrite w.env task addr (chunk_size remainder)).1.1 ≠ KERN_SUCCESS
          ∨ (M.vm_read_overwrite w.env task addr (chunk_size remainder)).1.2.length % WORD = 0
      · rw [kernel_read_loop_fail M task lim fuel addr remainder br buf w hlt hfail] at h
        simp only [Option.some.injEq] at h
        subst h
        refine ⟨[_], rfl, ?_⟩
        intro e he
        rw [List.mem_singleton.mp he]
        exact hinv
      · have hk : (M.vm_read_overwrite w.env task addr (chunk_size remainder)).1.1
            = KERN_SUCCESS := by
          by_contra hh; exact hfail (Or.inl hh)
        have hn : (M.vm_read_overwrite w.env task addr (chunk_size remainder)).1.2.length
            % WORD ≠ 0 := fun hh => hfail (Or.inr hh)
        rw [kernel_read_loop_go M task lim fuel addr remainder br buf w hlt hk hn] at h
        obtain ⟨evs, ht, hevs⟩ := ih _ _ _ _ _ x (by rw [hinv, hW]; omega) h
        refine ⟨⟨Call.vm_read_overwrite, addr, chunk_size remainder, br,
          (M.vm_read_overwrite w.env task addr (chunk_size remainder)).1.1,
          (M.vm_read_overwrite w.env task addr (chunk_size remainder)).1.2.length % WORD⟩ :: evs,
          by rw [ht]; simp, ?_⟩
        intro e he
        rcases List.mem_cons.mp he with rfl | he
        · exact hinv
        · exact hevs e he
    · rw [kernel_read_loop_stop M task lim fuel addr remainder br buf w hlt] at h
      simp only [Option.some.injEq] at h
      subst h
      exact ⟨[], by simp, by simp⟩

theorem isAcquire_ne_read (c : Call) (h : c.isAcquire = true) : c ≠ Call.vm_read_overwrite := by
  intro hc
  rw [hc] at h
  exact absurd h (by decide)

theorem kernel_read_addresses {σ : Type} (M : Mach σ) (fuel a size : Nat) (buf : Nat → Nat)
    (w : World σ) (x : Xfer σ) (ha : a < WORD)
    (h : kernel_read M fuel a size buf w = some x) :
    ∃ evs, x.world.trace = w.trace ++ evs
      ∧ ∀ e ∈ evs, e.call = Call.vm_read_overwrite → e.addr = (a + e.off) % WORD := by
  obtain ⟨l, hl, hacq⟩ := get_kernel_task_trace M w
  by_cases hcap : (get_kernel_task M w).1.1 = KERN_SUCCESS
  · rw [kernel_read_of_valid M fuel a size buf w hcap] at h
    obtain ⟨evs, ht, hevs⟩ := kernel_read_loop_addresses M _ _ a fuel a size 0 buf _ x
      (by rw [Nat.add_zero, Nat.mod_eq_of_lt ha]) h
    refine ⟨l ++ evs, by rw [ht, hl, List.append_assoc], ?_⟩
    intro e he hc
    rcases List.mem_append.mp he with h1 | h1
    · exact absurd hc (isAcquire_ne_read _ (hacq e h1))
    · exact hevs e h1
  · rw [kernel_read_of_absent M fuel a size buf w hcap] at h
    simp only [Option.some.injEq] at h
    subst h
    refine ⟨l, hl, ?_⟩
    intro e he hc
    exact absurd hc (isAcquire_ne_read _ (hacq e he))

theorem walk_back_cases {σ : Type} (M : Mach σ) (rfuel fuel c : Nat) (mh : Nat → Nat)
    (w : World σ) (r : Nat) (w' : World σ)
    (h : walk_back M rfuel (fuel + 1) c mh w = some (r, w')) :
    (c ≤ VM_KERNEL_LINK_ADDRESS ∧ r = 0 ∧ w' = w)
      ∨ (VM_KERNEL_LINK_ADDRESS < c
        ∧ ∃ x, kernel_read M rfuel ((c + WORD - M.vm_kernel_page_size % WORD) % WORD) 32 mh w
            = some x
          ∧ ((x.ret ≠ 0 ∧ r = 0 ∧ w' = x.world)
            ∨ (x.ret = 0 ∧ header_mismatch x.buf = true
              ∧ walk_back M rfuel fuel ((c + WORD - M.vm_kernel_page_size % WORD) % WORD) x.buf
                  x.world = some (r, w'))
            ∨ (x.ret = 0 ∧ header_mismatch x.buf = false
              ∧ r = (c + WORD - M.vm_kernel_page_size % WORD) % WORD ∧ w' = x.world))) := by
  rw [walk_back] at h
  by_cases hc : c ≤ VM_KERNEL_LINK_ADDRESS
  · left
    simp only [hc, if_true, Option.some.injEq, Prod.mk.injEq] at h
    exact ⟨hc, h.1.symm, h.2.symm⟩
  · right
    simp only [hc, if_false] at h
    refine ⟨by omega, ?_⟩
    split at h
    · simp at h
    · rename_i x hx
      refine ⟨x, hx, ?_⟩
      by_cases hret : x.ret = 0
      · have hb : (x.ret != KERN_SUCCESS) = false := by simp [hret, KERN_SUCCESS]
        simp only [hb, Bool.false_eq_true, if_false] at h
        by_cases hm : header_mismatch x.buf = true
        · simp only [hm, if_true] at h
          exact Or.inr (Or.inl ⟨hret, hm, h⟩)
        · have hmf : header_mismatch x.buf = false := by simpa using hm
          simp only [hmf, Bool.false_eq_true, if_false, Option.some.injEq, Prod.mk.injEq] at h
          exact Or.inr (Or.inr ⟨hret, hmf, h.1.symm, h.2.symm⟩)
      · have hb : (x.ret != KERN_SUCCESS) = true := by simpa [KERN_SUCCESS] using hret
        simp only [hb, if_true, Option.some.injEq, Prod.mk.injEq] at h
        exact Or.inl ⟨hret, h.1.symm, h.2.symm⟩

theorem page_step_down (P c : Nat) (hP : 0 < P) (hPW : P < WORD)
    (hdiv : P ∣ VM_KERNEL_LINK_ADDRESS) (hc : c % P = 0) (hcW : c < WORD)
    (hlt : VM_KERNEL_LINK_ADDRESS < c) :
    (c + WORD - P % WORD) % WORD = c - P
      ∧ (c - P) % P = 0 ∧ VM_KERNEL_LINK_ADDRESS ≤ c - P ∧ c - P < WORD := by
  have hcd : P ∣ c := Nat.dvd_of_mod_eq_zero hc
  have hsub : P ∣ c - VM_KERNEL_LINK_ADDRESS := Nat.dvd_sub' hcd hdiv
  have hle : P ≤ c - VM_KERNEL_LINK_ADDRESS := Nat.le_of_dvd (by omega) hsub
  have hcp : P ∣ c - P := Nat.dvd_sub' hcd (Nat.dvd_refl P)
  have hW : WORD = 2 ^ 64 := rfl
  refine ⟨?_, Nat.mod_eq_zero_of_dvd hcp, by omega, by omega⟩
  rw [Nat.mod_eq_of_lt hPW]
  rw [hW] at hcW hPW ⊢
  omega

theorem walk_back_safe {σ : Type} (M : Mach σ) (rfuel : Nat)
    (hP : 0 < M.vm_kernel_page_size) (hPW : M.vm_kernel_page_size < WORD)
    (hdiv : M.vm_kernel_page_size ∣ VM_KERNEL_LINK_ADDRESS) :
    ∀ (fuel c : Nat) (mh : Nat → Nat) (w : World σ) (r : Nat) (w' : World σ),
      c % M.vm_kernel_page_size = 0 → c < WORD →
      walk_back M rfuel fuel c mh w = some (r, w') →
      (∃ evs, w'.trace = w.trace ++ evs
          ∧ ∀ e ∈ evs, e.call = Call.vm_read_overwrite → HeaderReadAt M e)
        ∧ (r ≠ 0 → AlignedAbove M r) := by
  intro fuel
  induction fuel with
  | zero =>
    intro c mh w r w' _ _ h
    simp [walk_back] at h
  | succ fuel ih =>
    intro c mh w r w' hc hcW h
    rcases walk_back_cases M rfuel fuel c mh w r w' h with
      ⟨_, hr, hw⟩ | ⟨hlt, x, hx, hcase⟩
    · subst hr; subst hw
      exact ⟨⟨[], by simp, by simp⟩, fun hh => absurd rfl hh⟩
    · obtain ⟨hstep, hal, hge, hltW⟩ := page_step_down M.vm_kernel_page_size c hP hPW hdiv hc hcW
        hlt
      rw [hstep] at hx hcase
      obtain ⟨evs, ht, hevs⟩ := kernel_read_addresses M rfuel _ 32 mh w x hltW hx
      have hhead : ∀ e ∈ evs, e.call = Call.vm_read_overwrite → HeaderReadAt M e :=
        fun e he hcall => ⟨c - M.vm_kernel_page_size, ⟨hal, hge, hltW⟩, hevs e he hcall⟩
      rcases hcase with ⟨_, hr, hw⟩ | ⟨_, _, hrec⟩ | ⟨_, _, hr, hw⟩
      · subst hr; subst hw
        exact ⟨⟨evs, ht, hhead⟩, fun hh => absurd rfl hh⟩
      · obtain ⟨⟨evs2, ht2, hevs2⟩, hret⟩ := ih _ x.buf x.world r w' hal hltW hrec
        refine ⟨⟨evs ++ evs2, by rw [ht2, ht, List.append_assoc], ?_⟩, hret⟩
        intro e he hcall
        rcases List.mem_append.mp he with h1 | h1
        · exact hhead e h1 hcall
        · exact hevs2 e h1 hcall
      · subst hr; subst hw
        exact ⟨⟨evs, ht, hhead⟩, fun _ => ⟨hal, hge, hltW⟩⟩

theorem page_exponent_le (k : Nat) (h : 2 ^ k ∣ VM_KERNEL_LINK_ADDRESS) : k ≤ 14 := by
  by_contra hk
  have h15 : 2 ^ 15 ∣ 2 ^ k := Nat.pow_dvd_pow 2 (by omega)
  have := Nat.dvd_trans h15 h
  revert this
  decide

theorem land_mask_aligned (x k : Nat) (hk : k ≤ 64) :
    (Nat.land x (Nat.xor (2 ^ 64 - 1) ((2 ^ k - 1) % 2 ^ 64))) % 2 ^ k = 0 := by
  have hlt : 2 ^ k - 1 < 2 ^ 64 := by
    have h1 : 2 ^ k ≤ 2 ^ 64 := Nat.pow_le_pow_right (by decide) hk
    have h2 : 0 < 2 ^ k := Nat.two_pow_pos k
    omega
  rw [Nat.mod_eq_of_lt hlt]
  show (x &&& ((2 ^ 64 - 1) ^^^ (2 ^ k - 1))) % 2 ^ k = 0
  apply Nat.eq_of_testBit_eq
  intro i
  rw [Nat.testBit_mod_two_pow, Nat.testBit_and, Nat.testBit_xor, Nat.testBit_two_pow_sub_one,
    Nat.testBit_two_pow_sub_one, Nat.zero_testBit]
  by_cases hi : i < k
  · have h64 : i < 64 := by omega
    simp [hi, h64]
  · simp [hi]

theorem land_mask_lt (x m : Nat) : Nat.land x (Nat.xor (2 ^ 64 - 1) (m % 2 ^ 64)) < 2 ^ 64 := by
  have h1 : x &&& ((2 ^ 64 - 1) ^^^ (m % 2 ^ 64)) ≤ (2 ^ 64 - 1) ^^^ (m % 2 ^ 64) :=
    Nat.and_le_right
  have h2 : (2 ^ 64 - 1) ^^^ (m % 2 ^ 64) < 2 ^ 64 :=
    Nat.xor_lt_two_pow (by decide) (Nat.mod_lt _ (by decide))
  show x &&& ((2 ^ 64 - 1) ^^^ (m % 2 ^ 64)) < 2 ^ 64
  omega

theorem trunc_page_kernel_aligned {σ : Type} (M : Mach σ) (k p : Nat)
    (hpow : M.vm_kernel_page_size = 2 ^ k) (hdiv : M.vm_kernel_page_size ∣ VM_KERNEL_LINK_ADDRESS)
    (hmask : M.vm_kernel_page_mask = M.vm_kernel_page_size - 1) :
    trunc_page_kernel M p % M.vm_kernel_page_size = 0 ∧ trunc_page_kernel M p < WORD := by
  have hk : k ≤ 14 := page_exponent_le k (hpow ▸ hdiv)
  unfold trunc_page_kernel
  rw [hmask, hpow]
  exact ⟨land_mask_aligned p k (by omega), land_mask_lt p _⟩

theorem region_scan_return {σ : Type} (M : Mach σ) (rfuel task : Nat) (rt0 mh0 : Nat → Nat)
    (k : Nat) (hpow : M.vm_kernel_page_size = 2 ^ k)
    (hdiv : M.vm_kernel_page_size ∣ VM_KERNEL_LINK_ADDRESS)
    (hmask : M.vm_kernel_page_mask = M.vm_kernel_page_size - 1) :
    ∀ (fuel addr : Nat) (w : World σ) (r : Nat) (w' : World σ),
      region_scan M rfuel task rt0 mh0 fuel addr w = some (r, w') → r ≠ 0 →
      AlignedAbove M r := by
  have hk : k ≤ 14 := page_exponent_le k (hpow ▸ hdiv)
  have hP : 0 < M.vm_kernel_page_size := by rw [hpow]; exact Nat.two_pow_pos k
  have hPW : M.vm_kernel_page_size < WORD := by
    rw [hpow]
    exact Nat.pow_lt_pow_right (by decide) (by omega)
  intro fuel
  induction fuel with
  | zero =>
    intro addr w r w' h
    simp [region_scan] at h
  | succ fuel ih =>
    intro addr w r w' h hr
    rw [region_scan] at h
    split at h
    · simp only [Option.some.injEq, Prod.mk.injEq] at h
      exact absurd h.1.symm hr
    · split at h
      · split at h
        · simp at h
        · rename_i x hx
          split at h
          · simp only [Option.some.injEq, Prod.mk.injEq] at h
            exact absurd h.1.symm hr
          · obtain ⟨hal, hlt⟩ := trunc_page_kernel_aligned M k (leValue x.buf 0 8) hpow hdiv hmask
            exact (walk_back_safe M rfuel hP hPW hdiv rfuel _ mh0 x.world r w' hal hlt h).2 hr
      · exact ih _ _ r w' h hr

/-- C19: when the kernel page size is a power of two that divides
`VM_KERNEL_LINK_ADDRESS` (and the page mask is the page size minus one), then
for every candidate pointer `p` each transport call logged by the backward walk
from `trunc_page(p)` belongs to a header read made at a page-aligned address at
or above `VM_KERNEL_LINK_ADDRESS`, every non-zero value the walk returns is such
an address, and so is every non-zero value `get_kernel_base` returns from the
scan path. -/
theorem walk_never_below_link {σ : Type} (M : Mach σ) (k : Nat)
    (hpow : M.vm_kernel_page_size = 2 ^ k)
    (hdiv : M.vm_kernel_page_size ∣ VM_KERNEL_LINK_ADDRESS)
    (hmask : M.vm_kernel_page_mask = M.vm_kernel_page_size - 1) :
    (∀ (rfuel fuel p : Nat) (mh : Nat → Nat) (w : World σ) (r : Nat) (w' : World σ),
        walk_back M rfuel fuel (trunc_page_kernel M p) mh w = some (r, w') →
        (∃ evs, w'.trace = w.trace ++ evs
            ∧ ∀ e ∈ evs, e.call = Call.vm_read_overwrite → HeaderReadAt M e)
          ∧ (r ≠ 0 → AlignedAbove M r))
      ∧ (∀ (fuel : Nat) (rt0 mh0 : Nat → Nat) (w : World σ) (r : Nat) (w' : World σ),
          (get_kernel_task M w).1.1 = KERN_SUCCESS → no_hint M w →
          get_kernel_base M fuel rt0 mh0 w = some (r, w') → r ≠ 0 → AlignedAbove M r) := by
  have hk : k ≤ 14 := page_exponent_le k (hpow ▸ hdiv)
  have hP : 0 < M.vm_kernel_page_size := by rw [hpow]; exact Nat.two_pow_pos k
  have hPW : M.vm_kernel_page_size < WORD := by
    rw [hpow]
    exact Nat.pow_lt_pow_right (by decide) (by omega)
  constructor
  · intro rfuel fuel p mh w r w' h
    obtain ⟨hal, hlt⟩ := trunc_page_kernel_aligned M k p hpow hdiv hmask
    exact walk_back_safe M rfuel hP hPW hdiv fuel _ mh w r w' hal hlt h
  · intro fuel rt0 mh0 w r w' hcap hno h hr
    rw [get_kernel_base_scan M fuel rt0 mh0 w hcap hno] at h
    exact region_scan_return M fuel _ rt0 mh0 k hpow hdiv hmask fuel 0 _ r w' h hr

/-- Witness of C19: with 16 K pages, on the run in which every read fails and
the locals hold a stale pointer and a stale header, the address
`0xFFFFFFF007008000` that `get_kernel_base` returns is page-aligned and not
below the link address. -/
theorem walk_never_below_link_witness :
    AlignedAbove (scanMach fun _ => true) 0xFFFFFFF007008000 := by
  have hs : (get_kernel_base (scanMach fun _ => true) 4 staleDatap staleHeader
      (freshWorld kernelMem)).isSome = true := rfl
  have hx := (Option.some_get hs).symm
  have h1 : ((get_kernel_base (scanMach fun _ => true) 4 staleDatap staleHeader
      (freshWorld kernelMem)).get hs).1 = 0xFFFFFFF007008000 := rfl
  exact (walk_never_below_link (scanMach fun _ => true) 14 rfl (by decide) rfl).2 4 staleDatap
    staleHeader (freshWorld kernelMem) 0xFFFFFFF007008000
    ((get_kernel_base (scanMach fun _ => true) 4 staleDatap staleHeader
      (freshWorld kernelMem)).get hs).2
    rfl (fun hh => hh.2 rfl) (by rw [← h1]; exact hx) (by decide)

/-! ## Region walker: pre-order over a simulated tree -/

theorem print_range_loop_fail {σ : Type} (Q : RegionOracle σ) (task : Nat)
    (extended gaps : Bool) (fuel level max addr last : Nat) (st : σ)
    (hk : (Q st task addr level).1.kr ≠ KERN_SUCCESS) :
    print_range_loop Q task extended gaps (fuel + 1) level max addr last st
      = some (Out.done, (Q st task addr level).2) := by
  rw [print_range_loop]
  have hb : ((Q st task addr level).1.kr != KERN_SUCCESS) = true := by simpa using hk
  simp only [hb, if_true]

theorem print_range_loop_clamp {σ : Type} (Q : RegionOracle σ) (task : Nat)
    (extended gaps : Bool) (fuel level max addr last : Nat) (st : σ)
    (hk : (Q st task addr level).1.kr = KERN_SUCCESS)
    (hge : max ≤ (Q st task addr level).1.addr) :
    print_range_loop Q task extended gaps (fuel + 1) level max addr last st
      = some (with_gap (gap_entry gaps last max) Out.done, (Q st task addr level).2) := by
  rw [print_range_loop]
  have hge2 : (Q st task addr level).1.addr ≥ max := hge
  simp only [hk, bne_self_eq_false, Bool.false_eq_true, if_false, hge2, if_true, ge_iff_le,
    le_refl]

theorem print_range_loop_row {σ : Type} (Q : RegionOracle σ) (task : Nat)
    (extended gaps : Bool) (fuel level max addr last : Nat) (st : σ) (so no : Out × σ)
    (hk : (Q st task addr level).1.kr = KERN_SUCCESS)
    (hlt : (Q st task addr level).1.addr < max)
    (hsub : (if (Q st task addr level).1.info.is_submap != 0 then
        print_range_loop Q task extended gaps fuel ((level + 1) % UINT)
          (((Q st task addr level).1.addr + (Q st task addr level).1.size) % WORD)
          (Q st task addr level).1.addr (Q st task addr level).1.addr (Q st task addr level).2
      else some (Out.done, (Q st task addr level).2)) = some so)
    (hnext : print_range_loop Q task extended gaps fuel level max
        (((Q st task addr level).1.addr + (Q st task addr level).1.size) % WORD)
        (if gaps then ((Q st task addr level).1.addr + (Q st task addr level).1.size) % WORD
          else last) so.2 = some no) :
    print_range_loop Q task extended gaps (fuel + 1) level max addr last st
      = some (with_gap (gap_entry gaps last (Q st task addr level).1.addr)
          (Out.row (mk_row extended level (Q st task addr level).1.addr
            (Q st task addr level).1.size (Q st task addr level).1.depth
            (Q st task addr level).1.info) so.1 no.1), no.2) := by
  rw [print_range_loop]
  have hge : ¬ (Q st task addr level).1.addr ≥ max := by omega
  simp only [hk, bne_self_eq_false, Bool.false_eq_true, if_false, hge, hsub, hnext]

theorem rowsOf_append (l1 l2 : List Line) : rowsOf (l1 ++ l2) = rowsOf l1 ++ rowsOf l2 := by
  simp [rowsOf, List.filterMap_append]

theorem rowsOf_with_gap (g : Option (Nat × Char)) (t : Out) :
    rowsOf (with_gap g t).lines = rowsOf t.lines := by
  cases g with
  | none => rfl
  | some e => simp [with_gap, Out.lines, rowsOf]

theorem rowsOf_row (r : Row) (sub next : Out) :
    rowsOf (Out.row r sub next).lines
      = (r.level, r.addr, r.stop) :: (rowsOf sub.lines ++ rowsOf next.lines) := by
  simp [Out.lines, rowsOf, List.filterMap_append]

theorem Forest.lookup_leaf_in (a s : Nat) (rest : Forest) (c d cur : Nat) (h : c < a + s) :
    (Forest.leaf a s rest).lookup c d cur = some ⟨KERN_SUCCESS, a, s, cur, simInfo false⟩ := by
  simp [Forest.lookup, h]

theorem Forest.lookup_leaf_out (a s : Nat) (rest : Forest) (c d cur : Nat) (h : ¬ c < a + s) :
    (Forest.leaf a s rest).lookup c d cur = rest.lookup c d cur := by
  simp [Forest.lookup, h]

theorem Forest.lookup_submap_out (a s : Nat) (kids rest : Forest) (c d cur : Nat)
    (h : ¬ c < a + s) :
    (Forest.submap a s kids rest).lookup c d cur = rest.lookup c d cur := by
  cases d <;> simp [Forest.lookup, h]

theorem Forest.lookup_submap_zero (a s : Nat) (kids rest : Forest) (c cur : Nat)
    (h : c < a + s) :
    (Forest.submap a s kids rest).lookup c 0 cur
      = some ⟨KERN_SUCCESS, a, s, cur, simInfo true⟩ := by
  simp [Forest.lookup, h]

theorem Forest.lookup_submap_kid (a s : Nat) (kids rest : Forest) (c d cur : Nat)
    (r : RecurseReply) (h : c < a + s) (hk : kids.lookup c d (cur + 1) = some r) :
    (Forest.submap a s kids rest).lookup c (d + 1) cur = some r := by
  simp [Forest.lookup, h, hk]

theorem Forest.lookup_submap_past (a s : Nat) (kids rest : Forest) (c d cur : Nat)
    (h : c < a + s) (hk : kids.lookup c d (cur + 1) = none) :
    (Forest.submap a s kids rest).lookup c (d + 1) cur = rest.lookup c (d + 1) cur := by
  simp [Forest.lookup, h, hk]

theorem Forest.lookup_addr_ge :
    ∀ (g : Forest) (lo hi c d cur : Nat) (r : RecurseReply),
      g.WellFormed lo hi → g.lookup c d cur = some r → lo ≤ r.addr := by
  intro g
  induction g with
  | nil => intro lo hi c d cur r _ h; simp [Forest.lookup] at h
  | leaf a s rest ih =>
    intro lo hi c d cur r hwf h
    obtain ⟨h1, _, _, h4⟩ := hwf
    by_cases hc : c < a + s
    · rw [Forest.lookup_leaf_in a s rest c d cur hc] at h
      simp only [Option.some.injEq] at h
      rw [← h]; exact h1
    · rw [Forest.lookup_leaf_out a s rest c d cur hc] at h
      have := ih (a + s) hi c d cur r h4 h
      omega
  | submap a s kids rest ihk ihr =>
    intro lo hi c d cur r hwf h
    obtain ⟨h1, _, _, h4, h5⟩ := hwf
    by_cases hc : c < a + s
    · cases d with
      | zero =>
        rw [Forest.lookup_submap_zero a s kids rest c cur hc] at h
        simp only [Option.some.injEq] at h
        rw [← h]; exact h1
      | succ d =>
        cases hk : kids.lookup c d (cur + 1) with
        | some r' =>
          rw [Forest.lookup_submap_kid a s kids rest c d cur r' hc hk] at h
          simp only [Option.some.injEq] at h
          subst h
          have := ihk a (a + s) c d (cur + 1) r' h4 hk
          omega
        | none =>
          rw [Forest.lookup_submap_past a s kids rest c d cur hc hk] at h
          have := ihr (a + s) hi c (d + 1) cur r h5 h
          omega
    · rw [Forest.lookup_submap_out a s kids rest c d cur hc] at h
      have := ihr (a + s) hi c d cur r h5 h
      omega

theorem Forest.lookup_above :
    ∀ (g : Forest) (lo hi c d cur : Nat),
      g.WellFormed lo hi → hi ≤ c → g.lookup c d cur = none := by
  intro g
  induction g with
  | nil => intro lo hi c d cur _ _; rfl
  | leaf a s rest ih =>
    intro lo hi c d cur hwf hc
    obtain ⟨_, _, h3, h4⟩ := hwf
    rw [Forest.lookup_leaf_out a s rest c d cur (by omega)]
    exact ih (a + s) hi c d cur h4 hc
  | submap a s kids rest _ ihr =>
    intro lo hi c d cur hwf hc
    obtain ⟨_, _, h3, _, h5⟩ := hwf
    rw [Forest.lookup_submap_out a s kids rest c d cur (by omega)]
    exact ihr (a + s) hi c d cur h5 hc

theorem Forest.oracle_some (f : Forest) (c d : Nat) (r : RecurseReply)
    (h : f.lookup c d 0 = some r) (task : Nat) : f.oracle () task c d = (r, ()) := by
  unfold Forest.oracle
  simp only [h]

theorem Forest.oracle_none (f : Forest) (c d : Nat) (h : f.lookup c d 0 = none) (task : Nat) :
    (f.oracle () task c d).1.kr ≠ KERN_SUCCESS := by
  unfold Forest.oracle
  simp only [h]
  decide

theorem Forest.Hosts.after_leaf (f : Forest) (a s : Nat) (rest : Forest) (n lo hi : Nat)
    (h : f.Hosts (Forest.leaf a s rest) n lo hi) (hlo : lo ≤ a) :
    f.Hosts rest n (a + s) hi := by
  intro d c hd hc hhi
  have := h d c hd (by omega) hhi
  rw [Forest.lookup_leaf_out a s rest c (d - n) n (by omega)] at this
  exact this

theorem Forest.Hosts.after_submap (f : Forest) (a s : Nat) (kids rest : Forest)
    (n lo hi : Nat) (h : f.Hosts (Forest.submap a s kids rest) n lo hi) (hlo : lo ≤ a) :
    f.Hosts rest n (a + s) hi := by
  intro d c hd hc hhi
  have := h d c hd (by omega) hhi
  rw [Forest.lookup_submap_out a s kids rest c (d - n) n (by omega)] at this
  exact this

theorem Forest.Hosts.inside (f : Forest) (a s : Nat) (kids rest : Forest) (n lo hi : Nat)
    (h : f.Hosts (Forest.submap a s kids rest) n lo hi)
    (hwf : (Forest.submap a s kids rest).WellFormed lo hi) :
    f.Hosts kids (n + 1) a (a + s) := by
  obtain ⟨h1, _, h3, h4, h5⟩ := hwf
  intro d c hd hc hhi
  have hg := h d c (by omega) (by omega) (by omega)
  have hdn : d - n = (d - (n + 1)) + 1 := by omega
  have key : ∀ (hrest : (Forest.submap a s kids rest).lookup c (d - n) n
      = rest.lookup c (d - n) n),
      f.lookup c d 0 = none ∨ ∃ r, f.lookup c d 0 = some r ∧ a + s ≤ r.addr := by
    intro hrest
    rw [hrest] at hg
    rcases hg with ⟨r, hr, hf⟩ | ⟨_, hf | ⟨r, hf, hge⟩⟩
    · have := Forest.lookup_addr_ge rest (a + s) hi c (d - n) n r h5 hr
      exact Or.inr ⟨r, hf, this⟩
    · exact Or.inl hf
    · exact Or.inr ⟨r, hf, by omega⟩
  by_cases hin : c < a + s
  · cases hk : kids.lookup c (d - (n + 1)) (n + 1) with
    | some r =>
      have hl : (Forest.submap a s kids rest).lookup c (d - n) n = some r := by
        rw [hdn]; exact Forest.lookup_submap_kid a s kids rest c _ n r hin hk
      rw [hl] at hg
      rcases hg with ⟨r', hr', hf⟩ | ⟨hnone, _⟩
      · simp only [Option.some.injEq] at hr'
        subst hr'
        exact Or.inl ⟨r, rfl, hf⟩
      · simp at hnone
    | none =>
      refine Or.inr ⟨rfl, key ?_⟩
      rw [hdn]
      exact Forest.lookup_submap_past a s kids rest c _ n hin hk
  · have hk := Forest.lookup_above kids a (a + s) c (d - (n + 1)) (n + 1) h4 (by omega)
    refine Or.inr ⟨hk, key ?_⟩
    exact Forest.lookup_submap_out a s kids rest c (d - n) n hin

theorem Forest.Hosts.self (f : Forest) (hi : Nat) : f.Hosts f 0 0 hi := by
  intro d c _ _ _
  cases h : f.lookup c d 0 with
  | some r => exact Or.inl ⟨r, by simpa using h, rfl⟩
  | none => exact Or.inr ⟨by simpa using h, Or.inl rfl⟩

theorem print_range_loop_forest (f : Forest) (task : Nat) (extended gaps : Bool) :
    ∀ (g : Forest) (n lo hi fuel last : Nat),
      g.WellFormed lo hi → lo ≤ hi → hi < WORD → f.Hosts g n lo hi →
      n + g.height < UINT → g.count < fuel →
      ∃ out, print_range_loop f.oracle task extended gaps fuel n hi lo last () = some (out, ())
        ∧ rowsOf out.lines = g.preorder n := by
  have hW : WORD = 2 ^ 64 := rfl
  intro g
  induction g with
  | nil =>
    intro n lo hi fuel last _ hlohi _ hhost _ hfuel
    obtain ⟨fuel, rfl⟩ : ∃ k, fuel = k + 1 := ⟨fuel - 1, by omega⟩
    rcases hhost n lo (Nat.le_refl n) (Nat.le_refl lo) hlohi with
      ⟨r, hr, _⟩ | ⟨_, hnone | ⟨r, hr, hge⟩⟩
    · simp [Forest.lookup] at hr
    · refine ⟨Out.done, ?_, rfl⟩
      exact print_range_loop_fail f.oracle task extended gaps fuel n hi lo last ()
        (Forest.oracle_none f lo n hnone task)
    · have hq := Forest.oracle_some f lo n r hr task
      by_cases hk : r.kr = KERN_SUCCESS
      · have := print_range_loop_clamp f.oracle task extended gaps fuel n hi lo last ()
          (by rw [hq]; exact hk) (by rw [hq]; exact hge)
        rw [hq] at this
        exact ⟨_, this, by rw [rowsOf_with_gap]; rfl⟩
      · have := print_range_loop_fail f.oracle task extended gaps fuel n hi lo last ()
          (by rw [hq]; exact hk)
        rw [hq] at this
        exact ⟨_, this, rfl⟩
  | leaf a s rest ih =>
    intro n lo hi fuel last hwf hlohi hhi hhost hh hfuel
    obtain ⟨h1, h2, h3, h4⟩ := hwf
    obtain ⟨fuel, rfl⟩ : ∃ k, fuel = k + 1 := ⟨fuel - 1, by omega⟩
    have hcount : rest.count < fuel := by
      simp only [Forest.count] at hfuel; omega
    have hl : (Forest.leaf a s rest).lookup lo (n - n) n
        = some ⟨KERN_SUCCESS, a, s, n, simInfo false⟩ :=
      Forest.lookup_leaf_in a s rest lo _ n (by omega)
    have hf : f.lookup lo n 0 = some ⟨KERN_SUCCESS, a, s, n, simInfo false⟩ := by
      rcases hhost n lo (Nat.le_refl n) (Nat.le_refl lo) hlohi with ⟨r, hr, hfr⟩ | ⟨hnone, _⟩
      · rw [hl] at hr
        simp only [Option.some.injEq] at hr
        rw [hr]; exact hfr
      · rw [hl] at hnone; simp at hnone
    have hq := Forest.oracle_some f lo n _ hf task
    have hmod : (a + s) % WORD = a + s := Nat.mod_eq_of_lt (by omega)
    obtain ⟨no, hno, hrows⟩ := ih n (a + s) hi fuel
      (if gaps then (a + s) % WORD else last) h4 h3 hhi
      (Forest.Hosts.after_leaf f a s rest n lo hi hhost h1) hh hcount
    have := print_range_loop_row f.oracle task extended gaps fuel n hi lo last ()
      (Out.done, ()) (no, ()) (by rw [hq]) (by rw [hq]; show a < hi; omega)
      (by rw [hq]; rfl) (by rw [hq]; simp only []; rw [hmod] at hno ⊢; exact hno)
    rw [hq] at this
    refine ⟨_, this, ?_⟩
    rw [rowsOf_with_gap, rowsOf_row, hrows]
    simp only [mk_row_level, mk_row_addr, mk_row_stop, hmod, Forest.preorder, Out.lines, rowsOf,
      List.filterMap_nil, List.nil_append]
  | submap a s kids rest ihk ihr =>
    intro n lo hi fuel last hwf hlohi hhi hhost hh hfuel
    have hwf' := hwf
    obtain ⟨h1, h2, h3, h4, h5⟩ := hwf
    obtain ⟨fuel, rfl⟩ : ∃ k, fuel = k + 1 := ⟨fuel - 1, by omega⟩
    simp only [Forest.count] at hfuel
    simp only [Forest.height] at hh
    have hhk : n + 1 + kids.height < UINT := by
      have : kids.height + 1 ≤ Nat.max (kids.height + 1) rest.height := Nat.le_max_left _ _
      omega
    have hhr : n + rest.height < UINT := by
      have : rest.height ≤ Nat.max (kids.height + 1) rest.height := Nat.le_max_right _ _
      omega
    have hl : (Forest.submap a s kids rest).lookup lo (n - n) n
        = some ⟨KERN_SUCCESS, a, s, n, simInfo true⟩ := by
      rw [Nat.sub_self]
      exact Forest.lookup_submap_zero a s kids rest lo n (by omega)
    have hf : f.lookup lo n 0 = some ⟨KERN_SUCCESS, a, s, n, simInfo true⟩ := by
      rcases hhost n lo (Nat.le_refl n) (Nat.le_refl lo) hlohi with ⟨r, hr, hfr⟩ | ⟨hnone, _⟩
      · rw [hl] at hr
        simp only [Option.some.injEq] at hr
        rw [hr]; exact hfr
      · rw [hl] at hnone; simp at hnone
    have hq := Forest.oracle_some f lo n _ hf task
    have hmod : (a + s) % WORD = a + s := Nat.mod_eq_of_lt (by omega)
    have hlev : (n + 1) % UINT = n + 1 := Nat.mod_eq_of_lt (by omega)
    obtain ⟨so, hso, hsrows⟩ := ihk (n + 1) a (a + s) fuel a h4 (by omega) (by omega)
      (Forest.Hosts.inside f a s kids rest n lo hi hhost hwf') hhk (by omega)
    obtain ⟨no, hno, hrows⟩ := ihr n (a + s) hi fuel
      (if gaps then (a + s) % WORD else last) h5 h3 hhi
      (Forest.Hosts.after_submap f a s kids rest n lo hi hhost h1) hhr (by omega)
    have := print_range_loop_row f.oracle task extended gaps fuel n hi lo last ()
      (so, ()) (no, ()) (by rw [hq]) (by rw [hq]; show a < hi; omega)
      (by
        rw [hq]
        have hsm : ((simInfo true).is_submap != 0) = true := by decide
        simp only [hsm, if_true, hlev, hmod]
        exact hso)
      (by rw [hq]; simp only []; rw [hmod] at hno ⊢; exact hno)
    rw [hq] at this
    refine ⟨_, this, ?_⟩
    rw [rowsOf_with_gap, rowsOf_row, hrows, hsrows]
    simp only [mk_row_level, mk_row_addr, mk_row_stop, hmod, Forest.preorder]

/-- C11: for every finite simulated region tree that is well formed (regions
not empty, in address order below `2^64 - 1`, children inside their submap) and
nested less than `2^32` deep, the walk of `main`, `print_range(0, 0, ~0)`,
returns (with fuel above the number of regions), with or without gap entries
and extended columns, and its region rows are the regions of the tree in
pre-order: each region, then the regions inside it at the next level, then its
next sibling. -/
theorem print_range_preorder (f : Forest) (task : Nat) (extended gaps : Bool) (fuel : Nat)
    (hwf : f.WellFormed 0 (WORD - 1)) (hh : f.height < UINT) (hf : f.count < fuel) :
    ∃ out, print_range f.oracle task extended gaps fuel 0 0 (WORD - 1) () = some (out, ())
      ∧ rowsOf out.lines = f.preorder 0 :=
  print_range_loop_forest f task extended gaps f 0 0 (WORD - 1) fuel 0 hwf (Nat.zero_le _)
    (by decide) (Forest.Hosts.self f (WORD - 1)) (by omega) hf

/-- Witness of C11: the tree `[A, submap B with children B1 and B2, C]` is
printed as `A, B, B1, B2, C`. -/
theorem print_range_preorder_witness :
    ∃ out, print_range threeRegions.oracle 0x103 false false 6 0 0 (WORD - 1) () = some (out, ())
      ∧ rowsOf out.lines = [(0, 0x1000, 0x2000), (0, 0x2000, 0x6000), (1, 0x2000, 0x3000),
          (1, 0x4000, 0x5000), (0, 0x8000, 0x9000)] :=
  print_range_preorder threeRegions 0x103 false false 6
    (by unfold threeRegions; simp only [Forest.WellFormed]; decide) (by decide) (by decide)

/-! ## The backward walk: termination -/

theorem headerReadAddrs_append (a b : List Event) :
    headerReadAddrs (a ++ b) = headerReadAddrs a ++ headerReadAddrs b := by
  simp [headerReadAddrs]

theorem headerReadAddrs_acquire (l : List Event) (h : ∀ e ∈ l, e.call.isAcquire = true) :
    headerReadAddrs l = [] := by
  unfold headerReadAddrs
  rw [List.map_eq_nil_iff, List.filter_eq_nil_iff]
  intro e he
  have hne := isAcquire_ne_read _ (h e he)
  simp [hne]

theorem headerReadAddrs_chained_pos (a : Nat) :
    ∀ (evs : List Event) (cnt : Nat), 0 < cnt → Chained Call.vm_read_overwrite a cnt evs →
      headerReadAddrs evs = [] := by
  intro evs
  induction evs with
  | nil => intro _ _ _; rfl
  | cons e es ih =>
    intro cnt hc h
    simp only [Chained] at h
    obtain ⟨_, _, _, _, hoff, hrest⟩ := h
    have hes : headerReadAddrs es = [] := by
      by_cases hf : e.failed = true
      · rw [if_pos hf] at hrest
        rw [hrest]; rfl
      · rw [if_neg hf] at hrest
        exact ih _ (by omega) hrest
    have hz : ¬ e.off = 0 := by omega
    unfold headerReadAddrs at hes ⊢
    rw [List.filter_cons_of_neg (by simp [hz])]
    exact hes

theorem headerReadAddrs_chained_zero (a : Nat) (evs : List Event)
    (h : Chained Call.vm_read_overwrite a 0 evs) :
    headerReadAddrs evs = [] ∨ headerReadAddrs evs = [a] := by
  cases evs with
  | nil => left; rfl
  | cons e es =>
    right
    simp only [Chained] at h
    obtain ⟨hcall, _, _, haddr, hoff, hrest⟩ := h
    have hes : headerReadAddrs es = [] := by
      by_cases hf : e.failed = true
      · rw [if_pos hf] at hrest
        rw [hrest]; rfl
      · rw [if_neg hf] at hrest
        have hm : e.moved ≠ 0 := by
          intro hm
          apply hf
          simp [Event.failed, hm]
        exact headerReadAddrs_chained_pos a es _ (by omega) hrest
    unfold headerReadAddrs at hes ⊢
    rw [List.filter_cons_of_pos (by simp [hcall, hoff]), List.map_cons, hes, haddr]
    rfl

theorem kernel_read_first_chunk {σ : Type} (M : Mach σ) (w : World σ) (fuel a L : Nat)
    (buf : Nat → Nat) (ha : a < WORD) (hLw : L < WORD) (hh : HonestRead M) (hf : L < fuel) :
    ∃ x evs, kernel_read M fuel a L buf w = some x ∧ x.world.trace = w.trace ++ evs
      ∧ (headerReadAddrs evs = [] ∨ headerReadAddrs evs = [a]) := by
  have hW : WORD = 2 ^ 64 := rfl
  obtain ⟨l, hl, hacq⟩ := get_kernel_task_trace M w
  have hlnil := headerReadAddrs_acquire l hacq
  by_cases hcap : (get_kernel_task M w).1.1 = KERN_SUCCESS
  · rw [kernel_read_of_valid M fuel a L buf w hcap]
    by_cases hL : a + L < WORD
    · obtain ⟨x, evs, hx, ht, hch, _, _⟩ := kernel_read_loop_honest M
        (get_kernel_task M w).1.2 a L hL hh fuel 0 buf (get_kernel_task M w).2 (Nat.zero_le _)
        (by omega)
      rw [Nat.mod_eq_of_lt hL]
      refine ⟨x, l ++ evs, by simpa using hx, by rw [ht, hl, List.append_assoc], ?_⟩
      rw [headerReadAddrs_append, hlnil, List.nil_append]
      exact headerReadAddrs_chained_zero a evs hch
    · obtain ⟨f, rfl⟩ : ∃ f, fuel = f + 1 := ⟨fuel - 1, by omega⟩
      rw [kernel_read_loop_stop M _ _ f a L 0 buf _ (by rw [hW] at ha hLw hL ⊢; omega)]
      exact ⟨_, l, rfl, hl, Or.inl hlnil⟩
  · rw [kernel_read_of_absent M fuel a L buf w hcap]
    exact ⟨_, l, rfl, hl, Or.inl hlnil⟩

theorem pageLadder_length (P : Nat) : ∀ (n c : Nat), (pageLadder P c n).length = n := by
  intro n
  induction n with
  | zero => intro c; rfl
  | succ n ih => intro c; simp [pageLadder, ih]

theorem walk_bound_step (P c : Nat) (hP : 0 < P) (hc : VM_KERNEL_LINK_ADDRESS < c) :
    walk_bound P c = walk_bound P (c - P) + 1 := by
  unfold walk_bound
  generalize VM_KERNEL_LINK_ADDRESS = L at hc ⊢
  have h1 : c - L + P - 1 = (c - L - 1) + P := by omega
  have h3 : (c - P - L + P - 1) / P = (c - L - 1) / P := by
    by_cases h : L < c - P
    · have h2 : c - P - L + P - 1 = c - L - 1 := by omega
      rw [h2]
    · have h2 : c - P - L + P - 1 = P - 1 := by omega
      rw [h2, Nat.div_eq_of_lt (by omega), Nat.div_eq_of_lt (by omega)]
  rw [h1, Nat.add_div_right _ hP, h3]

theorem walk_back_step {σ : Type} (M : Mach σ) (rfuel fuel c : Nat) (mh : Nat → Nat)
    (w : World σ) (x : Xfer σ) (hc : VM_KERNEL_LINK_ADDRESS < c)
    (hx : kernel_read M rfuel ((c + WORD - M.vm_kernel_page_size % WORD) % WORD) 32 mh w
      = some x) :
    walk_back M rfuel (fuel + 1) c mh w
      = if x.ret != KERN_SUCCESS then some (0, x.world)
        else if header_mismatch x.buf then
          walk_back M rfuel fuel ((c + WORD - M.vm_kernel_page_size % WORD) % WORD) x.buf x.world
        else some ((c + WORD - M.vm_kernel_page_size % WORD) % WORD, x.world) := by
  rw [walk_back]
  simp only [Nat.not_le.mpr hc, if_false, hx]

theorem walk_back_ladder {σ : Type} (M : Mach σ) (rfuel : Nat) (hh : HonestRead M)
    (hr : 32 < rfuel) (hP : 0 < M.vm_kernel_page_size)
    (hPL : M.vm_kernel_page_size ≤ VM_KERNEL_LINK_ADDRESS) :
    ∀ (fuel c : Nat) (mh : Nat → Nat) (w : World σ), c < WORD →
      walk_bound M.vm_kernel_page_size c < fuel →
      ∃ r w' evs, walk_back M rfuel fuel c mh w = some (r, w') ∧ w'.trace = w.trace ++ evs
        ∧ (headerReadAddrs evs).Sublist
            (pageLadder M.vm_kernel_page_size c (walk_bound M.vm_kernel_page_size c)) := by
  intro fuel
  induction fuel with
  | zero => intro c mh w _ h; omega
  | succ fuel ih =>
    intro c mh w hcW hf
    by_cases hc : c ≤ VM_KERNEL_LINK_ADDRESS
    · rw [walk_back_at_bound M rfuel fuel c mh w hc]
      exact ⟨0, w, [], rfl, by simp, by simp [headerReadAddrs]⟩
    · have hlt : VM_KERNEL_LINK_ADDRESS < c := by omega
      have hPL' : M.vm_kernel_page_size ≤ 0xFFFFFFF007004000 := hPL
      have hlt' : 0xFFFFFFF007004000 < c := hlt
      have hcW' : c < 2 ^ 64 := hcW
      have hp : (c + WORD - M.vm_kernel_page_size % WORD) % WORD = c - M.vm_kernel_page_size := by
        have e1 : M.vm_kernel_page_size % WORD = M.vm_kernel_page_size :=
          Nat.mod_eq_of_lt (by show M.vm_kernel_page_size < 2 ^ 64; omega)
        rw [e1]
        show (c + 2 ^ 64 - M.vm_kernel_page_size) % 2 ^ 64 = c - M.vm_kernel_page_size
        omega
      have hpW : c - M.vm_kernel_page_size < WORD := by
        show c - M.vm_kernel_page_size < 2 ^ 64
        omega
      obtain ⟨x, evs1, hx, ht1, h1⟩ := kernel_read_first_chunk M w rfuel
        (c - M.vm_kernel_page_size) 32 mh hpW (by decide) hh hr
      have hstep := walk_bound_step M.vm_kernel_page_size c hP hlt
      have hs1 : (headerReadAddrs evs1).Sublist [c - M.vm_kernel_page_size] := by
        rcases h1 with h1 | h1
        · rw [h1]; simp
        · rw [h1]
      rw [walk_back_step M rfuel fuel c mh w x hlt (by rw [hp]; exact hx), hp, hstep]
      simp only [pageLadder]
      by_cases hret : (x.ret != KERN_SUCCESS) = true
      · rw [if_pos hret]
        exact ⟨0, x.world, evs1, rfl, ht1, hs1.trans (List.sublist_append_left _ _)⟩
      · rw [if_neg hret]
        by_cases hm : header_mismatch x.buf = true
        · rw [if_pos hm]
          obtain ⟨r, w', evs2, hw, ht2, h2⟩ := ih (c - M.vm_kernel_page_size) x.buf x.world hpW
            (by omega)
          refine ⟨r, w', evs1 ++ evs2, hw, by rw [ht2, ht1, List.append_assoc], ?_⟩
          rw [headerReadAddrs_append]
          exact hs1.append h2
        · rw [if_neg hm]
          exact ⟨_, x.world, evs1, rfl, ht1, hs1.trans (List.sublist_append_left _ _)⟩

theorem scanMach_honest (fault : Nat → Bool) : HonestRead (scanMach fault) := by
  intro e t x n
  show (Prod.fst (if fault x = true then ((KERN_INVALID_ADDRESS, []), e)
    else ((KERN_SUCCESS, loadBytes e x n), e))).2.length ≤ n
  split
  · simp
  · simp [loadBytes]

theorem xor_all_ones (m : Nat) (h : m < 2 ^ 64) :
    Nat.xor (2 ^ 64 - 1) m = 2 ^ 64 - (m + 1) := by
  show (2 ^ 64 - 1) ^^^ m = 2 ^ 64 - (m + 1)
  apply Nat.eq_of_testBit_eq
  intro i
  rw [Nat.testBit_xor, Nat.testBit_two_pow_sub_one, Nat.testBit_two_pow_sub_succ h]
  by_cases hi : i < 64
  · simp [hi]
  · have hm : m.testBit i = false :=
      Nat.testBit_eq_false_of_lt (Nat.lt_of_lt_of_le h (Nat.pow_le_pow_right (by decide)
        (by omega)))
    simp [hi, hm]

theorem trunc_page_kernel_le {σ : Type} (M : Mach σ) (p : Nat)
    (hP : 0 < M.vm_kernel_page_size) (hPW : M.vm_kernel_page_size < WORD)
    (hmask : M.vm_kernel_page_mask = M.vm_kernel_page_size - 1) :
    trunc_page_kernel M p ≤ WORD - M.vm_kernel_page_size := by
  have hPW' : M.vm_kernel_page_size < 2 ^ 64 := hPW
  unfold trunc_page_kernel
  rw [hmask]
  show Nat.land p (Nat.xor (2 ^ 64 - 1) ((M.vm_kernel_page_size - 1) % 2 ^ 64))
    ≤ 2 ^ 64 - M.vm_kernel_page_size
  rw [Nat.mod_eq_of_lt (by omega), xor_all_ones _ (by omega)]
  have h1 : p &&& (2 ^ 64 - (M.vm_kernel_page_size - 1 + 1))
      ≤ 2 ^ 64 - (M.vm_kernel_page_size - 1 + 1) := Nat.and_le_right
  show p &&& (2 ^ 64 - (M.vm_kernel_page_size - 1 + 1)) ≤ 2 ^ 64 - M.vm_kernel_page_size
  omega

/-- C21: for every candidate pointer `p`, every non-zero 64-bit page size `P`
(with the page mask `P - 1` that belongs to it), every content of `mh64` and
every outcome of the reads (any return code, any bytes, any count up to the
size asked for), the backward walk entered at `c = trunc_page_kernel(p)`
returns, with any fuel above `⌈(c - VM_KERNEL_LINK_ADDRESS) / P⌉` (and above 32
for each read); the reads of a header it starts are, in order, among the
addresses one page apart going down from the cursor, `c - P`, `c - 2 * P`,
..., and there are at most `⌈(c - VM_KERNEL_LINK_ADDRESS) / P⌉` of them. -/
theorem walk_back_terminates {σ : Type} (M : Mach σ) (rfuel fuel p : Nat) (mh : Nat → Nat)
    (w : World σ) (hh : HonestRead M) (hr : 32 < rfuel) (hP : 0 < M.vm_kernel_page_size)
    (hPW : M.vm_kernel_page_size < WORD)
    (hmask : M.vm_kernel_page_mask = M.vm_kernel_page_size - 1)
    (hf : walk_bound M.vm_kernel_page_size (trunc_page_kernel M p) < fuel) :
    ∃ r w' evs, walk_back M rfuel fuel (trunc_page_kernel M p) mh w = some (r, w')
      ∧ w'.trace = w.trace ++ evs
      ∧ (headerReadAddrs evs).Sublist
          (pageLadder M.vm_kernel_page_size (trunc_page_kernel M p)
            (walk_bound M.vm_kernel_page_size (trunc_page_kernel M p)))
      ∧ (headerReadAddrs evs).length
          ≤ walk_bound M.vm_kernel_page_size (trunc_page_kernel M p) := by
  have hcW : trunc_page_kernel M p < WORD := land_mask_lt p _
  by_cases hPL : M.vm_kernel_page_size ≤ VM_KERNEL_LINK_ADDRESS
  · obtain ⟨r, w', evs, hw, ht, hs⟩ := walk_back_ladder M rfuel hh hr hP hPL fuel
      (trunc_page_kernel M p) mh w hcW hf
    refine ⟨r, w', evs, hw, ht, hs, ?_⟩
    have := hs.length_le
    rwa [pageLadder_length] at this
  · have hle := trunc_page_kernel_le M p hP hPW hmask
    have hc : trunc_page_kernel M p ≤ VM_KERNEL_LINK_ADDRESS := by
      have hle' : trunc_page_kernel M p ≤ 2 ^ 64 - M.vm_kernel_page_size := hle
      have hPL' : ¬ M.vm_kernel_page_size ≤ 0xFFFFFFF007004000 := hPL
      show trunc_page_kernel M p ≤ 0xFFFFFFF007004000
      omega
    obtain ⟨f, rfl⟩ : ∃ f, fuel = f + 1 := ⟨fuel - 1, by omega⟩
    rw [walk_back_at_bound M rfuel f (trunc_page_kernel M p) mh w hc]
    exact ⟨0, w, [], rfl, by simp, by simp [headerReadAddrs], by simp [headerReadAddrs]⟩

/-- Witness of C21: pages of `0x4000` bytes, the candidate pointer
`0xFFFFFFF00700C123`, reads that all fail and an `mh64` that does not match:
the bound is 2. -/
theorem walk_back_terminates_witness :
    ∃ r w' evs, walk_back (scanMach fun _ => true) 33 3
          (trunc_page_kernel (scanMach fun _ => true) 0xFFFFFFF00700C123) (fun _ => 0)
          (freshWorld kernelMem) = some (r, w')
      ∧ w'.trace = (freshWorld kernelMem).trace ++ evs
      ∧ (headerReadAddrs evs).Sublist
          (pageLadder (scanMach fun _ => true).vm_kernel_page_size
            (trunc_page_kernel (scanMach fun _ => true) 0xFFFFFFF00700C123)
            (walk_bound (scanMach fun _ => true).vm_kernel_page_size
              (trunc_page_kernel (scanMach fun _ => true) 0xFFFFFFF00700C123)))
      ∧ (headerReadAddrs evs).length
          ≤ walk_bound (scanMach fun _ => true).vm_kernel_page_size
              (trunc_page_kernel (scanMach fun _ => true) 0xFFFFFFF00700C123) :=
  walk_back_terminates (scanMach fun _ => true) 33 3 0xFFFFFFF00700C123 (fun _ => 0)
    (freshWorld kernelMem) (scanMach_honest _) (by decide) (by decide) (by decide) (by decide)
    (by decide)

/-! ## Region walker: the displayed size -/

theorem with_gap_lines_row (g : Option (Nat × Char)) (t : Out) (r : Row) :
    Line.row r ∈ (with_gap g t).lines ↔ Line.row r ∈ t.lines := by
  cases g with
  | none => rfl
  | some e => simp [with_gap, Out.lines]

theorem mk_row_display (extended : Bool) (level addr size depth : Nat) (info : SubmapInfo) :
    ((mk_row extended level addr size depth info).displaysize,
      (mk_row extended level addr size depth info).scale) = size_scale size := rfl

theorem print_range_loop_display {σ : Type} (Q : RegionOracle σ) (task : Nat)
    (extended gaps : Bool) :
    ∀ (fuel level max addr last : Nat) (st : σ) (out : Out) (st' : σ),
      print_range_loop Q task extended gaps fuel level max addr last st = some (out, st') →
      ∀ r, Line.row r ∈ out.lines →
        ∃ st0 a, (Q st0 task a r.level).1.kr = KERN_SUCCESS
          ∧ (Q st0 task a r.level).1.addr = r.addr
          ∧ r.stop = (r.addr + (Q st0 task a r.level).1.size) % WORD
          ∧ (r.displaysize, r.scale) = size_scale (Q st0 task a r.level).1.size := by
  intro fuel
  induction fuel with
  | zero =>
    intro level max addr last st out st' h
    simp [print_range_loop] at h
  | succ fuel ih =>
    intro level max addr last st out st' h r hr
    rcases print_range_loop_cases Q task extended gaps fuel level max addr last st out st' h with
      ⟨_, hout, _⟩ | ⟨_, _, hout, _⟩ | ⟨hk, _, so, no, hso, hno, hout, _⟩
    · rw [hout] at hr
      simp [Out.lines] at hr
    · rw [hout, with_gap_lines_row] at hr
      simp [Out.lines] at hr
    · rw [hout, with_gap_lines_row] at hr
      simp only [Out.lines, List.mem_cons, Line.row.injEq, List.mem_append] at hr
      rcases hr with rfl | hr | hr
      · exact ⟨st, addr, hk, rfl, rfl, rfl⟩
      · by_cases hsm : ((Q st task addr level).1.info.is_submap != 0) = true
        · rw [if_pos hsm] at hso
          exact ih _ _ _ _ _ so.1 so.2 hso r hr
        · rw [if_neg hsm] at hso
          have hd : so.1 = Out.done := by
            have := congrArg Prod.fst (Option.some.inj hso)
            exact this.symm
          rw [hd] at hr
          simp [Out.lines] at hr
      · exact ih level max _ _ so.2 no.1 no.2 hno r hr

theorem print_range_single_region (task : Nat) (extended gaps : Bool) (a s fuel : Nat)
    (hs : 0 < s) (has : a + s < WORD) (hf : 1 < fuel) :
    print_range (Forest.leaf a s Forest.nil).oracle task extended gaps fuel 0 0 (WORD - 1) ()
      = some (Out.row (mk_row extended 0 a s 0 (simInfo false)) Out.done Out.done, ()) := by
  obtain ⟨f, rfl⟩ : ∃ f, fuel = f + 2 := ⟨fuel - 2, by omega⟩
  have hW : WORD = 2 ^ 64 := rfl
  have hq : (Forest.leaf a s Forest.nil).oracle () task 0 0
      = (⟨KERN_SUCCESS, a, s, 0, simInfo false⟩, ()) :=
    Forest.oracle_some _ 0 0 _ (Forest.lookup_leaf_in a s Forest.nil 0 0 0 (by omega)) task
  have hmod : (a + s) % WORD = a + s := Nat.mod_eq_of_lt has
  have hnone : (Forest.leaf a s Forest.nil).lookup (a + s) 0 0 = none := by
    rw [Forest.lookup_leaf_out a s Forest.nil (a + s) 0 0 (by omega)]
    rfl
  have hfail := Forest.oracle_none _ (a + s) 0 hnone task
  have hg : gap_entry gaps 0 a = none := by
    cases gaps <;> rfl
  have hrow := print_range_loop_row (Forest.leaf a s Forest.nil).oracle task extended gaps
    (f + 1) 0 (WORD - 1) 0 0 () (Out.done, ()) (Out.done, ())
    (by rw [hq])
    (by rw [hq]; show a < WORD - 1; rw [hW] at has ⊢; omega)
    (by rw [hq]; rfl)
    (by
      rw [hq]
      show print_range_loop _ task extended gaps (f + 1) 0 (WORD - 1) ((a + s) % WORD) _ ()
        = some (Out.done, ())
      rw [hmod]
      exact print_range_loop_fail _ task extended gaps f 0 (WORD - 1) (a + s) _ () hfail)
  rw [hq] at hrow
  unfold print_range
  rw [hrow]
  show some (with_gap (gap_entry gaps 0 a) _, ()) = _
  rw [hg]
  rfl

/-- C13: the size that `print_range` displays is the floor scaling of the
region's size.  (1) For every region size `s` from 1 on (and start `a` with
`a + s < 2^64`), the walk of `main` over a map holding just that region returns
and prints one row, from `a` to `a + s`, whose displayed value and unit are
`(s / 1024, K)` when `s / 1024 ≤ 4096`, otherwise `(s / 1024^2, M)` when
`s / 1024^2 ≤ 4096`, otherwise `(s / 1024^3, G)`.  (2) For every oracle and
every walk that returns, every row printed, at whatever depth, stands for a
region that the query reported at the row's level with the row's start, and
shows that scaling of the size `s` the query reported for it. -/
theorem print_range_size_scale_floor (task : Nat) (extended gaps : Bool) (a s fuel : Nat)
    (hs : 0 < s) (has : a + s < WORD) (hf : 1 < fuel) :
    (∃ r, print_range (Forest.leaf a s Forest.nil).oracle task extended gaps fuel 0 0
          (WORD - 1) () = some (Out.row r Out.done Out.done, ())
        ∧ r.addr = a ∧ r.stop = a + s
        ∧ (r.displaysize, r.scale)
          = if s / 1024 ≤ 4096 then (s / 1024, 'K')
            else if s / 1024 ^ 2 ≤ 4096 then (s / 1024 ^ 2, 'M')
            else (s / 1024 ^ 3, 'G'))
      ∧ ∀ {σ : Type} (Q : RegionOracle σ) (fuel level min max : Nat) (st : σ) (out : Out)
          (st' : σ),
          print_range Q task extended gaps fuel level min max st = some (out, st') →
          ∀ r, Line.row r ∈ out.lines →
            ∃ st0 c n, (Q st0 task c r.level).1.kr = KERN_SUCCESS
              ∧ (Q st0 task c r.level).1.addr = r.addr
              ∧ (Q st0 task c r.level).1.size = n
              ∧ r.stop = (r.addr + n) % WORD
              ∧ (r.displaysize, r.scale)
                = if n / 1024 ≤ 4096 then (n / 1024, 'K')
                  else if n / 1024 ^ 2 ≤ 4096 then (n / 1024 ^ 2, 'M')
                  else (n / 1024 ^ 3, 'G') := by
  refine ⟨⟨mk_row extended 0 a s 0 (simInfo false),
    print_range_single_region task extended gaps a s fuel hs has hf, rfl,
    by rw [mk_row_stop]; exact Nat.mod_eq_of_lt has,
    by rw [mk_row_display, size_scale_eq_floor]⟩, ?_⟩
  intro σ Q fuel level min max st out st' h r hr
  obtain ⟨st0, c, hk, haddr, hstop, hdisp⟩ := print_range_loop_display Q task extended gaps fuel
    level max min min st out st' h r hr
  exact ⟨st0, c, _, hk, haddr, rfl, hstop, by rw [hdisp, size_scale_eq_floor]⟩

/-- Witness of C13: a region of `0x500000` bytes at `0x1000` is shown as 5 M
(its size is 5120 K, above 4096), and so is the row of the walk over it. -/
theorem print_range_size_scale_floor_witness :
    (∃ r, print_range (Forest.leaf 0x1000 0x500000 Forest.nil).oracle 0x103 false true 2 0 0
          (WORD - 1) () = some (Out.row r Out.done Out.done, ())
        ∧ r.addr = 0x1000 ∧ r.stop = 0x1000 + 0x500000
        ∧ (r.displaysize, r.scale) = (5, 'M'))
      ∧ ∃ st0 c n, ((Forest.leaf 0x1000 0x500000 Forest.nil).oracle st0 0x103 c 0).1.kr
            = KERN_SUCCESS
          ∧ ((Forest.leaf 0x1000 0x500000 Forest.nil).oracle st0 0x103 c 0).1.addr = 0x1000
          ∧ ((Forest.leaf 0x1000 0x500000 Forest.nil).oracle st0 0x103 c 0).1.size = n
          ∧ 0x501000 = (0x1000 + n) % WORD
          ∧ (5, 'M')
            = if n / 1024 ≤ 4096 then (n / 1024, 'K')
              else if n / 1024 ^ 2 ≤ 4096 then (n / 1024 ^ 2, 'M')
              else (n / 1024 ^ 3, 'G') :=
  ⟨(print_range_size_scale_floor 0x103 false true 0x1000 0x500000 2 (by decide) (by decide)
      (by decide)).1,
    (print_range_size_scale_floor 0x103 false true 0x1000 0x500000 2 (by decide) (by decide)
      (by decide)).2 (Forest.leaf 0x1000 0x500000 Forest.nil).oracle 2 0 0 (WORD - 1) ()
      (Out.row (mk_row false 0 0x1000 0x500000 0 (simInfo false)) Out.done Out.done) ()
      (by decide) (mk_row false 0 0x1000 0x500000 0 (simInfo false)) (by simp [Out.lines])⟩

end KernUtils
